import Mathlib

/-!
Verification of the topology compiler (`yourcorp/topology`): a shallow
embedding of the parsing/validation pipeline (`types.go`, `parser.go`,
`graph.go`, `traversal.go`) and proofs about it.

Modelling conventions:
* Go `map[string]T` is an association list `List (String × T)` whose list
  order stands for one possible iteration order of the map (Go map
  iteration order is unspecified); `insertA` has Go's assignment
  semantics (overwrite the existing key in place, else append), so a map
  built from the empty list always has pairwise-distinct keys.
* Go `int` is `Int` (no arithmetic in the source can overflow 64 bits on
  the inputs the claims concern).
* The YAML schema decoding step (`yaml.Decoder`, `KnownFields`) is out of
  scope: `ParseYAML` here takes the already-decoded `YAMLTopology` value.
  Its `StringOrStringSlice` normalisation is reflected by `sameHostAs`
  being a plain `List String`.
* Node dependency edges are stored as target node IDs rather than Go
  pointers; the target's `ID` field is the string stored, identical to
  what the pointer's `.ID` reads in Go.
* Recursive Go functions (`dfsVisit`, `collectDeps`, union-find `find`,
  Kahn's loop) are embedded with an explicit fuel argument large enough
  for every reachable input; running out of fuel takes the conservative
  branch (report a cycle / stop), which is unreachable on the
  well-formed inputs the theorems quantify over.
-/

/-! ## Association lists with Go map semantics -/

/-- Lookup in an association list (Go `m[k]` read, `nil` as `none`). -/
def lookupA {α : Type} : List (String × α) → String → Option α
  | [], _ => none
  | (k, v) :: rest, key => if k = key then some v else lookupA rest key

/-- Go map assignment `m[k] = v`: overwrite in place when the key exists,
append otherwise. -/
def insertA {α : Type} : List (String × α) → String → α → List (String × α)
  | [], k, v => [(k, v)]
  | (k', v') :: rest, k, v =>
    if k' = k then (k, v) :: rest else (k', v') :: insertA rest k v

/-- Insert every pair of `l` (in list order) into `m`. -/
def insertAll {α : Type} (m : List (String × α)) (l : List (String × α)) :
    List (String × α) :=
  l.foldl (fun m p => insertA m p.1 p.2) m

def keysA {α : Type} (m : List (String × α)) : List String := m.map Prod.fst

instance {ε α : Type} [DecidableEq ε] [DecidableEq α] : DecidableEq (Except ε α)
  | .ok a, .ok b =>
    match decEq a b with
    | isTrue h => isTrue (by rw [h])
    | isFalse h => isFalse (fun hh => h (by cases hh; rfl))
  | .ok _, .error _ => isFalse (fun hh => by cases hh)
  | .error _, .ok _ => isFalse (fun hh => by cases hh)
  | .error e, .error f =>
    match decEq e f with
    | isTrue h => isTrue (by rw [h])
    | isFalse h => isFalse (fun hh => h (by cases hh; rfl))

/-! ### The string order of Go (`sort.Strings`, `<` on `string`)

Go compares strings byte-wise; UTF-8 byte order agrees with codepoint
order, so the order below (lexicographic on the codepoint sequence) is
Go's. It is defined from scratch so that it reduces inside the kernel. -/

/-- Strict lexicographic order on codepoint lists. -/
def charsLt : List Char → List Char → Bool
  | [], [] => false
  | [], _ :: _ => true
  | _ :: _, [] => false
  | a :: as, b :: bs =>
    if a.toNat < b.toNat then true
    else if b.toNat < a.toNat then false
    else charsLt as bs

/-- Reflexive lexicographic order on codepoint lists. -/
def charsLe : List Char → List Char → Bool
  | [], _ => true
  | _ :: _, [] => false
  | a :: as, b :: bs =>
    if a.toNat < b.toNat then true
    else if b.toNat < a.toNat then false
    else charsLe as bs

/-- Go `a < b` on strings. -/
def strLtB (a b : String) : Bool := charsLt a.data b.data

/-- Go `a <= b` on strings, as the ordering proposition sorts use. -/
def strLe (a b : String) : Prop := charsLe a.data b.data = true

instance : DecidableRel strLe := fun a b => decEq (charsLe a.data b.data) true

/-- Sorting a list of strings (Go `sort.Strings`). -/
def sortStrings (l : List String) : List String := l.insertionSort strLe

/-! ## The input data model (`types.go`) -/

/-- `BlueprintAppDefinition` of `types.go`. -/
structure BlueprintAppDefinition where
  dependsOn : List String
  externalDependsOn : List String
  externalDependsOnAllOf : List String
  deriving DecidableEq, Repr, Inhabited

/-- `Blueprint` of `types.go` (its `Apps` map). -/
structure Blueprint where
  apps : List (String × BlueprintAppDefinition)
  deriving DecidableEq, Repr, Inhabited

/-- `BlueprintInstance` of `types.go`; `withMap` is the `with` mapping. -/
structure BlueprintInstance where
  blueprint : String
  dependsOn : Bool
  withMap : List (String × String)
  deriving DecidableEq, Repr, Inhabited

/-- `AppDefinition` of `types.go`; `sameHostAs` is the normalised list. -/
structure AppDefinition where
  dependsOn : List String
  dependsOnAllOf : List String
  sameHostAs : List String
  uses : List BlueprintInstance
  deriving DecidableEq, Repr, Inhabited

/-- The Go zero value of `AppDefinition` (all slices nil). -/
def AppDefinition.zero : AppDefinition := ⟨[], [], [], []⟩

/-- `YAMLTopology` of `types.go`. -/
structure YAMLTopology where
  version : Int
  shards : List (String × Int)
  blueprints : List (String × Blueprint)
  apps : List (String × AppDefinition)
  deriving DecidableEq, Repr, Inhabited

/-! ## The output data model (`graph.go`) -/

/-- `Node` of `graph.go`; `dependsOn` holds the IDs of the dependency
nodes (`DependsOn []*Node` in Go, read only through `.ID`). -/
structure Node where
  id : String
  baseApp : String
  shard : Int
  hostGroupID : String
  dependsOn : List String
  deriving DecidableEq, Repr, Inhabited

/-- `Graph` of `graph.go`: the node map. -/
structure Graph where
  nodes : List (String × Node)
  deriving DecidableEq, Repr, Inhabited

/-- `DOTOptions` of `graph.go`. -/
structure DOTOptions where
  showCoLocation : Bool
  deriving DecidableEq, Repr, Inhabited

def graphGet (g : Graph) (k : String) : Option Node := lookupA g.nodes k

def sortedKeys (g : Graph) : List String := sortStrings (keysA g.nodes)

/-! ## Node IDs (`getNodeID`, `parser.go` lines 445-450) -/

/-- Go `fmt.Sprintf("%02d", i)` for a non-negative shard index. -/
def pad2 (i : Nat) : String := if i < 10 then "0" ++ toString i else toString i

/-- `getNodeID` of `parser.go`: the app name itself for shard count 1,
else `name-NN`. Shard indices at every call site are loop counters, hence
non-negative, so the index is a `Nat`. -/
def getNodeID (appName : String) (shardIndex : Nat) (shardCount : Int) : String :=
  if shardCount = 1 then appName else appName ++ "-" ++ pad2 shardIndex

/-! ## Blueprint expansion (`expandBlueprints`, `parser.go` lines 230-293) -/

def errUndefinedBlueprint (appName bp : String) : String :=
  "app '" ++ appName ++ "' uses undefined blueprint '" ++ bp ++ "'"

def errNameConflict (instName bp : String) : String :=
  "app name conflict: '" ++ instName ++ "' is generated by blueprint '" ++ bp ++
    "' but already exists"

def errUnresolvedExternal (bp parent extDep : String) : String :=
  "in blueprint '" ++ bp ++ "' used by '" ++ parent ++ "', external dependency '" ++
    extDep ++ "' is not resolved in 'with' clause"

def errInternalDep (bp bpApp intDep : String) : String :=
  "in blueprint '" ++ bp ++ "', app '" ++ bpApp ++ "' has an internal dependency on '" ++
    intDep ++ "', which is not defined in the blueprint"

/-- The names an instantiation synthesizes, in the iteration order of the
blueprint's app map. -/
def synthNames (parent : String) (bpApps : List (String × BlueprintAppDefinition)) :
    List String :=
  bpApps.map (fun p => parent ++ "-" ++ p.1)

/-- Resolve a list of external dependency placeholders through the
instance's `with` map (both the pairwise and the fan-in loop do this). -/
def resolveExternals (bp parent : String) (w : List (String × String)) :
    List String → Except String (List String)
  | [] => .ok []
  | e :: rest =>
    match lookupA w e with
    | none => .error (errUnresolvedExternal bp parent e)
    | some r => do
      let rs ← resolveExternals bp parent w rest
      .ok (r :: rs)

/-- Resolve a blueprint-internal dependency list: each name must be an app
of the blueprint, and is re-joined with the parent name. -/
def resolveInternals (bp bpApp parent : String)
    (bpApps : List (String × BlueprintAppDefinition)) :
    List String → Except String (List String)
  | [] => .ok []
  | d :: rest =>
    if (lookupA bpApps d).isSome then do
      let rs ← resolveInternals bp bpApp parent bpApps rest
      .ok ((parent ++ "-" ++ d) :: rs)
    else .error (errInternalDep bp bpApp d)

/-- The synthesized `AppDefinition` for one blueprint app (`newAppDef` in
`expandBlueprints`): external pairwise deps then internal deps, fan-in
externals, automatic co-location with the parent. -/
def synthAppDef (bp parent : String) (w : List (String × String))
    (bpApps : List (String × BlueprintAppDefinition)) (bpAppName : String)
    (bpDef : BlueprintAppDefinition) : Except String AppDefinition := do
  let ext ← resolveExternals bp parent w bpDef.externalDependsOn
  let extAll ← resolveExternals bp parent w bpDef.externalDependsOnAllOf
  let ints ← resolveInternals bp bpAppName parent bpApps bpDef.dependsOn
  .ok { dependsOn := ext ++ ints, dependsOnAllOf := extAll,
        sameHostAs := [parent], uses := [] }

/-- The `instance.DependsOn` side effect: append every synthesized name to
the parent's own dependency list (reading the parent's current entry). -/
def applyParentFlag (parent : String)
    (bpApps : List (String × BlueprintAppDefinition))
    (acc : List (String × AppDefinition)) : List (String × AppDefinition) :=
  let names := synthNames parent bpApps
  match lookupA acc parent with
  | some d => insertA acc parent { d with dependsOn := d.dependsOn ++ names }
  | none => insertA acc parent { AppDefinition.zero with dependsOn := names }

/-- The inner loop of `expandBlueprints` over one blueprint's apps:
collision check, then synthesis, then insertion. -/
def expandInstanceApps (bp parent : String) (w : List (String × String))
    (bpApps : List (String × BlueprintAppDefinition)) :
    List (String × BlueprintAppDefinition) → List (String × AppDefinition) →
    Except String (List (String × AppDefinition))
  | [], acc => .ok acc
  | (bpAppName, bpDef) :: rest, acc =>
    let instName := parent ++ "-" ++ bpAppName
    if (lookupA acc instName).isSome then .error (errNameConflict instName bp)
    else do
      let newDef ← synthAppDef bp parent w bpApps bpAppName bpDef
      expandInstanceApps bp parent w bpApps rest (insertA acc instName newDef)

/-- One `BlueprintInstance` of one app: blueprint lookup, the optional
parent-dependency side effect, then the synthesis loop. -/
def expandInstance (parent : String) (bps : List (String × Blueprint))
    (inst : BlueprintInstance) (acc : List (String × AppDefinition)) :
    Except String (List (String × AppDefinition)) :=
  match lookupA bps inst.blueprint with
  | none => .error (errUndefinedBlueprint parent inst.blueprint)
  | some bp =>
    let acc := if inst.dependsOn then applyParentFlag parent bp.apps acc else acc
    expandInstanceApps inst.blueprint parent inst.withMap bp.apps bp.apps acc

/-- All `uses` instances of one app, in slice order. -/
def expandUses (parent : String) (bps : List (String × Blueprint)) :
    List BlueprintInstance → List (String × AppDefinition) →
    Except String (List (String × AppDefinition))
  | [], acc => .ok acc
  | inst :: rest, acc => do
    let acc' ← expandInstance parent bps inst acc
    expandUses parent bps rest acc'

/-- The outer loop of `expandBlueprints` over the original apps. -/
def expandApps (bps : List (String × Blueprint)) :
    List (String × AppDefinition) → List (String × AppDefinition) →
    Except String (List (String × AppDefinition))
  | [], acc => .ok acc
  | (name, d) :: rest, acc => do
    let acc' ← expandUses name bps d.uses acc
    expandApps bps rest acc'

/-- `expandBlueprints` of `parser.go`: copy the app table, then expand
every instance of every app. -/
def expandBlueprints (t : YAMLTopology) :
    Except String (List (String × AppDefinition)) :=
  expandApps t.blueprints t.apps (insertAll [] t.apps)

/-! ## Co-location groups (`discoverCoLocationGroups`, `parser.go` lines 296-348) -/

def errUnknownTarget (target appName : String) : String :=
  "validation failed: same_host_as target '" ++ target ++ "' for app '" ++
    appName ++ "' does not exist"

/-- Union-find `find` without path compression (the root returned is the
same; compression in Go only shortens later lookups). `fuel` bounds the
parent-chain walk; chains are shorter than the number of apps. -/
def ufFind (parent : List (String × String)) : Nat → String → String
  | 0, i => i
  | fuel + 1, i =>
    match lookupA parent i with
    | none => i
    | some p => if p = i then i else ufFind parent fuel p

/-- Union-find `union` with the lexicographically-smaller root kept. -/
def ufUnion (parent : List (String × String)) (fuel : Nat) (i j : String) :
    List (String × String) :=
  let ri := ufFind parent fuel i
  let rj := ufFind parent fuel j
  if ri = rj then parent
  else if strLtB ri rj then insertA parent rj ri else insertA parent ri rj

def initParent (names : List String) : List (String × String) :=
  names.map (fun n => (n, n))

/-- The inner loop over one app's `same_host_as` targets: existence check,
then union. -/
def unionTargets (apps : List (String × AppDefinition)) (fuel : Nat)
    (appName : String) :
    List String → List (String × String) → Except String (List (String × String))
  | [], parent => .ok parent
  | target :: rest, parent =>
    if (lookupA apps target).isSome then
      unionTargets apps fuel appName rest (ufUnion parent fuel appName target)
    else .error (errUnknownTarget target appName)

/-- The loop over all (sorted) app names unioning `same_host_as` edges. -/
def unionAll (apps : List (String × AppDefinition)) (fuel : Nat) :
    List String → List (String × String) → Except String (List (String × String))
  | [], parent => .ok parent
  | name :: rest, parent =>
    match lookupA apps name with
    | none => unionAll apps fuel rest parent
    | some d => do
      let parent' ← unionTargets apps fuel name d.sameHostAs parent
      unionAll apps fuel rest parent'

/-- Collect members under their root, iterating app names in sorted order. -/
def buildGroups (parent : List (String × String)) (fuel : Nat) :
    List String → List (String × List String) → List (String × List String)
  | [], groups => groups
  | name :: rest, groups =>
    let root := ufFind parent fuel name
    let groups :=
      insertA groups root (((lookupA groups root).getD []) ++ [name])
    buildGroups parent fuel rest groups

/-- `discoverCoLocationGroups` of `parser.go`. It receives the expanded
app table (Go reads it from `rawTopology.Apps` after reassignment). -/
def discoverCoLocationGroups (apps : List (String × AppDefinition)) :
    Except String (List (String × List String)) := do
  let appNames := sortStrings (keysA apps)
  let fuel := appNames.length
  let parent ← unionAll apps fuel appNames (initParent appNames)
  let groups := buildGroups parent fuel appNames []
  .ok (groups.map (fun p => (p.1, sortStrings p.2)))

/-! ## Shard counts (`inferAndValidateShardCounts`, `parser.go` lines 350-377) -/

def errShardNonexistent (name : String) : String :=
  "validation failed: shard count defined for non-existent app '" ++ name ++ "'"

def errConflictingShards (root : String) (expected found : Int) (member : String) :
    String :=
  "validation failed: conflicting shard counts defined for co-location group '" ++
    root ++ "'. Expected " ++ toString expected ++ ", but found " ++
    toString found ++ " for '" ++ member ++ "'"

/-- The existence check over the `shards` map entries. -/
def checkShardsExist (apps : List (String × AppDefinition)) :
    List (String × Int) → Except String Unit
  | [] => .ok ()
  | (name, _) :: rest =>
    if (lookupA apps name).isSome then checkShardsExist apps rest
    else .error (errShardNonexistent name)

/-- The per-group scan: `-1` is the "none declared yet" sentinel of the Go
code, and a conflict is two distinct declared counts. -/
def groupCount (shards : List (String × Int)) (root : String) :
    List String → Int → Except String Int
  | [], acc => .ok acc
  | member :: rest, acc =>
    match lookupA shards member with
    | none => groupCount shards root rest acc
    | some count =>
      if acc ≠ -1 ∧ acc ≠ count then .error (errConflictingShards root acc count member)
      else groupCount shards root rest count

/-- The loop over all groups adopting the declared count (default 1). -/
def assignCounts (shards : List (String × Int)) :
    List (String × List String) → List (String × Int) →
    Except String (List (String × Int))
  | [], m => .ok m
  | (root, members) :: rest, m => do
    let c ← groupCount shards root members (-1)
    let c' := if c = -1 then 1 else c
    assignCounts shards rest (members.foldl (fun m mem => insertA m mem c') m)

/-- `inferAndValidateShardCounts` of `parser.go`. -/
def inferAndValidateShardCounts (apps : List (String × AppDefinition))
    (shards : List (String × Int)) (groups : List (String × List String)) :
    Except String (List (String × Int)) := do
  checkShardsExist apps shards
  assignCounts shards groups []

/-! ## Node materialization (`buildConcreteNodes`, `parser.go` lines 379-405) -/

/-- The member-to-root map (`appRoots` in the Go code). -/
def appRootsOf (groups : List (String × List String)) : List (String × String) :=
  groups.foldl (fun m p => p.2.foldl (fun m mem => insertA m mem p.1) m) []

/-- The nodes one app contributes: one per shard index, with a host-group
ID exactly when the app's co-location group has more than one member. -/
def appNodeEntries (groups : List (String × List String))
    (appRoots : List (String × String)) (appName : String) (shardCount : Int) :
    List (String × Node) :=
  let groupRoot := (lookupA appRoots appName).getD ""
  let groupSize := ((lookupA groups groupRoot).getD []).length
  (List.range shardCount.toNat).map (fun i =>
    let nodeID := getNodeID appName i shardCount
    let hostGroupID :=
      if groupSize > 1 then getNodeID ("hostgroup-" ++ groupRoot) i shardCount else ""
    (nodeID, { id := nodeID, baseApp := appName, shard := (i : Int),
               hostGroupID := hostGroupID, dependsOn := [] }))

/-- Every node entry, in app iteration order (the Go loop nests the shard
loop inside the app loop; inserting the concatenation is the same fold). -/
def allNodeEntries (apps : List (String × AppDefinition))
    (groups : List (String × List String)) (counts : List (String × Int)) :
    List (String × Node) :=
  apps.flatMap (fun p =>
    appNodeEntries groups (appRootsOf groups) p.1 ((lookupA counts p.1).getD 0))

/-- `buildConcreteNodes` of `parser.go`. -/
def buildConcreteNodes (apps : List (String × AppDefinition))
    (groups : List (String × List String)) (counts : List (String × Int)) :
    Except String Graph :=
  .ok ⟨insertAll [] (allNodeEntries apps groups counts)⟩

/-! ## Dependency linking (`linkDependencies`, `parser.go` lines 407-443) -/

def errDepMissing (depName appName : String) : String :=
  "validation failed: depends_on target '" ++ depName ++ "' for app '" ++
    appName ++ "' does not exist"

def errAllOfMissing (depName appName : String) : String :=
  "validation failed: depends_on_all_of target '" ++ depName ++ "' for app '" ++
    appName ++ "' does not exist"

def errAmbiguous (appName : String) (appShardCount : Int) (depName : String)
    (depShardCount : Int) : String :=
  "validation failed: ambiguous 'depends_on' from '" ++ appName ++ "' (" ++
    toString appShardCount ++ " shards) to '" ++ depName ++ "' (" ++
    toString depShardCount ++
    " shards). Use 'depends_on_all_of' for fan-in dependencies"

/-- The pairwise `depends_on` loop for one shard `i` of an app: existence
check, shard-ratio check, then the single edge per dependency. -/
def pairwiseEdges (apps : List (String × AppDefinition))
    (counts : List (String × Int)) (appName : String) (appShardCount : Int)
    (i : Nat) : List String → Except String (List String)
  | [] => .ok []
  | depName :: rest =>
    if (lookupA apps depName).isNone then .error (errDepMissing depName appName)
    else
      let depShardCount := (lookupA counts depName).getD 0
      if depShardCount ≠ 1 ∧ depShardCount ≠ appShardCount then
        .error (errAmbiguous appName appShardCount depName depShardCount)
      else
        let depShardIndex := if depShardCount = 1 then 0 else i
        do
          let rest' ← pairwiseEdges apps counts appName appShardCount i rest
          .ok (getNodeID depName depShardIndex depShardCount :: rest')

/-- The fan-in `depends_on_all_of` loop: one edge to every shard of the
dependency, no ratio restriction. -/
def allOfEdges (apps : List (String × AppDefinition))
    (counts : List (String × Int)) (appName : String) :
    List String → Except String (List String)
  | [] => .ok []
  | depName :: rest =>
    if (lookupA apps depName).isNone then .error (errAllOfMissing depName appName)
    else
      let c := (lookupA counts depName).getD 0
      do
        let rest' ← allOfEdges apps counts appName rest
        .ok ((List.range c.toNat).map (fun j => getNodeID depName j c) ++ rest')

/-- The edges appended to shard `i` of an app: pairwise then fan-in. -/
def shardEdges (apps : List (String × AppDefinition))
    (counts : List (String × Int)) (appName : String) (appShardCount : Int)
    (i : Nat) (d : AppDefinition) : Except String (List String) := do
  let p ← pairwiseEdges apps counts appName appShardCount i d.dependsOn
  let a ← allOfEdges apps counts appName d.dependsOnAllOf
  .ok (p ++ a)

/-- Append edges to the node stored under `nodeID` (the Go code mutates
the node through its pointer in the map). -/
def appendDeps (g : Graph) (nodeID : String) (edges : List String) : Graph :=
  ⟨g.nodes.map (fun p =>
    if p.1 = nodeID then (p.1, { p.2 with dependsOn := p.2.dependsOn ++ edges })
    else p)⟩

/-- The shard loop of `linkDependencies` for one app. -/
def linkShards (apps : List (String × AppDefinition))
    (counts : List (String × Int)) (appName : String) (appShardCount : Int)
    (d : AppDefinition) : List Nat → Graph → Except String Graph
  | [], g => .ok g
  | i :: rest, g => do
    let es ← shardEdges apps counts appName appShardCount i d
    linkShards apps counts appName appShardCount d rest
      (appendDeps g (getNodeID appName i appShardCount) es)

/-- The app loop of `linkDependencies`. -/
def linkApps (apps : List (String × AppDefinition))
    (counts : List (String × Int)) :
    List (String × AppDefinition) → Graph → Except String Graph
  | [], g => .ok g
  | (appName, d) :: rest, g => do
    let cnt := (lookupA counts appName).getD 0
    let g' ← linkShards apps counts appName cnt d (List.range cnt.toNat) g
    linkApps apps counts rest g'

/-- `linkDependencies` of `parser.go`. -/
def linkDependencies (g : Graph) (apps : List (String × AppDefinition))
    (counts : List (String × Int)) : Except String Graph :=
  linkApps apps counts apps g

/-! ## Cycle detection (`detectCycle` / `dfsVisit`, `parser.go` lines 452-496) -/

/-- The comparator `dfsVisit` sorts each node's dependency slice with
(`node.DependsOn[i].ID < node.DependsOn[j].ID`); on ID strings this is the
ascending sort of the ID list. -/
def sortDeps (l : List String) : List String := l.insertionSort strLe

/-- The whole-graph effect of the in-place sorts `dfsVisit` performs: on a
run of `detectCycle` that finds no cycle every node has been visited
exactly once and its dependency slice left sorted. -/
def sortGraphDeps (g : Graph) : Graph :=
  ⟨g.nodes.map (fun p => (p.1, { p.2 with dependsOn := sortDeps p.2.dependsOn }))⟩

/-- The dependency loop of `dfsVisit`, with the recursive visit passed in
(`visit` is the fuel-smaller `dfsVisit`). Yields the cycle path (in
`dfsVisit`'s reversed convention) or the grown `visited` set. -/
def dfsDepsWith (visit : Node → List String → List String →
    Except (List String) (List String)) (g : Graph) (nid : String) :
    List String → List String → List String → Except (List String) (List String)
  | [], _, visited => .ok visited
  | depId :: rest, visiting, visited =>
    if depId ∈ visiting then .error [depId, nid]
    else if depId ∈ visited then dfsDepsWith visit g nid rest visiting visited
    else
      match lookupA g.nodes depId with
      | none => dfsDepsWith visit g nid rest visiting visited
      | some depNode =>
        match visit depNode visiting visited with
        | .error path => .error (if path.head? = some nid then path else nid :: path)
        | .ok visited' => dfsDepsWith visit g nid rest visiting visited'

/-- `dfsVisit` of `parser.go`: mark the node as in the current path, sort
its dependencies, walk them, then mark it fully explored. `visiting` is
the set of `true` keys of the Go `visiting` map (a node removes itself on
return, so the caller's set is unchanged); `visited` records nodes in
finishing order, most recent first. Out of fuel reports an empty cycle
path (unreachable: the recursion depth is the current path length). -/
def dfsVisit (g : Graph) : Nat → Node → List String → List String →
    Except (List String) (List String)
  | 0, _, _, _ => .error []
  | fuel + 1, node, visiting, visited =>
    match dfsDepsWith (fun n a b => dfsVisit g fuel n a b) g node.id
        (sortDeps node.dependsOn) (node.id :: visiting) visited with
    | .error path => .error path
    | .ok visited' => .ok (node.id :: visited')

/-- The loop of `detectCycle` over the sorted node keys. -/
def detectLoop (g : Graph) : List String → List String → Option (List String)
  | [], _ => none
  | k :: rest, visited =>
    if k ∈ visited then detectLoop g rest visited
    else
      match lookupA g.nodes k with
      | none => detectLoop g rest visited
      | some n =>
        match dfsVisit g (g.nodes.length + 1) n [] visited with
        | .error path => some path.reverse
        | .ok visited' => detectLoop g rest visited'

/-- `detectCycle` of `parser.go`: DFS from every node in sorted key order;
a detected path is reversed before being returned. -/
def detectCycle (g : Graph) : Option (List String) :=
  detectLoop g (sortedKeys g) []

/-! ## `ParseYAML` (`parser.go` lines 188-226) -/

def cycleError (path : List String) : String :=
  "validation failed: dependency cycle detected: " ++ String.intercalate " -> " path

/-- `ParseYAML` of `parser.go`, starting from the decoded document. The
returned graph is the linked graph after `detectCycle` has (as a side
effect of its in-place sorts) left every dependency slice sorted. -/
def ParseYAML (t : YAMLTopology) : Except String Graph := do
  let exp ← expandBlueprints t
  let grps ← discoverCoLocationGroups exp
  let cnts ← inferAndValidateShardCounts exp t.shards grps
  let g0 ← buildConcreteNodes exp grps cnts
  let g1 ← linkDependencies g0 exp cnts
  let gs := sortGraphDeps g1
  match detectCycle gs with
  | some path => .error (cycleError path)
  | none => .ok gs

/-! ## Startup / shutdown order (`traversal.go` lines 512-553) -/

/-- `a.id ≤ b.id`, the order `GetStartupOrder` sorts each layer by. -/
def nodeLE (a b : Node) : Prop := strLe a.id b.id

instance : DecidableRel nodeLE := fun a b => inferInstanceAs (Decidable (strLe a.id b.id))

def sortNodes (l : List Node) : List Node := l.insertionSort nodeLE

/-- `inDegree[node.ID] = len(node.DependsOn)` over all nodes. -/
def buildInDegree (nodes : List (String × Node)) : List (String × Int) :=
  nodes.foldl (fun m p => insertA m p.2.id (p.2.dependsOn.length : Int)) []

/-- `reverseDeps[dep.ID] = append(..., node)` over all nodes and edges. -/
def buildReverseDeps (nodes : List (String × Node)) : List (String × List Node) :=
  nodes.foldl (fun m p =>
    p.2.dependsOn.foldl (fun m depId =>
      insertA m depId (((lookupA m depId).getD []) ++ [p.2])) m) []

/-- The zero-in-degree seed queue, in in-degree-map iteration order. -/
def initialQueue (g : Graph) (inDeg : List (String × Int)) : List Node :=
  inDeg.foldl (fun q p =>
    if p.2 = (0 : Int) then
      match lookupA g.nodes p.1 with
      | some n => q ++ [n]
      | none => q
    else q) []

/-- One in-degree decrement per reverse edge of a peeled node, appending a
dependent to the next queue exactly when its degree reaches zero. -/
def processEvents : List (String × Int) → List Node → List Node →
    List (String × Int) × List Node
  | inDeg, nextQ, [] => (inDeg, nextQ)
  | inDeg, nextQ, n :: rest =>
    let d := ((lookupA inDeg n.id).getD 0) - 1
    let inDeg' := insertA inDeg n.id d
    let nextQ' := if d = 0 then nextQ ++ [n] else nextQ
    processEvents inDeg' nextQ' rest

/-- The peeling loop of `GetStartupOrder` (fuel: one iteration peels at
least one node, plus the final empty-queue check). -/
def kahnLoop (revDeps : List (String × List Node)) :
    Nat → List (String × Int) → List Node → List (List Node) → List (List Node)
  | 0, _, _, acc => acc
  | fuel + 1, inDeg, queue, acc =>
    if queue.isEmpty then acc
    else
      let layer := sortNodes queue
      let events := layer.flatMap (fun m => (lookupA revDeps m.id).getD [])
      let (inDeg', nextQ) := processEvents inDeg [] events
      kahnLoop revDeps fuel inDeg' nextQ (acc ++ [layer])

/-- `GetStartupOrder` of `traversal.go` (Kahn's algorithm in layers). -/
def GetStartupOrder (g : Graph) : List (List Node) :=
  let inDeg := buildInDegree g.nodes
  let revDeps := buildReverseDeps g.nodes
  let queue := initialQueue g inDeg
  kahnLoop revDeps (g.nodes.length + 1) inDeg queue []

/-- `GetShutdownOrder` of `traversal.go`: the startup layers reversed in
place. -/
def GetShutdownOrder (g : Graph) : List (List Node) :=
  (GetStartupOrder g).reverse

/-! ## Targeted subgraph (`GetSubgraphFor`, `traversal.go` lines 555-585) -/

/-- The seed set: every node sharing the target's host group when it has
one, else just the target (graph-map iteration order). -/
def subgraphSeeds (g : Graph) (startNode : Node) : List Node :=
  if startNode.hostGroupID ≠ "" then
    (g.nodes.map Prod.snd).filter (fun n => n.hostGroupID = startNode.hostGroupID)
  else [startNode]

/-- `collectDeps`: depth-first collection of a node and its transitive
dependencies into the subgraph map. -/
def collectDeps (g : Graph) : Nat → Node → Graph → Graph
  | 0, _, sub => sub
  | fuel + 1, node, sub =>
    if (lookupA sub.nodes node.id).isSome then sub
    else
      let sub' : Graph := ⟨insertA sub.nodes node.id node⟩
      node.dependsOn.foldl (fun sub depId =>
        match lookupA g.nodes depId with
        | none => sub
        | some dn => collectDeps g fuel dn sub) sub'

/-- `GetSubgraphFor` of `traversal.go`. -/
def GetSubgraphFor (g : Graph) (targetNodeID : String) : Except String Graph :=
  match lookupA g.nodes targetNodeID with
  | none => .error ("node '" ++ targetNodeID ++ "' not found in the graph")
  | some startNode =>
    .ok ((subgraphSeeds g startNode).foldl
      (fun sub n => collectDeps g (g.nodes.length + 1) n sub) ⟨[]⟩)

/-! ## DOT rendering (`Graph.DOT`, `graph.go` lines 112-166) -/

/-- `Graph.DOT`: header, plain node lines / host-group clusters in sorted
key order, sorted cluster blocks, then all edges in sorted key order. -/
def DOT (g : Graph) (opts : DOTOptions) : String :=
  let nodeKeys := sortedKeys g
  let header :=
    "digraph G \x7b\n  compound=true;\n  rankdir=TB;\n  node [shape=box, style=rounded];\n\n"
  let pass := nodeKeys.foldl
    (fun (acc : String × List (String × List Node)) key =>
      match graphGet g key with
      | none => acc
      | some node =>
        if opts.showCoLocation && node.hostGroupID ≠ "" then
          (acc.1, insertA acc.2 node.hostGroupID
            (((lookupA acc.2 node.hostGroupID).getD []) ++ [node]))
        else (acc.1 ++ "  \"" ++ node.id ++ "\";\n", acc.2))
    ("", [])
  let clusters :=
    if opts.showCoLocation then
      (sortStrings (keysA pass.2)).foldl (fun s groupID =>
        s ++ "  subgraph \"cluster_" ++ groupID ++ "\" \x7b\n    label = \"" ++
          groupID ++ "\";\n    style = filled;\n    color = lightgrey;\n" ++
          (((lookupA pass.2 groupID).getD []).foldl
            (fun s n => s ++ "    \"" ++ n.id ++ "\";\n") "") ++
          "  \x7d\n") ""
    else ""
  let edges := nodeKeys.foldl (fun s key =>
    match graphGet g key with
    | none => s
    | some node =>
      node.dependsOn.foldl
        (fun s depId => s ++ "  \"" ++ node.id ++ "\" -> \"" ++ depId ++ "\";\n") s)
    ""
  header ++ pass.1 ++ clusters ++ "\n" ++ edges ++ "\x7d\n"

/-- Decimal parsing of a digit string (specification helper: used to state
that a node-ID suffix reads back as the shard index). -/
def parseDec (l : List Char) : Nat := l.foldl (fun a c => 10 * a + (c.toNat - 48)) 0

/-! ## Graph well-formedness and canonical Kahn layering

Specification-side notions used to state and prove the layering claims;
the theorems below connect them to the executable functions. -/

/-- Well-formedness that `ParseYAML` guarantees for the graph it returns:
distinct keys, every node stored under its own ID, every edge target
present in the map. -/
def GraphWF (g : Graph) : Prop :=
  (keysA g.nodes).Nodup ∧ (∀ p ∈ g.nodes, p.2.id = p.1) ∧
  (∀ p ∈ g.nodes, ∀ d ∈ p.2.dependsOn, d ∈ keysA g.nodes)

/-- `L` lists node IDs most-recently-finished first such that every
listed node's dependencies appear later in the list (a reversed
topological order, as produced by the DFS finishing times). -/
def TopoOK (g : Graph) : List String → Prop
  | [] => True
  | k :: rest =>
    (∀ n, lookupA g.nodes k = some n → ∀ d ∈ n.dependsOn, d ∈ rest) ∧ TopoOK g rest

/-- The canonical next Kahn layer over peeled set `P`: every not-yet-peeled
node all of whose dependencies are peeled, in sorted ID order. -/
def kahnStep (g : Graph) (P : List String) : List String :=
  (sortedKeys g).filter (fun k =>
    !(P.contains k) &&
      ((graphGet g k).map (fun n => n.dependsOn.all (P.contains ·))).getD false)

/-- The canonical layering: peel `kahnStep` layers until one is empty. -/
def kahnSpecAux (g : Graph) : Nat → List String → List (List Node)
  | 0, _ => []
  | fuel + 1, P =>
    let L := kahnStep g P
    if L.isEmpty then []
    else (L.filterMap (graphGet g)) :: kahnSpecAux g fuel (P ++ L)

/-- The canonical layering of a graph, as node layers. -/
def kahnSpec (g : Graph) : List (List Node) := kahnSpecAux g (g.nodes.length + 1) []

/-! ## Derived pipeline stages used in statements -/

/-- The shard-count table as computed inside `ParseYAML` (the composition
of the stages before `buildConcreteNodes`). -/
def pipelineCounts (t : YAMLTopology) : Except String (List (String × Int)) := do
  let exp ← expandBlueprints t
  let grps ← discoverCoLocationGroups exp
  inferAndValidateShardCounts exp t.shards grps

/-! ## Characterizations of the linker's edge construction

These restate the loop bodies of `linkDependencies` as closed formulas;
the theorems below prove they characterize the function. -/

/-- The target node ID of one pairwise `depends_on` edge from shard `i`
(`depShardIndex` is `0` for a singleton dependency, else `i`). -/
def pairwiseTarget (counts : List (String × Int)) (i : Nat) (depName : String) :
    String :=
  let c := (lookupA counts depName).getD 0
  getNodeID depName (if c = 1 then 0 else i) c

/-- The target node IDs of one fan-in `depends_on_all_of` dependency: one
per shard of the dependency. -/
def allOfTargets (counts : List (String × Int)) (depName : String) : List String :=
  let c := (lookupA counts depName).getD 0
  (List.range c.toNat).map (fun j => getNodeID depName j c)

/-- All edges `linkDependencies` appends to shard `i` of an app: pairwise
targets in `depends_on` order, then fan-in targets in
`depends_on_all_of` order. -/
def edgesFor (counts : List (String × Int)) (d : AppDefinition) (i : Nat) :
    List String :=
  d.dependsOn.map (pairwiseTarget counts i) ++
    d.dependsOnAllOf.flatMap (allOfTargets counts)

/-- The node IDs one app's shards occupy. -/
def perAppIDs (counts : List (String × Int)) (p : String × AppDefinition) :
    List String :=
  (List.range ((lookupA counts p.1).getD 0).toNat).map
    (fun i => getNodeID p.1 i ((lookupA counts p.1).getD 0))

/-- Every node ID the materializer writes, in app iteration order (the
keys of `allNodeEntries`, which do not depend on the group table). -/
def materialIDs (apps : List (String × AppDefinition))
    (counts : List (String × Int)) : List String :=
  apps.flatMap (perAppIDs counts)

/-! ## Concrete documents used by the concrete theorems -/

/-- `x` (3 shards) with a pairwise dependency on `w` (2 shards): the
ambiguous ratio of the spec's test. -/
def ambigDoc : YAMLTopology :=
  { version := 1, shards := [("x", 3), ("w", 2)], blueprints := [],
    apps := [("x", { AppDefinition.zero with dependsOn := ["w"] }),
             ("w", AppDefinition.zero)] }

/-- `x` (3 shards) with a fan-in dependency on `w` (2 shards). -/
def faninDoc : YAMLTopology :=
  { version := 1, shards := [("x", 3), ("w", 2)], blueprints := [],
    apps := [("x", { AppDefinition.zero with dependsOnAllOf := ["w"] }),
             ("w", AppDefinition.zero)] }

/-- Apps `A → B → C → A` by pairwise `depends_on` (the spec's cycle
scenario). -/
def cycleDoc : YAMLTopology :=
  { version := 1, shards := [], blueprints := [],
    apps := [("A", { AppDefinition.zero with dependsOn := ["B"] }),
             ("B", { AppDefinition.zero with dependsOn := ["C"] }),
             ("C", { AppDefinition.zero with dependsOn := ["A"] })] }

/-- App `a` declares 3 shards and `b` co-locates with it declaring none;
`c` declares 2 shards with no co-location partner. -/
def coloDoc : YAMLTopology :=
  { version := 1, shards := [("a", 3), ("c", 2)], blueprints := [],
    apps := [("a", AppDefinition.zero),
             ("b", { AppDefinition.zero with sameHostAs := ["a"] }),
             ("c", AppDefinition.zero)] }

/-- An app using a blueprint that is not defined. -/
def bpUndefDoc : YAMLTopology :=
  { version := 1, shards := [], blueprints := [],
    apps := [("p", { AppDefinition.zero with uses := [⟨"nope", false, []⟩] })] }

/-- A blueprint app with an external dependency placeholder the instance's
`with` map does not bind. -/
def bpWithDoc : YAMLTopology :=
  { version := 1, shards := [],
    blueprints := [("bp", ⟨[("x", ⟨[], ["db"], []⟩)]⟩)],
    apps := [("p", { AppDefinition.zero with uses := [⟨"bp", false, []⟩] })] }

/-- Two instantiations of the same blueprint by one app: both synthesize
the name `p-x`. -/
def bpCollideDoc : YAMLTopology :=
  { version := 1, shards := [],
    blueprints := [("bp", ⟨[("x", ⟨[], [], []⟩)]⟩)],
    apps := [("p", { AppDefinition.zero with uses := [⟨"bp", false, []⟩, ⟨"bp", false, []⟩] })] }

/-- A synthesized name that collides with an explicitly declared app. -/
def bpCollideDoc2 : YAMLTopology :=
  { version := 1, shards := [],
    blueprints := [("bp", ⟨[("x", ⟨[], [], []⟩)]⟩)],
    apps := [("p", { AppDefinition.zero with uses := [⟨"bp", false, []⟩] }),
             ("p-x", AppDefinition.zero)] }

/-- A declared shard count of 0: `inferAndValidateShardCounts` adopts it
unchecked and `ParseYAML` accepts the document, materializing no node. -/
def zeroShardDoc : YAMLTopology :=
  { version := 1, shards := [("a", 0)], blueprints := [],
    apps := [("a", AppDefinition.zero)] }

/-- App `x` (2 shards, co-located with `y`) materializes a node `x-01`,
and a distinct app is itself named `x-01`: both writes land on the map key
`x-01`, so the surviving node depends on the app iteration order. The two
documents below hold the same maps, listed in two different iteration
orders. -/
def collideDocA : YAMLTopology :=
  { version := 1, shards := [("x", 2)], blueprints := [],
    apps := [("x", { AppDefinition.zero with sameHostAs := ["y"] }),
             ("y", AppDefinition.zero),
             ("x-01", AppDefinition.zero)] }

/-- `collideDocA` with its app map listed in another iteration order. -/
def collideDocB : YAMLTopology :=
  { version := 1, shards := [("x", 2)], blueprints := [],
    apps := [("x-01", AppDefinition.zero),
             ("x", { AppDefinition.zero with sameHostAs := ["y"] }),
             ("y", AppDefinition.zero)] }

/-- The host-group ID of group root `x` at shard 1 (`hostgroup-x-01`)
collides with the host-group ID of the singleton-count group rooted at the
app named `x-01` (`hostgroup-x-01` with no shard suffix). -/
def hostGroupClashDoc : YAMLTopology :=
  { version := 1, shards := [("x", 2)], blueprints := [],
    apps := [("x", { AppDefinition.zero with sameHostAs := ["y"] }),
             ("y", AppDefinition.zero),
             ("x-01", { AppDefinition.zero with sameHostAs := ["z"] }),
             ("z", AppDefinition.zero)] }

/-! ## Specification-side notions for the Kahn layering proofs -/

/-- The number of occurrences among `events` of nodes carrying ID `k`:
the number of in-degree decrements `processEvents` applies to `k`. -/
def cntId (events : List Node) (k : String) : Nat :=
  (events.filter (fun e => decide (e.id = k))).length

/-- The number of dependencies of `n` (with multiplicity) not yet peeled
(outside `P`): the value Kahn's algorithm keeps in the in-degree map. -/
def pendCount (n : Node) (P : List String) : Nat :=
  (n.dependsOn.filter (fun d => !(decide (d ∈ P)))).length

/-- A correct layer sequence over graph `g` starting from peeled set `P`:
each layer is nonempty, its members are distinct canonical nodes of the
graph, not yet peeled, with every dependency already peeled; and once the
layers run out every key of the graph has been peeled. -/
def LayersOK (g : Graph) : List String → List (List Node) → Prop
  | P, [] => ∀ k ∈ keysA g.nodes, k ∈ P
  | P, L :: rest =>
    (∀ x ∈ L, lookupA g.nodes x.id = some x ∧ x.id ∉ P ∧
      ∀ d ∈ x.dependsOn, d ∈ P) ∧
    (L.map (fun x => x.id)).Nodup ∧ L ≠ [] ∧
    LayersOK g (P ++ L.map (fun x => x.id)) rest

/-- The graph compiled from `coloDoc`, used to instantiate the layering
theorem on a concrete accepted document. -/
def c3Graph : Graph :=
  match ParseYAML coloDoc with
  | .ok g => g
  | .error _ => ⟨[]⟩

/-- The graph compiled from `faninDoc`, used to instantiate the
map-iteration-order determinism theorem on a concrete accepted document. -/
def c1Graph : Graph :=
  match ParseYAML faninDoc with
  | .ok g => g
  | .error _ => ⟨[]⟩

/-- The same node map as `c1Graph` with its entries enumerated in the
opposite order: a model of another Go map iteration order over the same
underlying map. -/
def c1GraphPerm : Graph := ⟨c1Graph.nodes.reverse⟩

/-- The co-location root of an app, as `buildConcreteNodes` reads it from
the member-to-root map. -/
def groupRootOf (groups : List (String × List String)) (a : String) : String :=
  (lookupA (appRootsOf groups) a).getD ""

/-- The number of members of an app's co-location group, as
`buildConcreteNodes` reads it. -/
def groupSizeOf (groups : List (String × List String)) (a : String) : Nat :=
  ((lookupA groups (groupRootOf groups a)).getD []).length

/-- The host-group ID `buildConcreteNodes` assigns to shard `i` of app
`a` when the app's group has more than one member. -/
def hostGroupName (groups : List (String × List String))
    (counts : List (String × Int)) (a : String) (i : Nat) : String :=
  getNodeID ("hostgroup-" ++ groupRootOf groups a) i ((lookupA counts a).getD 0)

/-- A document with a sharded co-located pair (`sor`/`moop`, two shards)
plus a singleton dependency, for instantiating the host-group theorem. -/
def sorMoopDoc : YAMLTopology :=
  { version := 1, shards := [("sor", 2)], blueprints := [],
    apps := [("sor", { AppDefinition.zero with
                         dependsOn := ["db"], sameHostAs := ["moop"] }),
             ("moop", AppDefinition.zero),
             ("db", AppDefinition.zero)] }

/-- The graph compiled from `sorMoopDoc`. -/
def c10Graph : Graph :=
  match ParseYAML sorMoopDoc with
  | .ok g => g
  | .error _ => ⟨[]⟩

/-- The expanded app table of `sorMoopDoc`. -/
def c10Exp : List (String × AppDefinition) :=
  match expandBlueprints sorMoopDoc with
  | .ok e => e
  | .error _ => []

/-- The co-location groups of `sorMoopDoc`. -/
def c10Grps : List (String × List String) :=
  match discoverCoLocationGroups c10Exp with
  | .ok e => e
  | .error _ => []

/-- The inferred shard counts of `sorMoopDoc`. -/
def c10Cnts : List (String × Int) :=
  match inferAndValidateShardCounts c10Exp sorMoopDoc.shards c10Grps with
  | .ok e => e
  | .error _ => []

/-! # Theorems -/

/-! ## The string order: an antisymmetric, transitive, total order -/

theorem char_eq_of_toNat_eq {a b : Char} (h : a.toNat = b.toNat) : a = b :=
  Char.eq_of_val_eq (UInt32.ext h)

theorem charsLe_refl (l : List Char) : charsLe l l = true := by
  induction l with
  | nil => rfl
  | cons a as ih => simp [charsLe, ih]

theorem charsLe_cons_iff {x y : Char} {xs ys : List Char} :
    charsLe (x :: xs) (y :: ys) = true ↔
      x.toNat < y.toNat ∨ (x.toNat = y.toNat ∧ charsLe xs ys = true) := by
  by_cases h1 : x.toNat < y.toNat
  · simp [charsLe, h1]
  · by_cases h2 : y.toNat < x.toNat
    · simp only [charsLe, if_neg h1, if_pos h2]
      constructor
      · intro hh; cases hh
      · intro hh
        rcases hh with hh | hh
        · omega
        · omega
    · have hxy : x.toNat = y.toNat := by omega
      simp [charsLe, h1, h2, hxy]

theorem charsLe_total (a b : List Char) : charsLe a b = true ∨ charsLe b a = true := by
  induction a generalizing b with
  | nil => left; rfl
  | cons x xs ih =>
    cases b with
    | nil => right; rfl
    | cons y ys =>
      rcases Nat.lt_trichotomy x.toNat y.toNat with h | h | h
      · left; rw [charsLe_cons_iff]; left; exact h
      · rcases ih ys with hh | hh
        · left; rw [charsLe_cons_iff]; right; exact ⟨h, hh⟩
        · right; rw [charsLe_cons_iff]; right; exact ⟨h.symm, hh⟩
      · right; rw [charsLe_cons_iff]; left; exact h

theorem charsLe_trans {a b c : List Char} (h1 : charsLe a b = true)
    (h2 : charsLe b c = true) : charsLe a c = true := by
  induction a generalizing b c with
  | nil => rfl
  | cons x xs ih =>
    cases b with
    | nil => simp [charsLe] at h1
    | cons y ys =>
      cases c with
      | nil => simp [charsLe] at h2
      | cons z zs =>
        rw [charsLe_cons_iff] at h1 h2 ⊢
        rcases h1 with h1 | ⟨h1e, h1r⟩
        · rcases h2 with h2 | ⟨h2e, _⟩
          · left; omega
          · left; omega
        · rcases h2 with h2 | ⟨h2e, h2r⟩
          · left; omega
          · right; exact ⟨by omega, ih h1r h2r⟩

theorem charsLe_antisymm {a b : List Char} (h1 : charsLe a b = true)
    (h2 : charsLe b a = true) : a = b := by
  induction a generalizing b with
  | nil => cases b with
    | nil => rfl
    | cons y ys => simp [charsLe] at h2
  | cons x xs ih =>
    cases b with
    | nil => simp [charsLe] at h1
    | cons y ys =>
      rw [charsLe_cons_iff] at h1 h2
      rcases h1 with h1 | ⟨h1e, h1r⟩
      · rcases h2 with h2 | ⟨h2e, _⟩ <;> omega
      · rcases h2 with h2 | ⟨h2e, h2r⟩
        · omega
        · exact congrArg₂ (· :: ·) (char_eq_of_toNat_eq h1e) (ih h1r h2r)

theorem strLe_refl (a : String) : strLe a a := charsLe_refl a.data

theorem strLe_total (a b : String) : strLe a b ∨ strLe b a := charsLe_total a.data b.data

theorem strLe_trans {a b c : String} (h1 : strLe a b) (h2 : strLe b c) : strLe a c :=
  charsLe_trans h1 h2

theorem strLe_antisymm {a b : String} (h1 : strLe a b) (h2 : strLe b a) : a = b := by
  cases a; cases b
  exact congrArg String.mk (charsLe_antisymm h1 h2)

instance : IsTotal String strLe := ⟨strLe_total⟩
instance : IsTrans String strLe := ⟨fun _ _ _ => strLe_trans⟩
instance : IsAntisymm String strLe := ⟨fun _ _ => strLe_antisymm⟩
instance : IsRefl String strLe := ⟨strLe_refl⟩

theorem sortStrings_perm (l : List String) : (sortStrings l).Perm l :=
  List.perm_insertionSort strLe l

theorem sortStrings_sorted (l : List String) : (sortStrings l).Sorted strLe :=
  List.sorted_insertionSort strLe l

/-- Two lists with the same multiset of strings sort identically. -/
theorem sortStrings_eq_of_perm {l1 l2 : List String} (h : l1.Perm l2) :
    sortStrings l1 = sortStrings l2 :=
  List.eq_of_perm_of_sorted ((sortStrings_perm l1).trans (h.trans (sortStrings_perm l2).symm))
    (sortStrings_sorted l1) (sortStrings_sorted l2)

/-! ## Association list lemmas -/

theorem lookupA_insertA_self {α : Type} (m : List (String × α)) (k : String) (v : α) :
    lookupA (insertA m k v) k = some v := by
  induction m with
  | nil => simp [insertA, lookupA]
  | cons p rest ih =>
    by_cases h : p.1 = k
    · simp [insertA, h, lookupA]
    · simp [insertA, h, lookupA, ih]

theorem lookupA_insertA_ne {α : Type} (m : List (String × α)) (k : String) (v : α)
    {k' : String} (h : k ≠ k') : lookupA (insertA m k v) k' = lookupA m k' := by
  induction m with
  | nil => simp [insertA, lookupA, h]
  | cons p rest ih =>
    by_cases hp : p.1 = k
    · simp [insertA, hp, lookupA, h]
    · simp [insertA, hp, lookupA, ih]

theorem lookupA_eq_none_iff {α : Type} (m : List (String × α)) (k : String) :
    lookupA m k = none ↔ k ∉ keysA m := by
  induction m with
  | nil => simp [lookupA, keysA]
  | cons p rest ih =>
    by_cases h : p.1 = k
    · simp [lookupA, keysA, h]
    · simp only [lookupA, if_neg h, keysA, List.map_cons, List.mem_cons]
      rw [ih]
      constructor
      · intro hh hc
        rcases hc with hc | hc
        · exact h hc.symm
        · exact hh hc
      · intro hh
        exact fun hc => hh (Or.inr hc)

theorem lookupA_isSome_iff {α : Type} (m : List (String × α)) (k : String) :
    (lookupA m k).isSome = true ↔ k ∈ keysA m := by
  cases hv : lookupA m k with
  | none =>
    simp only [Option.isSome_none]
    constructor
    · intro hh; cases hh
    · intro hh; exact ((lookupA_eq_none_iff m k).mp hv hh).elim
  | some v =>
    simp only [Option.isSome_some, true_iff]
    by_contra hk
    rw [← lookupA_eq_none_iff m k] at hk
    rw [hv] at hk
    cases hk

theorem mem_of_lookupA {α : Type} {m : List (String × α)} {k : String} {v : α}
    (h : lookupA m k = some v) : (k, v) ∈ m := by
  induction m with
  | nil => simp [lookupA] at h
  | cons p rest ih =>
    obtain ⟨pk, pv⟩ := p
    by_cases hp : pk = k
    · subst hp
      simp only [lookupA, if_pos rfl] at h
      cases h
      exact List.mem_cons_self _ _
    · simp only [lookupA, if_neg hp] at h
      exact List.mem_cons_of_mem _ (ih h)

theorem lookupA_of_mem {α : Type} {m : List (String × α)} {k : String} {v : α}
    (nd : (keysA m).Nodup) (h : (k, v) ∈ m) : lookupA m k = some v := by
  induction m with
  | nil => cases h
  | cons p rest ih =>
    simp only [keysA, List.map_cons, List.nodup_cons] at nd
    rcases List.mem_cons.mp h with h | h
    · cases h; simp [lookupA]
    · have : p.1 ≠ k := by
        intro hk
        exact nd.1 (hk ▸ (List.mem_map.mpr ⟨(k, v), h, rfl⟩))
      simp [lookupA, this]
      exact ih nd.2 h

theorem keysA_perm {α : Type} {m1 m2 : List (String × α)} (h : m1.Perm m2) :
    (keysA m1).Perm (keysA m2) := h.map Prod.fst

/-- On maps with pairwise-distinct keys, lookup only depends on the
multiset of entries. -/
theorem lookupA_perm {α : Type} {m1 m2 : List (String × α)} (h : m1.Perm m2)
    (nd : (keysA m1).Nodup) (k : String) : lookupA m1 k = lookupA m2 k := by
  have nd2 : (keysA m2).Nodup := (keysA_perm h).nodup_iff.mp nd
  cases hv : lookupA m1 k with
  | none =>
    have : k ∉ keysA m2 := fun hk =>
      (lookupA_eq_none_iff m1 k).mp hv ((keysA_perm h).mem_iff.mpr hk)
    exact ((lookupA_eq_none_iff m2 k).mpr this).symm
  | some v =>
    exact ((lookupA_of_mem nd2 (h.mem_iff.mp (mem_of_lookupA hv)))).symm

/-- **C4** (code_bug evaluation): for apps `A → B → C → A` `ParseYAML`
does return an error (the first half of the claim), but the reported cycle
path is `C -> A -> B -> A` — detection node first, then the cycle entry,
then the unwound stack with `A` repeated — not the claimed
`A -> B -> C -> A` (start → … → start in dependency order); `B -> A` is
not even an edge of the topology. -/
theorem claim_C4_cycle_path_eval :
    ParseYAML cycleDoc =
      .error "validation failed: dependency cycle detected: C -> A -> B -> A" ∧
    "validation failed: dependency cycle detected: C -> A -> B -> A" ≠
      "validation failed: dependency cycle detected: A -> B -> C -> A" := by
  constructor
  · decide
  · decide

/-- **C6**: in `coloDoc`, app `b` (no declared count, co-located with `a`
which declares 3) is materialized with exactly 3 shards, shard `i` of `a`
and shard `i` of `b` carry the same non-empty host-group ID for every
`i < 3`, and app `c` (2 shards, co-location group of size 1) gets an
empty host-group ID on both its shards. -/
theorem claim_C6_colocation_propagation :
    (ParseYAML coloDoc).map (fun g =>
      ((g.nodes.map Prod.snd).countP (fun n => n.baseApp = "b"),
       (List.range 3).map (fun i =>
         ((graphGet g (getNodeID "a" i 3)).map Node.hostGroupID,
          (graphGet g (getNodeID "b" i 3)).map Node.hostGroupID)),
       (List.range 2).map (fun i =>
         (graphGet g (getNodeID "c" i 2)).map Node.hostGroupID))) =
      .ok (3,
           [(some "hostgroup-a-00", some "hostgroup-a-00"),
            (some "hostgroup-a-01", some "hostgroup-a-01"),
            (some "hostgroup-a-02", some "hostgroup-a-02")],
           [some "", some ""]) ∧
    ("hostgroup-a-00" ≠ "" ∧ "hostgroup-a-01" ≠ "" ∧ "hostgroup-a-02" ≠ "") := by
  constructor
  · decide
  · decide

/-- **C7**: each blueprint-expansion failure mode makes `ParseYAML` return
an error (no graph) — undefined blueprint, unresolved external dependency
placeholder, synthesized-name collision between two instantiations, and
synthesized-name collision with an existing app — and the error messages
of the three failure kinds are pairwise distinct. -/
theorem claim_C7_blueprint_errors :
    ParseYAML bpUndefDoc = .error "app 'p' uses undefined blueprint 'nope'" ∧
    ParseYAML bpWithDoc =
      .error "in blueprint 'bp' used by 'p', external dependency 'db' is not resolved in 'with' clause" ∧
    ParseYAML bpCollideDoc =
      .error "app name conflict: 'p-x' is generated by blueprint 'bp' but already exists" ∧
    ParseYAML bpCollideDoc2 =
      .error "app name conflict: 'p-x' is generated by blueprint 'bp' but already exists" ∧
    ("app 'p' uses undefined blueprint 'nope'" ≠
        "in blueprint 'bp' used by 'p', external dependency 'db' is not resolved in 'with' clause" ∧
     "app 'p' uses undefined blueprint 'nope'" ≠
        "app name conflict: 'p-x' is generated by blueprint 'bp' but already exists" ∧
     "in blueprint 'bp' used by 'p', external dependency 'db' is not resolved in 'with' clause" ≠
        "app name conflict: 'p-x' is generated by blueprint 'bp' but already exists") := by
  refine ⟨?_, ?_, ?_, ?_, ?_, ?_, ?_⟩ <;> decide

/-- **C9** (code_bug evaluation): the document declaring `shards: {a: 0}`
is accepted by `ParseYAML` (producing a graph with no nodes at all), yet
the count `inferAndValidateShardCounts` infers for `a` is `0`, which is
not positive — the code never validates positivity (its `-1` "undeclared"
sentinel even collides with a declared `-1`). -/
theorem claim_C9_nonpositive_shard_accepted :
    ParseYAML zeroShardDoc = .ok ⟨[]⟩ ∧
    pipelineCounts zeroShardDoc = .ok [("a", 0)] ∧ ¬ (1 ≤ (0 : Int)) := by
  refine ⟨?_, ?_, ?_⟩ <;> decide

/-- **C1** (counterexample): two iteration orders of the same document —
same app map, shard map, blueprint table — are both accepted, but render
to different DOT strings under co-location clustering: the app named
`x-01` and shard 1 of the 2-sharded app `x` both materialize under the
map key `x-01`, and which node survives (host group `hostgroup-x-01`
versus none) depends on the map iteration order. -/
theorem claim_C1_counterexample :
    collideDocB.apps.Perm collideDocA.apps ∧
    collideDocB.shards = collideDocA.shards ∧
    collideDocB.blueprints = collideDocA.blueprints ∧
    collideDocB.version = collideDocA.version ∧
    (ParseYAML collideDocA).isOk = true ∧
    (ParseYAML collideDocB).isOk = true ∧
    (ParseYAML collideDocA).map (fun g => DOT g ⟨true⟩) ≠
      (ParseYAML collideDocB).map (fun g => DOT g ⟨true⟩) := by
  refine ⟨?_, ?_, ?_, ?_, ?_, ?_, ?_⟩ <;> decide

/-- **C10** (counterexample): in the accepted `hostGroupClashDoc`, the
nodes `y-01` (app `y`, shard 1, of the co-location group rooted at `x`)
and `z` (app `z`, shard 0, of the distinct group rooted at `x-01`) are
two distinct nodes carrying the same non-empty host-group ID
`hostgroup-x-01`, yet their shard indices (and groups) differ — so equal
non-empty host-group IDs do not imply same group and same shard index. -/
theorem claim_C10_counterexample :
    (ParseYAML hostGroupClashDoc).map (fun g =>
      ((graphGet g "y-01").map (fun n => (n.baseApp, n.shard, n.hostGroupID)),
       (graphGet g "z").map (fun n => (n.baseApp, n.shard, n.hostGroupID)))) =
      .ok (some ("y", 1, "hostgroup-x-01"), some ("z", 0, "hostgroup-x-01")) ∧
    "hostgroup-x-01" ≠ "" ∧ ((1 : Int) ≠ 0 ∧ "y" ≠ "z") := by
  refine ⟨?_, ?_, ?_⟩ <;> decide

/-- **C8**: `GetShutdownOrder` is exactly `GetStartupOrder` with the layer
order reversed end-to-end (the Go code reverses the slice of layers in
place), so layer `i` of the shutdown order is layer `n-1-i` of the startup
order with its inner node sequence unchanged. -/
theorem claim_C8_shutdown_is_reversed_startup (g : Graph) :
    GetShutdownOrder g = (GetStartupOrder g).reverse ∧
    (GetShutdownOrder g).length = (GetStartupOrder g).length ∧
    ∀ i, i < (GetStartupOrder g).length →
      (GetShutdownOrder g).get? i =
        (GetStartupOrder g).get? ((GetStartupOrder g).length - 1 - i) := by
  refine ⟨rfl, by simp [GetShutdownOrder], ?_⟩
  intro i hi
  simp only [GetShutdownOrder, List.get?_eq_getElem?]
  rw [List.getElem?_reverse hi]

/-! ## Decimal representation lemmas for the node-ID scheme -/

theorem toDigitsCore_length_mono (b : Nat) :
    ∀ (fuel n : Nat) (ds : List Char), ds.length ≤ (Nat.toDigitsCore b fuel n ds).length := by
  intro fuel
  induction fuel with
  | zero => intro n ds; simp [Nat.toDigitsCore]
  | succ f ih =>
    intro n ds
    simp only [Nat.toDigitsCore]
    split
    · simp
    · exact le_trans (by simp) (ih _ _)

theorem toDigitsCore_length_succ (b : Nat) (f n : Nat) (ds : List Char) :
    ds.length + 1 ≤ (Nat.toDigitsCore b (f + 1) n ds).length := by
  simp only [Nat.toDigitsCore]
  split
  · simp
  · calc ds.length + 1 = (Nat.digitChar (n % b) :: ds).length := by simp
      _ ≤ _ := toDigitsCore_length_mono b f _ _

/-- A decimal representation of `n ≥ 10` has at least two characters. -/
theorem repr_length_ge_two {n : Nat} (h : 10 ≤ n) : 2 ≤ (Nat.repr n).length := by
  have hd : ¬ n / 10 = 0 := by
    intro hz
    have : n < 10 := (Nat.div_eq_zero_iff (by norm_num)).mp hz
    omega
  obtain ⟨f, hf⟩ : ∃ f, n = f + 1 := ⟨n - 1, by omega⟩
  simp only [Nat.repr, Nat.toDigits, String.length, List.asString]
  subst hf
  simp only [Nat.toDigitsCore, hd, if_neg hd]
  have := toDigitsCore_length_succ 10 f ((f + 1) / 10) [Nat.digitChar ((f + 1) % 10)]
  simpa using this

/-- Pushing a sufficient fuel into `toDigitsCore` factors out the
accumulator. -/
theorem toDigitsCore_shift :
    ∀ (fuel n : Nat) (ds : List Char), n < fuel →
      Nat.toDigitsCore 10 fuel n ds = Nat.toDigits 10 n ++ ds := by
  intro fuel
  induction fuel using Nat.strong_induction_on with
  | _ fuel ih =>
    match fuel with
    | 0 => intro n ds h; omega
    | f + 1 =>
      intro n ds h
      by_cases hd : n / 10 = 0
      · simp [Nat.toDigitsCore, Nat.toDigits, hd]
      · have hn : 0 < n := by
          rcases Nat.eq_zero_or_pos n with h0 | h0
          · subst h0; simp at hd
          · exact h0
        have hrec : n / 10 < n := Nat.div_lt_self hn (by norm_num)
        simp only [Nat.toDigitsCore, Nat.toDigits, hd, if_neg hd]
        rw [ih f (by omega) _ _ (by omega)]
        rw [ih n (by omega) (n / 10) _ hrec]
        simp [Nat.toDigits, List.append_assoc]

theorem toDigits_lt {n : Nat} (h : n < 10) :
    Nat.toDigits 10 n = [Nat.digitChar n] := by
  have hd : n / 10 = 0 := Nat.div_eq_of_lt h
  simp [Nat.toDigits, Nat.toDigitsCore, hd, Nat.mod_eq_of_lt h]

theorem toDigits_ge {n : Nat} (h : 10 ≤ n) :
    Nat.toDigits 10 n = Nat.toDigits 10 (n / 10) ++ [Nat.digitChar (n % 10)] := by
  have hd : ¬ n / 10 = 0 := by
    intro hz
    have : n < 10 := (Nat.div_eq_zero_iff (by norm_num)).mp hz
    omega
  have hrec : n / 10 < n := Nat.div_lt_self (by omega) (by norm_num)
  conv_lhs => simp only [Nat.toDigits, Nat.toDigitsCore, hd, if_neg hd]
  exact toDigitsCore_shift n (n / 10) _ hrec

theorem parseDec_append (l1 l2 : List Char) (a : Nat) :
    (l1 ++ l2).foldl (fun a c => 10 * a + (c.toNat - 48)) a =
      l2.foldl (fun a c => 10 * a + (c.toNat - 48))
        (l1.foldl (fun a c => 10 * a + (c.toNat - 48)) a) :=
  List.foldl_append ..

theorem digitChar_toNat : ∀ d < 10, (Nat.digitChar d).toNat - 48 = d := by decide

/-- The decimal digit string of `n` parses back to `n`. -/
theorem parseDec_toDigits (n : Nat) : parseDec (Nat.toDigits 10 n) = n := by
  induction n using Nat.strong_induction_on with
  | _ n ih =>
    by_cases h : n < 10
    · rw [toDigits_lt h]
      simp [parseDec, digitChar_toNat n h]
    · rw [toDigits_ge (by omega)]
      have hrec : n / 10 < n := Nat.div_lt_self (by omega) (by norm_num)
      simp only [parseDec, parseDec_append]
      rw [show ∀ a, List.foldl (fun a c => 10 * a + (c.toNat - 48)) a
            [Nat.digitChar (n % 10)] = 10 * a + ((Nat.digitChar (n % 10)).toNat - 48)
          from fun a => rfl]
      rw [digitChar_toNat (n % 10) (Nat.mod_lt n (by norm_num))]
      have := ih (n / 10) hrec
      simp only [parseDec] at this
      rw [this]
      omega

theorem parseDec_zero_cons (l : List Char) :
    parseDec ('0' :: l) = parseDec l := by
  simp [parseDec]

/-- The padded suffix `pad2 i` still parses back to the shard index. -/
theorem parseDec_pad2 (i : Nat) : parseDec (pad2 i).data = i := by
  unfold pad2
  split
  · show parseDec (("0" ++ toString i).data) = i
    have : ("0" ++ toString i).data = '0' :: (Nat.toDigits 10 i) := by
      show ('0' :: (Nat.toDigits 10 i).asString.data) = _
      simp [List.asString]
    rw [this, parseDec_zero_cons]
    exact parseDec_toDigits i
  · show parseDec ((toString i).data) = i
    have : (toString i).data = Nat.toDigits 10 i := by
      show (Nat.toDigits 10 i).asString.data = _
      simp [List.asString]
    rw [this]
    exact parseDec_toDigits i

theorem pad2_inj {i j : Nat} (h : pad2 i = pad2 j) : i = j := by
  have := congrArg (fun s => parseDec s.data) h
  simpa [parseDec_pad2] using this

theorem repr_length_one : ∀ i < 10, (Nat.repr i).length = 1 := by decide

theorem pad2_length (i : Nat) : 2 ≤ (pad2 i).length := by
  unfold pad2
  split
  · rename_i h
    show 2 ≤ ("0" ++ toString i).length
    have h1 : (toString i).length = 1 := repr_length_one i h
    have h2 : ("0" ++ toString i).length = "0".length + (toString i).length :=
      String.length_append ..
    rw [h2, h1, show "0".length = 1 from rfl]
  · rename_i h
    exact repr_length_ge_two (by omega)

/-- `pad2 i` is the decimal representation of `i` left-padded with zeros
to at least two digits. -/
theorem pad2_eq_padded (i : Nat) :
    (pad2 i).data = List.replicate (2 - (Nat.repr i).length) '0' ++ (Nat.repr i).data := by
  unfold pad2
  split
  · rename_i h
    have h1 : (Nat.repr i).length = 1 := repr_length_one i h
    show ("0" ++ toString i).data = _
    rw [h1]
    rfl
  · rename_i h
    have h2 : 2 ≤ (Nat.repr i).length := repr_length_ge_two (by omega)
    have : 2 - (Nat.repr i).length = 0 := by omega
    rw [this]
    rfl

theorem str_append_cancel_left {a x y : String} (h : a ++ x = a ++ y) : x = y := by
  have hd := congrArg String.data h
  simp only [String.data_append] at hd
  cases x; cases y
  exact congrArg String.mk (List.append_cancel_left hd)

theorem suffix_id_inj (a : String) {i j : Nat}
    (h : a ++ "-" ++ pad2 i = a ++ "-" ++ pad2 j) : i = j :=
  pad2_inj (str_append_cancel_left (a := a ++ "-") (x := pad2 i) (y := pad2 j) h)

/-- **C5**: the node materializer yields, for an app with inferred shard
count 1, exactly one node entry keyed by the bare app name; for shard
count `N > 1`, exactly `N` entries keyed `a-00 … a-(N-1)` — `N` pairwise
distinct IDs whose suffix is the decimal shard index zero-padded to at
least two digits (it parses back to the index and equals `Nat.repr` padded
with `'0'` to width 2). -/
theorem claim_C5_node_id_scheme (groups : List (String × List String))
    (appRoots : List (String × String)) (a : String) :
    (keysA (appNodeEntries groups appRoots a 1) = [a] ∧
     (appNodeEntries groups appRoots a 1).length = 1) ∧
    (∀ N : Int, 1 < N →
      keysA (appNodeEntries groups appRoots a N) =
        (List.range N.toNat).map (fun i => a ++ "-" ++ pad2 i) ∧
      (appNodeEntries groups appRoots a N).length = N.toNat ∧
      (keysA (appNodeEntries groups appRoots a N)).Nodup) ∧
    (∀ i : Nat, 2 ≤ (pad2 i).length ∧ parseDec (pad2 i).data = i ∧
      (pad2 i).data =
        List.replicate (2 - (Nat.repr i).length) '0' ++ (Nat.repr i).data) := by
  refine ⟨⟨?_, ?_⟩, ?_, ?_⟩
  · simp [appNodeEntries, keysA, getNodeID]
    rfl
  · simp [appNodeEntries]
  · intro N hN
    have hne : N ≠ 1 := by omega
    refine ⟨?_, by simp [appNodeEntries], ?_⟩
    · simp only [appNodeEntries, keysA, List.map_map]
      refine List.map_congr_left ?_
      intro i _
      simp [getNodeID, hne]
    · have hkeys : keysA (appNodeEntries groups appRoots a N) =
          (List.range N.toNat).map (fun i => a ++ "-" ++ pad2 i) := by
        simp only [appNodeEntries, keysA, List.map_map]
        refine List.map_congr_left ?_
        intro i _
        simp [getNodeID, hne]
      rw [hkeys]
      exact (List.nodup_range _).map_on
        (fun i _ j _ h => suffix_id_inj a h)
  · intro i
    exact ⟨pad2_length i, parseDec_pad2 i, pad2_eq_padded i⟩

/-! ## The linker: characterization lemmas -/

theorem pairwiseEdges_ok_char {apps : List (String × AppDefinition)}
    {counts : List (String × Int)} {X : String} {N : Int} {i : Nat}
    {deps es : List String}
    (h : pairwiseEdges apps counts X N i deps = .ok es) :
    es = deps.map (pairwiseTarget counts i) ∧
    ∀ d ∈ deps, (lookupA apps d).isSome = true ∧
      ((lookupA counts d).getD 0 = 1 ∨ (lookupA counts d).getD 0 = N) := by
  induction deps generalizing es with
  | nil => cases h; exact ⟨rfl, by simp⟩
  | cons depName rest ih =>
    rw [pairwiseEdges] at h
    by_cases h1 : (lookupA apps depName).isNone
    · rw [if_pos h1] at h; cases h
    · rw [if_neg h1] at h
      by_cases h2 : (lookupA counts depName).getD 0 ≠ 1 ∧
          (lookupA counts depName).getD 0 ≠ N
      · rw [if_pos h2] at h; cases h
      · rw [if_neg h2] at h
        cases hr : pairwiseEdges apps counts X N i rest with
        | error e => rw [hr] at h; cases h
        | ok rest' =>
          rw [hr] at h
          cases h
          obtain ⟨he, hall⟩ := ih hr
          refine ⟨by simp [pairwiseTarget, he], ?_⟩
          intro d hd
          rcases List.mem_cons.mp hd with hd | hd
          · subst hd
            refine ⟨?_, by omega⟩
            cases hv : lookupA apps d
            · rw [hv] at h1; simp at h1
            · simp
          · exact hall d hd

theorem allOfEdges_ok_char {apps : List (String × AppDefinition)}
    {counts : List (String × Int)} {X : String} {deps es : List String}
    (h : allOfEdges apps counts X deps = .ok es) :
    es = deps.flatMap (allOfTargets counts) ∧
    ∀ d ∈ deps, (lookupA apps d).isSome = true := by
  induction deps generalizing es with
  | nil => cases h; exact ⟨rfl, by simp⟩
  | cons depName rest ih =>
    rw [allOfEdges] at h
    by_cases h1 : (lookupA apps depName).isNone
    · rw [if_pos h1] at h; cases h
    · rw [if_neg h1] at h
      cases hr : allOfEdges apps counts X rest with
      | error e => rw [hr] at h; cases h
      | ok rest' =>
        rw [hr] at h
        cases h
        obtain ⟨he, hall⟩ := ih hr
        refine ⟨by simp [allOfTargets, he], ?_⟩
        intro d hd
        rcases List.mem_cons.mp hd with hd | hd
        · subst hd
          cases hv : lookupA apps d
          · rw [hv] at h1; simp at h1
          · simp
        · exact hall d hd

theorem shardEdges_ok_char {apps : List (String × AppDefinition)}
    {counts : List (String × Int)} {X : String} {N : Int} {i : Nat}
    {d : AppDefinition} {es : List String}
    (h : shardEdges apps counts X N i d = .ok es) :
    es = edgesFor counts d i ∧
    (∀ y ∈ d.dependsOn, (lookupA apps y).isSome = true ∧
      ((lookupA counts y).getD 0 = 1 ∨ (lookupA counts y).getD 0 = N)) ∧
    (∀ y ∈ d.dependsOnAllOf, (lookupA apps y).isSome = true) := by
  rw [shardEdges] at h
  cases hp : pairwiseEdges apps counts X N i d.dependsOn with
  | error e => rw [hp] at h; cases h
  | ok p =>
    rw [hp] at h
    cases ha : allOfEdges apps counts X d.dependsOnAllOf with
    | error e =>
      rw [ha] at h
      simp only [Bind.bind, Except.bind] at h
      cases h
    | ok a =>
      rw [ha] at h
      simp only [Bind.bind, Except.bind] at h
      cases h
      obtain ⟨hpe, hpc⟩ := pairwiseEdges_ok_char hp
      obtain ⟨hae, hac⟩ := allOfEdges_ok_char ha
      exact ⟨by simp [edgesFor, hpe, hae], hpc, hac⟩

theorem lookupA_cons {α : Type} (k' : String) (v' : α) (rest : List (String × α))
    (key : String) :
    lookupA ((k', v') :: rest) key = if k' = key then some v' else lookupA rest key :=
  rfl

theorem lookupA_map_modify_ne {l : List (String × Node)} {nid k : String}
    (h : k ≠ nid) (f : Node → Node) :
    lookupA (l.map (fun p => if p.1 = nid then (p.1, f p.2) else p)) k =
      lookupA l k := by
  induction l with
  | nil => rfl
  | cons p rest ih =>
    obtain ⟨pk, pv⟩ := p
    simp only [List.map_cons]
    by_cases hp : pk = nid
    · rw [if_pos (by simpa using hp)]
      have hpk : ¬ pk = k := fun hh => h (hh ▸ hp)
      rw [lookupA_cons, lookupA_cons, if_neg hpk, if_neg hpk, ih]
    · rw [if_neg (by simpa using hp)]
      by_cases hk : pk = k
      · rw [lookupA_cons, lookupA_cons, if_pos hk, if_pos hk]
      · rw [lookupA_cons, lookupA_cons, if_neg hk, if_neg hk, ih]

theorem lookupA_map_modify_self {l : List (String × Node)} {nid : String}
    (f : Node → Node) :
    lookupA (l.map (fun p => if p.1 = nid then (p.1, f p.2) else p)) nid =
      (lookupA l nid).map f := by
  induction l with
  | nil => rfl
  | cons p rest ih =>
    obtain ⟨pk, pv⟩ := p
    simp only [List.map_cons]
    by_cases hp : pk = nid
    · rw [if_pos (by simpa using hp)]
      rw [lookupA_cons, lookupA_cons, if_pos hp, if_pos hp]
      rfl
    · rw [if_neg (by simpa using hp)]
      rw [lookupA_cons, lookupA_cons, if_neg hp, if_neg hp, ih]

theorem lookupA_appendDeps_ne {g : Graph} {nid k : String} (h : k ≠ nid)
    (es : List String) :
    lookupA (appendDeps g nid es).nodes k = lookupA g.nodes k := by
  unfold appendDeps
  exact lookupA_map_modify_ne h
    (fun n => { n with dependsOn := n.dependsOn ++ es })

theorem lookupA_appendDeps_self (g : Graph) (nid : String) (es : List String) :
    lookupA (appendDeps g nid es).nodes nid =
      (lookupA g.nodes nid).map
        (fun n => { n with dependsOn := n.dependsOn ++ es }) := by
  unfold appendDeps
  exact lookupA_map_modify_self
    (fun n => { n with dependsOn := n.dependsOn ++ es })

theorem keysA_appendDeps (g : Graph) (nid : String) (es : List String) :
    keysA (appendDeps g nid es).nodes = keysA g.nodes := by
  simp only [appendDeps, keysA, List.map_map]
  refine List.map_congr_left ?_
  intro p _
  by_cases hp : p.1 = nid <;> simp [hp]

theorem linkShards_ok_char {apps : List (String × AppDefinition)}
    {counts : List (String × Int)} {nm : String} {cnt : Int}
    {d : AppDefinition} :
    ∀ {is : List Nat} {g g' : Graph},
      linkShards apps counts nm cnt d is g = .ok g' →
      (is.map (fun i => getNodeID nm i cnt)).Nodup →
      (∀ k, (∀ i ∈ is, k ≠ getNodeID nm i cnt) →
        lookupA g'.nodes k = lookupA g.nodes k) ∧
      (∀ i ∈ is, lookupA g'.nodes (getNodeID nm i cnt) =
        (lookupA g.nodes (getNodeID nm i cnt)).map
          (fun n => { n with dependsOn := n.dependsOn ++ edgesFor counts d i })) := by
  intro is
  induction is with
  | nil =>
    intro g g' h _
    cases h
    exact ⟨fun _ _ => rfl, by simp⟩
  | cons i rest ih =>
    intro g g' h hnd
    rw [linkShards] at h
    cases he : shardEdges apps counts nm cnt i d with
    | error e =>
      rw [he] at h
      simp only [Bind.bind, Except.bind] at h
      cases h
    | ok es =>
      rw [he] at h
      simp only [Bind.bind, Except.bind] at h
      simp only [List.map_cons, List.nodup_cons] at hnd
      obtain ⟨hni, hndr⟩ := hnd
      obtain ⟨hes, -, -⟩ := shardEdges_ok_char he
      subst hes
      obtain ⟨ih1, ih2⟩ := ih h hndr
      constructor
      · intro k hk
        rw [ih1 k (fun j hj => hk j (List.mem_cons_of_mem _ hj))]
        exact lookupA_appendDeps_ne (hk i (List.mem_cons_self _ _)) _
      · intro j hj
        rcases List.mem_cons.mp hj with hj | hj
        · subst hj
          rw [ih1 _ (fun j' hj' hh => hni (by rw [hh]; exact List.mem_map.mpr ⟨j', hj', rfl⟩))]
          exact lookupA_appendDeps_self g _ _
        · rw [ih2 j hj]
          have hne : getNodeID nm j cnt ≠ getNodeID nm i cnt := by
            intro hh
            exact hni (by rw [← hh]; exact List.mem_map.mpr ⟨j, hj, rfl⟩)
          rw [lookupA_appendDeps_ne hne]

theorem linkShards_ok_checks {apps : List (String × AppDefinition)}
    {counts : List (String × Int)} {nm : String} {cnt : Int}
    {d : AppDefinition} :
    ∀ {is : List Nat} {g g' : Graph},
      linkShards apps counts nm cnt d is g = .ok g' →
      ∀ i ∈ is, ∃ es, shardEdges apps counts nm cnt i d = .ok es := by
  intro is
  induction is with
  | nil => intro g g' _ i hi; cases hi
  | cons i rest ih =>
    intro g g' h j hj
    rw [linkShards] at h
    cases he : shardEdges apps counts nm cnt i d with
    | error e =>
      rw [he] at h
      simp only [Bind.bind, Except.bind] at h
      cases h
    | ok es =>
      rw [he] at h
      simp only [Bind.bind, Except.bind] at h
      rcases List.mem_cons.mp hj with hj | hj
      · subst hj; exact ⟨es, he⟩
      · exact ih h j hj

theorem linkApps_ok_checks {apps : List (String × AppDefinition)}
    {counts : List (String × Int)} :
    ∀ {l : List (String × AppDefinition)} {g g' : Graph},
      linkApps apps counts l g = .ok g' →
      ∀ pd ∈ l, ∀ i ∈ List.range ((lookupA counts pd.1).getD 0).toNat,
        ∃ es, shardEdges apps counts pd.1 ((lookupA counts pd.1).getD 0) i pd.2 = .ok es := by
  intro l
  induction l with
  | nil => intro g g' _ pd hpd; cases hpd
  | cons hd rest ih =>
    intro g g' h pd hpd i hi
    rw [linkApps] at h
    cases hs : linkShards apps counts hd.1 ((lookupA counts hd.1).getD 0) hd.2
        (List.range ((lookupA counts hd.1).getD 0).toNat) g with
    | error e =>
      rw [hs] at h
      simp only [Bind.bind, Except.bind] at h
      cases h
    | ok g1 =>
      rw [hs] at h
      simp only [Bind.bind, Except.bind] at h
      rcases List.mem_cons.mp hpd with hpd | hpd
      · subst hpd
        exact linkShards_ok_checks hs i hi
      · exact ih h pd hpd i hi

/-- On a successful run, every node ID of every app holds exactly its
original node with `edgesFor` appended; IDs outside the processed apps'
shard ranges are untouched. -/
theorem linkApps_ok_char {apps : List (String × AppDefinition)}
    {counts : List (String × Int)} :
    ∀ {l : List (String × AppDefinition)} {g g' : Graph},
      linkApps apps counts l g = .ok g' →
      (l.flatMap (perAppIDs counts)).Nodup →
      (∀ k, k ∉ l.flatMap (perAppIDs counts) →
        lookupA g'.nodes k = lookupA g.nodes k) ∧
      (∀ pd ∈ l, ∀ i < ((lookupA counts pd.1).getD 0).toNat,
        lookupA g'.nodes (getNodeID pd.1 i ((lookupA counts pd.1).getD 0)) =
          (lookupA g.nodes (getNodeID pd.1 i ((lookupA counts pd.1).getD 0))).map
            (fun n => { n with dependsOn := n.dependsOn ++ edgesFor counts pd.2 i })) := by
  intro l
  induction l with
  | nil =>
    intro g g' h _
    cases h
    exact ⟨fun _ _ => rfl, fun pd hpd => (by cases hpd)⟩
  | cons hd rest ih =>
    intro g g' h hnd
    rw [linkApps] at h
    cases hs : linkShards apps counts hd.1 ((lookupA counts hd.1).getD 0) hd.2
        (List.range ((lookupA counts hd.1).getD 0).toNat) g with
    | error e =>
      rw [hs] at h
      simp only [Bind.bind, Except.bind] at h
      cases h
    | ok g1 =>
      rw [hs] at h
      simp only [Bind.bind, Except.bind] at h
      simp only [List.flatMap_cons, List.nodup_append] at hnd
      obtain ⟨hnd1, hnd2, hdisj⟩ := hnd
      have hch := linkShards_ok_char hs (by exact hnd1)
      obtain ⟨ihs1, ihs2⟩ := hch
      obtain ⟨ih1, ih2⟩ := ih h hnd2
      constructor
      · intro k hk
        have hk1 : k ∉ perAppIDs counts hd := fun hh =>
          hk (by simp only [List.flatMap_cons, List.mem_append]; exact Or.inl hh)
        have hk2 : k ∉ rest.flatMap (perAppIDs counts) := fun hh =>
          hk (by simp only [List.flatMap_cons, List.mem_append]; exact Or.inr hh)
        rw [ih1 k hk2]
        refine ihs1 k ?_
        intro i hi hh
        exact hk1 (by rw [hh]; exact List.mem_map.mpr ⟨i, hi, rfl⟩)
      · intro pd hpd i hi
        rcases List.mem_cons.mp hpd with hpd | hpd
        · subst hpd
          have hmem : getNodeID pd.1 i ((lookupA counts pd.1).getD 0) ∈
              perAppIDs counts pd :=
            List.mem_map.mpr ⟨i, List.mem_range.mpr hi, rfl⟩
          have hnr : getNodeID pd.1 i ((lookupA counts pd.1).getD 0) ∉
              rest.flatMap (perAppIDs counts) := fun hh => hdisj hmem hh
          rw [ih1 _ hnr]
          exact ihs2 i (List.mem_range.mpr hi)
        · have hmem : getNodeID pd.1 i ((lookupA counts pd.1).getD 0) ∈
              rest.flatMap (perAppIDs counts) :=
            List.mem_flatMap.mpr ⟨pd, hpd, List.mem_map.mpr ⟨i, List.mem_range.mpr hi, rfl⟩⟩
          rw [ih2 pd hpd i hi]
          rw [ihs1 _ ?_]
          intro j hj hh
          exact hdisj (by rw [hh]; exact List.mem_map.mpr ⟨j, hj, rfl⟩) hmem

/-- **C2**: on any successful `linkDependencies` run, every pairwise
dependency of an app with shard count `N ≥ 1` has dependency shard count
`M = 1` or `M = N` (so any other ratio cannot be accepted, the code's
ambiguity error); the edges appended to shard `i` of an app are exactly
`edgesFor` — the pairwise target being shard `i` of the dependency when
`M = N` (`pairwiseTarget` is `getNodeID Y i M`) and the single `Y` node
when `M = 1`, and the fan-in targets being all `M` shards of the
dependency (so `N` shards contribute `N × M` edges). Concretely, 3 shards
depending pairwise on 2 fails with the fan-in hint, and 3 shards
depending fan-in on 2 yields `3 × 2 = 6` edges. Shard counts are positive
in the spec's data model; the code-level non-positive hole is C9. -/
theorem claim_C2_dependency_linking :
    (∀ (apps : List (String × AppDefinition)) (counts : List (String × Int))
       (g0 g1 : Graph) (X Y : String) (dX : AppDefinition),
       linkDependencies g0 apps counts = .ok g1 →
       lookupA apps X = some dX → Y ∈ dX.dependsOn →
       1 ≤ (lookupA counts X).getD 0 →
       ((lookupA counts Y).getD 0 = 1 ∨
        (lookupA counts Y).getD 0 = (lookupA counts X).getD 0)) ∧
    (∀ (apps : List (String × AppDefinition)) (counts : List (String × Int))
       (g0 g1 : Graph) (X : String) (dX : AppDefinition),
       linkDependencies g0 apps counts = .ok g1 →
       (materialIDs apps counts).Nodup →
       (X, dX) ∈ apps →
       ∀ i < ((lookupA counts X).getD 0).toNat,
         lookupA g1.nodes (getNodeID X i ((lookupA counts X).getD 0)) =
           (lookupA g0.nodes (getNodeID X i ((lookupA counts X).getD 0))).map
             (fun n => { n with
               dependsOn := n.dependsOn ++ edgesFor counts dX i })) ∧
    (∀ (counts : List (String × Int)) (i : Nat) (Y : String),
       (lookupA counts Y).getD 0 = 1 → pairwiseTarget counts i Y = Y) ∧
    (∀ (counts : List (String × Int)) (i : Nat) (Y : String),
       (lookupA counts Y).getD 0 ≠ 1 →
       pairwiseTarget counts i Y = getNodeID Y i ((lookupA counts Y).getD 0)) ∧
    (∀ (counts : List (String × Int)) (Y : String),
       (allOfTargets counts Y).length = ((lookupA counts Y).getD 0).toNat) ∧
    (ParseYAML ambigDoc = .error
      "validation failed: ambiguous 'depends_on' from 'x' (3 shards) to 'w' (2 shards). Use 'depends_on_all_of' for fan-in dependencies") ∧
    ((ParseYAML faninDoc).map (fun g =>
       (List.range 3).map (fun i =>
         (graphGet g (getNodeID "x" i 3)).map Node.dependsOn)) =
      .ok [some ["w-00", "w-01"], some ["w-00", "w-01"], some ["w-00", "w-01"]]) := by
  refine ⟨?_, ?_, ?_, ?_, ?_, ?_, ?_⟩
  · intro apps counts g0 g1 X Y dX hok hX hY hN
    have hmem : (X, dX) ∈ apps := mem_of_lookupA hX
    have h0 : (0 : Nat) ∈ List.range ((lookupA counts X).getD 0).toNat := by
      refine List.mem_range.mpr ?_
      omega
    obtain ⟨es, hes⟩ := linkApps_ok_checks hok (X, dX) hmem 0 h0
    exact ((shardEdges_ok_char hes).2.1 Y hY).2
  · intro apps counts g0 g1 X dX hok hnd hmem i hi
    exact (linkApps_ok_char hok hnd).2 (X, dX) hmem i hi
  · intro counts i Y h
    simp [pairwiseTarget, h, getNodeID]
  · intro counts i Y h
    simp [pairwiseTarget, h, getNodeID]
  · intro counts Y
    simp [allOfTargets]
  · decide
  · decide

/-! ## Keys and membership through the pipeline -/

theorem insertA_cons {α : Type} (pk : String) (pv : α) (rest : List (String × α))
    (k : String) (v : α) :
    insertA ((pk, pv) :: rest) k v =
      if pk = k then (k, v) :: rest else (pk, pv) :: insertA rest k v := rfl

theorem insertA_of_not_mem {α : Type} {m : List (String × α)} {k : String}
    (h : k ∉ keysA m) (v : α) : insertA m k v = m ++ [(k, v)] := by
  induction m with
  | nil => rfl
  | cons p rest ih =>
    obtain ⟨pk, pv⟩ := p
    simp only [keysA, List.map_cons, List.mem_cons] at h
    push_neg at h
    rw [insertA_cons, if_neg (fun hh => h.1 hh.symm),
      ih (by simpa [keysA] using h.2)]
    rfl

theorem keysA_insertA_mem {α : Type} {m : List (String × α)} {k : String}
    (h : k ∈ keysA m) (v : α) : keysA (insertA m k v) = keysA m := by
  induction m with
  | nil => cases h
  | cons p rest ih =>
    by_cases hp : p.1 = k
    · simp [insertA, hp, keysA]
    · simp only [keysA, List.map_cons, List.mem_cons] at h
      rcases h with h | h
      · exact (hp h.symm).elim
      · simp [insertA, hp, keysA]
        exact ih (by simpa [keysA] using h)

theorem mem_keysA_insertAll {α : Type} (l m : List (String × α)) (k : String) :
    k ∈ keysA (insertAll m l) ↔ k ∈ keysA m ∨ k ∈ keysA l := by
  induction l generalizing m with
  | nil => simp [insertAll, keysA]
  | cons p rest ih =>
    show k ∈ keysA (insertAll (insertA m p.1 p.2) rest) ↔ _
    rw [ih]
    by_cases hm : p.1 ∈ keysA m
    · rw [keysA_insertA_mem hm]
      constructor
      · intro hh
        rcases hh with hh | hh
        · exact Or.inl hh
        · exact Or.inr (by simp [keysA]; right; simpa [keysA] using hh)
      · intro hh
        rcases hh with hh | hh
        · exact Or.inl hh
        · simp only [keysA, List.map_cons, List.mem_cons] at hh
          rcases hh with hh | hh
          · exact Or.inl (hh ▸ hm)
          · exact Or.inr (by simpa [keysA] using hh)
    · rw [insertA_of_not_mem hm, keysA, List.map_append]
      simp only [List.mem_append]
      constructor
      · intro hh
        rcases hh with hh | hh
        · rcases hh with hh | hh
          · exact Or.inl hh
          · simp only [List.map_cons, List.map_nil, List.mem_singleton] at hh
            exact Or.inr (by simp [keysA, hh])
        · exact Or.inr (by simp [keysA]; right; simpa [keysA] using hh)
      · intro hh
        rcases hh with hh | hh
        · exact Or.inl (Or.inl hh)
        · simp only [keysA, List.map_cons, List.mem_cons] at hh
          rcases hh with hh | hh
          · exact Or.inl (Or.inr (by simp [hh]))
          · exact Or.inr (by simpa [keysA] using hh)

theorem keysA_insertAll_nodup {α : Type} :
    ∀ (l m : List (String × α)), (keysA m).Nodup → (keysA (insertAll m l)).Nodup
  | [], m, h => h
  | p :: rest, m, h => by
    show (keysA (insertAll (insertA m p.1 p.2) rest)).Nodup
    refine keysA_insertAll_nodup rest _ ?_
    by_cases hm : p.1 ∈ keysA m
    · rw [keysA_insertA_mem hm]; exact h
    · rw [insertA_of_not_mem hm, keysA, List.map_append]
      simp only [List.map_cons, List.map_nil]
      rw [List.nodup_append]
      refine ⟨h, List.nodup_singleton _, ?_⟩
      intro x hx hx1
      simp only [List.mem_singleton] at hx1
      exact hm (hx1 ▸ hx)

theorem mem_insertA_sub {α : Type} :
    ∀ {m : List (String × α)} {k : String} {v : α} {p : String × α},
      p ∈ insertA m k v → p ∈ m ∨ p = (k, v) := by
  intro m
  induction m with
  | nil =>
    intro k v p h
    simp only [insertA, List.mem_singleton] at h
    exact Or.inr h
  | cons q rest ih =>
    intro k v p h
    obtain ⟨qk, qv⟩ := q
    by_cases hq : qk = k
    · rw [insertA_cons, if_pos hq] at h
      rcases List.mem_cons.mp h with h | h
      · exact Or.inr h
      · exact Or.inl (List.mem_cons_of_mem _ h)
    · rw [insertA_cons, if_neg hq] at h
      rcases List.mem_cons.mp h with h | h
      · exact Or.inl (by simp [h])
      · rcases ih h with hh | hh
        · exact Or.inl (List.mem_cons_of_mem _ hh)
        · exact Or.inr hh

theorem mem_insertAll_sub {α : Type} :
    ∀ {l m : List (String × α)} {p : String × α},
      p ∈ insertAll m l → p ∈ m ∨ p ∈ l := by
  intro l
  induction l with
  | nil => intro m p h; exact Or.inl h
  | cons q rest ih =>
    intro m p h
    rcases ih h with h | h
    · rcases mem_insertA_sub h with hh | hh
      · exact Or.inl hh
      · exact Or.inr (by simp [hh])
    · exact Or.inr (List.mem_cons_of_mem _ h)

theorem keysA_sortGraphDeps (g : Graph) :
    keysA (sortGraphDeps g).nodes = keysA g.nodes := by
  simp [sortGraphDeps, keysA, List.map_map]

theorem keysA_linkShards {apps : List (String × AppDefinition)}
    {counts : List (String × Int)} {nm : String} {cnt : Int}
    {d : AppDefinition} :
    ∀ {is : List Nat} {g g' : Graph},
      linkShards apps counts nm cnt d is g = .ok g' →
      keysA g'.nodes = keysA g.nodes := by
  intro is
  induction is with
  | nil => intro g g' h; cases h; rfl
  | cons i rest ih =>
    intro g g' h
    rw [linkShards] at h
    cases he : shardEdges apps counts nm cnt i d with
    | error e => rw [he] at h; simp only [Bind.bind, Except.bind] at h; cases h
    | ok es =>
      rw [he] at h
      simp only [Bind.bind, Except.bind] at h
      rw [ih h, keysA_appendDeps]

theorem keysA_linkApps {apps : List (String × AppDefinition)}
    {counts : List (String × Int)} :
    ∀ {l : List (String × AppDefinition)} {g g' : Graph},
      linkApps apps counts l g = .ok g' → keysA g'.nodes = keysA g.nodes := by
  intro l
  induction l with
  | nil => intro g g' h; cases h; rfl
  | cons hd rest ih =>
    intro g g' h
    rw [linkApps] at h
    cases hs : linkShards apps counts hd.1 ((lookupA counts hd.1).getD 0) hd.2
        (List.range ((lookupA counts hd.1).getD 0).toNat) g with
    | error e => rw [hs] at h; simp only [Bind.bind, Except.bind] at h; cases h
    | ok g1 =>
      rw [hs] at h
      simp only [Bind.bind, Except.bind] at h
      rw [ih h, keysA_linkShards hs]

/-- The keys the materializer writes are exactly `materialIDs`. -/
theorem keysA_allNodeEntries (apps : List (String × AppDefinition))
    (groups : List (String × List String)) (counts : List (String × Int)) :
    keysA (allNodeEntries apps groups counts) = materialIDs apps counts := by
  simp only [allNodeEntries, materialIDs, keysA, List.map_flatMap]
  refine List.flatMap_congr ?_
  intro p _
  simp [appNodeEntries, perAppIDs, List.map_map]

/-! ## Well-formedness of the graph `ParseYAML` returns -/

theorem edgesFor_subset {apps : List (String × AppDefinition)}
    {counts : List (String × Int)} {d : AppDefinition} {i : Nat} {cnt : Int}
    (hi : i < cnt.toNat)
    (hpair : ∀ y ∈ d.dependsOn, (lookupA apps y).isSome = true ∧
      ((lookupA counts y).getD 0 = 1 ∨ (lookupA counts y).getD 0 = cnt))
    (hall : ∀ y ∈ d.dependsOnAllOf, (lookupA apps y).isSome = true) :
    ∀ t ∈ edgesFor counts d i, t ∈ materialIDs apps counts := by
  intro t ht
  simp only [edgesFor, List.mem_append] at ht
  rcases ht with ht | ht
  · obtain ⟨y, hy, rfl⟩ := List.mem_map.mp ht
    obtain ⟨hsome, hdi⟩ := hpair y hy
    obtain ⟨dy, hdy⟩ := Option.isSome_iff_exists.mp hsome
    refine List.mem_flatMap.mpr ⟨(y, dy), mem_of_lookupA hdy, ?_⟩
    simp only [perAppIDs, pairwiseTarget]
    rcases hdi with h1 | h1
    · refine List.mem_map.mpr ⟨0, ?_, by simp [h1]⟩
      simp [h1]
    · by_cases hone : (lookupA counts y).getD 0 = 1
      · refine List.mem_map.mpr ⟨0, ?_, by simp [hone]⟩
        simp [hone]
      · refine List.mem_map.mpr ⟨i, ?_, by simp [hone]⟩
        simp only [List.mem_range]
        omega
  · obtain ⟨y, hy, hmem⟩ := List.mem_flatMap.mp ht
    obtain ⟨dy, hdy⟩ := Option.isSome_iff_exists.mp (hall y hy)
    refine List.mem_flatMap.mpr ⟨(y, dy), mem_of_lookupA hdy, ?_⟩
    simp only [allOfTargets] at hmem
    obtain ⟨j, hj, rfl⟩ := List.mem_map.mp hmem
    exact List.mem_map.mpr ⟨j, hj, rfl⟩

theorem appendDeps_mem {g : Graph} {nid : String} {es : List String}
    {p : String × Node} (h : p ∈ (appendDeps g nid es).nodes) :
    ∃ q ∈ g.nodes, p = q ∨
      p = (q.1, { q.2 with dependsOn := q.2.dependsOn ++ es }) := by
  simp only [appendDeps, List.mem_map] at h
  obtain ⟨q, hq, hpq⟩ := h
  refine ⟨q, hq, ?_⟩
  by_cases hh : q.1 = nid
  · rw [if_pos hh] at hpq; exact Or.inr hpq.symm
  · rw [if_neg hh] at hpq; exact Or.inl hpq.symm

theorem linkShards_preserves {apps : List (String × AppDefinition)}
    {counts : List (String × Int)} {nm : String} {d : AppDefinition} :
    ∀ {is : List Nat} {g g' : Graph},
      linkShards apps counts nm ((lookupA counts nm).getD 0) d is g = .ok g' →
      (∀ i ∈ is, i < ((lookupA counts nm).getD 0).toNat) →
      (∀ p ∈ g.nodes, p.2.id = p.1) →
      (∀ p ∈ g.nodes, ∀ dep ∈ p.2.dependsOn, dep ∈ materialIDs apps counts) →
      (∀ p ∈ g'.nodes, p.2.id = p.1) ∧
      (∀ p ∈ g'.nodes, ∀ dep ∈ p.2.dependsOn, dep ∈ materialIDs apps counts) := by
  intro is
  induction is with
  | nil => intro g g' h _ h1 h2; cases h; exact ⟨h1, h2⟩
  | cons i rest ih =>
    intro g g' h his h1 h2
    rw [linkShards] at h
    cases he : shardEdges apps counts nm ((lookupA counts nm).getD 0) i d with
    | error e => rw [he] at h; simp only [Bind.bind, Except.bind] at h; cases h
    | ok es =>
      rw [he] at h
      simp only [Bind.bind, Except.bind] at h
      obtain ⟨hes, hpair, hall⟩ := shardEdges_ok_char he
      have hsub : ∀ t ∈ es, t ∈ materialIDs apps counts := by
        rw [hes]
        exact edgesFor_subset (his i (List.mem_cons_self _ _)) hpair hall
      refine ih h (fun j hj => his j (List.mem_cons_of_mem _ hj)) ?_ ?_
      · intro p hp
        obtain ⟨q, hq, hcase⟩ := appendDeps_mem hp
        rcases hcase with hc | hc
        · rw [hc]; exact h1 q hq
        · rw [hc]; exact h1 q hq
      · intro p hp dep hdep
        obtain ⟨q, hq, hcase⟩ := appendDeps_mem hp
        rcases hcase with hc | hc
        · rw [hc] at hdep; exact h2 q hq dep hdep
        · rw [hc] at hdep
          simp only at hdep
          rw [List.mem_append] at hdep
          rcases hdep with hdep | hdep
          · exact h2 q hq dep hdep
          · exact hsub dep hdep

theorem linkApps_preserves {apps : List (String × AppDefinition)}
    {counts : List (String × Int)} :
    ∀ {l : List (String × AppDefinition)} {g g' : Graph},
      linkApps apps counts l g = .ok g' →
      (∀ p ∈ g.nodes, p.2.id = p.1) →
      (∀ p ∈ g.nodes, ∀ dep ∈ p.2.dependsOn, dep ∈ materialIDs apps counts) →
      (∀ p ∈ g'.nodes, p.2.id = p.1) ∧
      (∀ p ∈ g'.nodes, ∀ dep ∈ p.2.dependsOn, dep ∈ materialIDs apps counts) := by
  intro l
  induction l with
  | nil => intro g g' h h1 h2; cases h; exact ⟨h1, h2⟩
  | cons hd rest ih =>
    intro g g' h h1 h2
    rw [linkApps] at h
    cases hs : linkShards apps counts hd.1 ((lookupA counts hd.1).getD 0) hd.2
        (List.range ((lookupA counts hd.1).getD 0).toNat) g with
    | error e => rw [hs] at h; simp only [Bind.bind, Except.bind] at h; cases h
    | ok g1 =>
      rw [hs] at h
      simp only [Bind.bind, Except.bind] at h
      obtain ⟨h1', h2'⟩ := linkShards_preserves hs
        (fun j hj => List.mem_range.mp hj) h1 h2
      exact ih h h1' h2'

theorem lookupA_map_value {α β : Type} (f : α → β) :
    ∀ (l : List (String × α)) (k : String),
      lookupA (l.map (fun p => (p.1, f p.2))) k = (lookupA l k).map f := by
  intro l
  induction l with
  | nil => intro k; rfl
  | cons p rest ih =>
    intro k
    obtain ⟨pk, pv⟩ := p
    by_cases hp : pk = k
    · simp [List.map_cons, lookupA_cons, hp]
    · simp only [List.map_cons, lookupA_cons, if_neg hp]
      exact ih k

theorem lookupA_sortGraphDeps (g : Graph) (k : String) :
    lookupA (sortGraphDeps g).nodes k =
      (lookupA g.nodes k).map
        (fun n => { n with dependsOn := sortDeps n.dependsOn }) := by
  unfold sortGraphDeps
  exact lookupA_map_value
    (fun n => { n with dependsOn := sortDeps n.dependsOn }) g.nodes k

theorem sortGraphDeps_mem {g : Graph} {p : String × Node}
    (h : p ∈ (sortGraphDeps g).nodes) :
    ∃ q ∈ g.nodes, p = (q.1, { q.2 with dependsOn := sortDeps q.2.dependsOn }) := by
  simp only [sortGraphDeps, List.mem_map] at h
  obtain ⟨q, hq, hpq⟩ := h
  exact ⟨q, hq, hpq.symm⟩

theorem allNodeEntries_mem {apps : List (String × AppDefinition)}
    {groups : List (String × List String)} {counts : List (String × Int)}
    {p : String × Node} (h : p ∈ allNodeEntries apps groups counts) :
    p.2.id = p.1 ∧ p.2.dependsOn = [] := by
  simp only [allNodeEntries, List.mem_flatMap] at h
  obtain ⟨q, _, hmem⟩ := h
  simp only [appNodeEntries, List.mem_map] at hmem
  obtain ⟨i, _, rfl⟩ := hmem
  exact ⟨rfl, rfl⟩

theorem ParseYAML_ok_elim {t : YAMLTopology} {g : Graph}
    (h : ParseYAML t = .ok g) :
    ∃ exp grps cnts g0 g1,
      expandBlueprints t = .ok exp ∧
      discoverCoLocationGroups exp = .ok grps ∧
      inferAndValidateShardCounts exp t.shards grps = .ok cnts ∧
      buildConcreteNodes exp grps cnts = .ok g0 ∧
      linkDependencies g0 exp cnts = .ok g1 ∧
      detectCycle (sortGraphDeps g1) = none ∧
      g = sortGraphDeps g1 := by
  unfold ParseYAML at h
  simp only [Bind.bind, Except.bind] at h
  cases he : expandBlueprints t with
  | error e =>
    simp only [he] at h
    cases h
  | ok exp =>
    simp only [he] at h
    cases hg : discoverCoLocationGroups exp with
    | error e =>
      simp only [hg] at h
      cases h
    | ok grps =>
      simp only [hg] at h
      cases hc : inferAndValidateShardCounts exp t.shards grps with
      | error e =>
        simp only [hc] at h
        cases h
      | ok cnts =>
        simp only [hc] at h
        cases hb : buildConcreteNodes exp grps cnts with
        | error e =>
          simp only [hb] at h
          cases h
        | ok g0 =>
          simp only [hb] at h
          cases hl : linkDependencies g0 exp cnts with
          | error e =>
            simp only [hl] at h
            cases h
          | ok g1 =>
            simp only [hl] at h
            cases hd : detectCycle (sortGraphDeps g1) with
            | some path =>
              simp only [hd] at h
              cases h
            | none =>
              simp only [hd, Except.ok.injEq] at h
              exact ⟨exp, grps, cnts, g0, g1, rfl, hg, hc, hb, hl, hd, h.symm⟩

/-- The graph `ParseYAML` returns is well-formed: distinct keys, nodes
stored under their own IDs, and every edge target present. -/
theorem ParseYAML_ok_wf {t : YAMLTopology} {g : Graph}
    (h : ParseYAML t = .ok g) : GraphWF g := by
  obtain ⟨exp, grps, cnts, g0, g1, he, hg, hc, hb, hl, hd, rfl⟩ := ParseYAML_ok_elim h
  have hg0 : g0 = ⟨insertAll [] (allNodeEntries exp grps cnts)⟩ := by
    unfold buildConcreteNodes at hb
    cases hb
    rfl
  have hkeys1 : keysA g1.nodes = keysA g0.nodes := keysA_linkApps hl
  have hid0 : ∀ p ∈ g0.nodes, p.2.id = p.1 := by
    intro p hp
    rw [hg0] at hp
    rcases mem_insertAll_sub hp with hp | hp
    · cases hp
    · exact (allNodeEntries_mem hp).1
  have hdep0 : ∀ p ∈ g0.nodes, ∀ dep ∈ p.2.dependsOn,
      dep ∈ materialIDs exp cnts := by
    intro p hp dep hdep
    rw [hg0] at hp
    rcases mem_insertAll_sub hp with hp | hp
    · cases hp
    · rw [(allNodeEntries_mem hp).2] at hdep
      cases hdep
  obtain ⟨hid1, hdep1⟩ := linkApps_preserves hl hid0 hdep0
  have hmat : ∀ k, k ∈ materialIDs exp cnts → k ∈ keysA g0.nodes := by
    intro k hk
    rw [hg0]
    show k ∈ keysA (insertAll [] (allNodeEntries exp grps cnts))
    rw [← keysA_allNodeEntries exp grps cnts] at hk
    exact (mem_keysA_insertAll _ _ k).mpr (Or.inr hk)
  refine ⟨?_, ?_, ?_⟩
  · rw [keysA_sortGraphDeps, hkeys1, hg0]
    exact keysA_insertAll_nodup _ [] (by simp [keysA])
  · intro p hp
    obtain ⟨q, hq, rfl⟩ := sortGraphDeps_mem hp
    exact hid1 q hq
  · intro p hp dep hdep
    obtain ⟨q, hq, rfl⟩ := sortGraphDeps_mem hp
    have : dep ∈ q.2.dependsOn := by
      have hperm : (sortDeps q.2.dependsOn).Perm q.2.dependsOn :=
        List.perm_insertionSort _ _
      exact hperm.mem_iff.mp hdep
    rw [keysA_sortGraphDeps, hkeys1]
    exact hmat dep (hdep1 q hq dep this)

/-! ## The DFS of `detectCycle` computes a reverse topological order -/

theorem TopoOK_nil (g : Graph) : TopoOK g [] := trivial

theorem dfsDeps_ok_aux {g : Graph} (hwf : GraphWF g) (f : Nat)
    (ihv : ∀ (node : Node) (visiting visited visited' : List String),
      dfsVisit g f node visiting visited = .ok visited' →
      lookupA g.nodes node.id = some node →
      node.id ∉ visited → node.id ∉ visiting →
      TopoOK g visited → visited.Nodup →
      TopoOK g visited' ∧ visited'.Nodup ∧ node.id ∈ visited' ∧
        (∀ x ∈ visited, x ∈ visited') ∧
        (∀ x ∈ visited', x ∈ visited ∨ x ∉ visiting)) :
    ∀ (deps : List String) (nid : String) (visiting visited visited' : List String),
      dfsDepsWith (fun n a b => dfsVisit g f n a b) g nid deps visiting visited =
        .ok visited' →
      TopoOK g visited → visited.Nodup →
      TopoOK g visited' ∧ visited'.Nodup ∧
        (∀ x ∈ visited, x ∈ visited') ∧
        (∀ x ∈ visited', x ∈ visited ∨ x ∉ visiting) ∧
        (∀ d ∈ deps, d ∈ visited' ∨ lookupA g.nodes d = none) := by
  intro deps
  induction deps with
  | nil =>
    intro nid visiting visited visited' h ht hnd
    cases h
    exact ⟨ht, hnd, fun x hx => hx, fun x hx => Or.inl hx, by simp⟩
  | cons depId rest ih =>
    intro nid visiting visited visited' h ht hnd
    rw [dfsDepsWith] at h
    by_cases hv : depId ∈ visiting
    · rw [if_pos hv] at h; cases h
    · rw [if_neg hv] at h
      by_cases hvd : depId ∈ visited
      · rw [if_pos hvd] at h
        obtain ⟨c1, c2, c3, c4, c5⟩ := ih nid visiting visited visited' h ht hnd
        refine ⟨c1, c2, c3, c4, ?_⟩
        intro d hd
        rcases List.mem_cons.mp hd with hd | hd
        · exact Or.inl (by rw [hd]; exact c3 depId hvd)
        · exact c5 d hd
      · rw [if_neg hvd] at h
        cases hlk : lookupA g.nodes depId with
        | none =>
          simp only [hlk] at h
          obtain ⟨c1, c2, c3, c4, c5⟩ := ih nid visiting visited visited' h ht hnd
          refine ⟨c1, c2, c3, c4, ?_⟩
          intro d hd
          rcases List.mem_cons.mp hd with hd | hd
          · exact Or.inr (by rw [hd]; exact hlk)
          · exact c5 d hd
        | some depNode =>
          simp only [hlk] at h
          cases hvres : dfsVisit g f depNode visiting visited with
          | error p => simp only [hvres] at h; cases h
          | ok visited1 =>
            simp only [hvres] at h
            have hdid : depNode.id = depId :=
              hwf.2.1 (depId, depNode) (mem_of_lookupA hlk)
            obtain ⟨t1, t2, t3, t4, t5⟩ := ihv depNode visiting visited visited1
              hvres (by rw [hdid]; exact hlk) (by rw [hdid]; exact hvd)
              (by rw [hdid]; exact hv) ht hnd
            obtain ⟨c1, c2, c3, c4, c5⟩ := ih nid visiting visited1 visited' h t1 t2
            refine ⟨c1, c2, fun x hx => c3 x (t4 x hx), ?_, ?_⟩
            · intro x hx
              rcases c4 x hx with hx1 | hx1
              · exact t5 x hx1
              · exact Or.inr hx1
            · intro d hd
              rcases List.mem_cons.mp hd with hd | hd
              · refine Or.inl (c3 _ ?_)
                rw [hd, ← hdid]
                exact t3
              · exact c5 d hd

theorem dfsVisit_ok {g : Graph} (hwf : GraphWF g) :
    ∀ (fuel : Nat) (node : Node) (visiting visited visited' : List String),
      dfsVisit g fuel node visiting visited = .ok visited' →
      lookupA g.nodes node.id = some node →
      node.id ∉ visited → node.id ∉ visiting →
      TopoOK g visited → visited.Nodup →
      TopoOK g visited' ∧ visited'.Nodup ∧ node.id ∈ visited' ∧
        (∀ x ∈ visited, x ∈ visited') ∧
        (∀ x ∈ visited', x ∈ visited ∨ x ∉ visiting) := by
  intro fuel
  induction fuel with
  | zero => intro node visiting visited visited' h _ _ _ _ _; cases h
  | succ f ihf =>
    intro node visiting visited visited' h hlk hnvd hnv ht hnd
    rw [dfsVisit] at h
    cases hdd : dfsDepsWith (fun n a b => dfsVisit g f n a b) g node.id
        (sortDeps node.dependsOn) (node.id :: visiting) visited with
    | error p => rw [hdd] at h; cases h
    | ok visited1 =>
      rw [hdd] at h
      cases h
      obtain ⟨d1, d2, d3, d4, d5⟩ := dfsDeps_ok_aux hwf f ihf _ _ _ _ _ hdd ht hnd
      have hnid1 : node.id ∉ visited1 := by
        intro hx
        rcases d4 _ hx with hx1 | hx1
        · exact hnvd hx1
        · exact hx1 (List.mem_cons_self _ _)
      refine ⟨?_, List.nodup_cons.mpr ⟨hnid1, d2⟩, List.mem_cons_self _ _, ?_, ?_⟩
      · refine ⟨?_, d1⟩
        intro n hn d hd
        rw [hlk] at hn
        cases hn
        have hds : d ∈ sortDeps node.dependsOn :=
          (List.perm_insertionSort _ _).symm.subset hd
        rcases d5 d hds with hd1 | hd1
        · exact hd1
        · have hdk : d ∈ keysA g.nodes :=
            hwf.2.2 (node.id, node) (mem_of_lookupA hlk) d hd
          rw [lookupA_eq_none_iff] at hd1
          exact (hd1 hdk).elim
      · intro x hx
        exact List.mem_cons_of_mem _ (d3 x hx)
      · intro x hx
        rcases List.mem_cons.mp hx with hx | hx
        · rw [hx]; exact Or.inr hnv
        · rcases d4 x hx with h1 | h1
          · exact Or.inl h1
          · exact Or.inr (fun hc => h1 (List.mem_cons_of_mem _ hc))

theorem detectLoop_none {g : Graph} (hwf : GraphWF g) :
    ∀ (ks visited : List String),
      detectLoop g ks visited = none →
      TopoOK g visited → visited.Nodup →
      ∃ visited', TopoOK g visited' ∧ visited'.Nodup ∧
        (∀ x ∈ visited, x ∈ visited') ∧
        (∀ k ∈ ks, k ∈ visited' ∨ lookupA g.nodes k = none) := by
  intro ks
  induction ks with
  | nil =>
    intro visited _ ht hnd
    exact ⟨visited, ht, hnd, fun x hx => hx, by simp⟩
  | cons k rest ih =>
    intro visited h ht hnd
    rw [detectLoop] at h
    by_cases hkv : k ∈ visited
    · rw [if_pos hkv] at h
      obtain ⟨v', a, b, c, d⟩ := ih visited h ht hnd
      refine ⟨v', a, b, c, ?_⟩
      intro k' hk'
      rcases List.mem_cons.mp hk' with hk' | hk'
      · exact Or.inl (by rw [hk']; exact c _ hkv)
      · exact d k' hk'
    · rw [if_neg hkv] at h
      cases hlk : lookupA g.nodes k with
      | none =>
        simp only [hlk] at h
        obtain ⟨v', a, b, c, d⟩ := ih visited h ht hnd
        refine ⟨v', a, b, c, ?_⟩
        intro k' hk'
        rcases List.mem_cons.mp hk' with hk' | hk'
        · exact Or.inr (by rw [hk']; exact hlk)
        · exact d k' hk'
      | some n =>
        simp only [hlk] at h
        cases hres : dfsVisit g (g.nodes.length + 1) n [] visited with
        | error p => simp only [hres] at h; cases h
        | ok visited1 =>
          simp only [hres] at h
          have hid : n.id = k := hwf.2.1 (k, n) (mem_of_lookupA hlk)
          obtain ⟨t1, t2, t3, t4, t5⟩ := dfsVisit_ok hwf _ n [] visited visited1
            hres (by rw [hid]; exact hlk) (by rw [hid]; exact hkv)
            (by simp) ht hnd
          obtain ⟨v', a, b, c, d⟩ := ih visited1 h t1 t2
          refine ⟨v', a, b, fun x hx => c x (t4 x hx), ?_⟩
          intro k' hk'
          rcases List.mem_cons.mp hk' with hk' | hk'
          · refine Or.inl (c _ ?_)
            rw [hk', ← hid]
            exact t3
          · exact d k' hk'

/-- A cycle-free `detectCycle` run yields a reverse topological order
covering every node of the graph. -/
theorem detectCycle_none_toposort {g : Graph} (hwf : GraphWF g)
    (h : detectCycle g = none) :
    ∃ L, TopoOK g L ∧ L.Nodup ∧ ∀ k ∈ keysA g.nodes, k ∈ L := by
  obtain ⟨v', a, b, _, d⟩ :=
    detectLoop_none hwf (sortedKeys g) [] h (TopoOK_nil g) List.nodup_nil
  refine ⟨v', a, b, ?_⟩
  intro k hk
  have hks : k ∈ sortedKeys g := (sortStrings_perm _).symm.subset hk
  rcases d k hks with hh | hh
  · exact hh
  · rw [lookupA_eq_none_iff] at hh
    exact (hh hk).elim

/-! ## The Kahn traversal: the maps it builds, and `processEvents` -/

theorem filter_length_split (l : List String) (p q : String → Bool) :
    (l.filter p).length =
      (l.filter (fun x => p x && q x)).length +
      (l.filter (fun x => p x && !(q x))).length := by
  induction l with
  | nil => rfl
  | cons a rest ih =>
    simp only [List.filter_cons]
    cases hp : p a <;> cases hq : q a <;>
      simp [hp, hq, List.length_cons, ih] <;> omega

theorem filterMap_congr_mem {α β : Type} {l : List α} {f h : α → Option β}
    (hfg : ∀ a ∈ l, f a = h a) : l.filterMap f = l.filterMap h := by
  induction l with
  | nil => rfl
  | cons a rest ih =>
    simp only [List.filterMap_cons, hfg a (List.mem_cons_self a rest),
      ih (fun b hb => hfg b (List.mem_cons_of_mem a hb))]

theorem cntId_append (l1 l2 : List Node) (k : String) :
    cntId (l1 ++ l2) k = cntId l1 k + cntId l2 k := by
  simp [cntId, List.filter_append]

theorem cntId_cons (n : Node) (rest : List Node) (k : String) :
    cntId (n :: rest) k = (if n.id = k then 1 else 0) + cntId rest k := by
  simp only [cntId, List.filter_cons]
  by_cases h : n.id = k
  · simp [h]
    omega
  · simp [h]

theorem cntId_pos {l : List Node} {k : String} (h : 0 < cntId l k) :
    ∃ e ∈ l, e.id = k := by
  unfold cntId at h
  cases hne : l.filter (fun e => decide (e.id = k)) with
  | nil => rw [hne] at h; cases h
  | cons e rest =>
    have he : e ∈ l.filter (fun e => decide (e.id = k)) := by
      rw [hne]; exact List.mem_cons_self _ _
    rcases List.mem_filter.mp he with ⟨h1, h2⟩
    exact ⟨e, h1, of_decide_eq_true h2⟩

theorem buildInDegree_eq {nodes : List (String × Node)}
    (hnd : (keysA nodes).Nodup) (hid : ∀ p ∈ nodes, p.2.id = p.1) :
    buildInDegree nodes =
      nodes.map (fun p => (p.1, (p.2.dependsOn.length : Int))) := by
  suffices h : ∀ (l : List (String × Node)) (init : List (String × Int)),
      (l.map (fun p => p.2.id)).Nodup →
      (∀ p ∈ l, p.2.id ∉ keysA init) →
      l.foldl (fun m p => insertA m p.2.id (p.2.dependsOn.length : Int)) init =
        init ++ l.map (fun p => (p.2.id, (p.2.dependsOn.length : Int))) by
    have hids : nodes.map (fun p => p.2.id) = keysA nodes :=
      List.map_congr_left (fun p hp => hid p hp)
    unfold buildInDegree
    rw [h nodes [] (by rw [hids]; exact hnd) (by intro p _; simp [keysA])]
    simp only [List.nil_append]
    exact List.map_congr_left (fun p hp => by rw [hid p hp])
  intro l
  induction l with
  | nil => intro init _ _; simp
  | cons p rest ih =>
    intro init hnd2 hfresh
    simp only [List.map_cons, List.nodup_cons] at hnd2
    simp only [List.foldl_cons, List.map_cons]
    rw [insertA_of_not_mem (hfresh p (List.mem_cons_self p rest)) _]
    rw [ih (init ++ [(p.2.id, (p.2.dependsOn.length : Int))]) hnd2.2 ?_]
    · simp
    · intro q hq
      rw [keysA, List.map_append]
      simp only [List.mem_append, List.map_cons, List.map_nil,
        List.mem_singleton]
      push_neg
      refine ⟨hfresh q (List.mem_cons_of_mem p hq), ?_⟩
      intro hqid
      exact hnd2.1 (hqid ▸ List.mem_map_of_mem (fun p => p.2.id) hq)

theorem buildInDegree_lookup {nodes : List (String × Node)}
    (hnd : (keysA nodes).Nodup) (hid : ∀ p ∈ nodes, p.2.id = p.1)
    (k : String) :
    lookupA (buildInDegree nodes) k =
      (lookupA nodes k).map (fun n => (n.dependsOn.length : Int)) := by
  rw [buildInDegree_eq hnd hid]
  exact lookupA_map_value (fun n => (n.dependsOn.length : Int)) nodes k

theorem revAdd_lookup (n : Node) :
    ∀ (deps : List String) (m : List (String × List Node)) (k : String),
      ((lookupA (deps.foldl (fun m depId =>
          insertA m depId (((lookupA m depId).getD []) ++ [n])) m) k).getD []) =
        ((lookupA m k).getD []) ++ List.replicate (deps.count k) n := by
  intro deps
  induction deps with
  | nil => intro m k; simp
  | cons d rest ih =>
    intro m k
    simp only [List.foldl_cons]
    rw [ih]
    by_cases hdk : d = k
    · subst hdk
      rw [lookupA_insertA_self]
      simp only [Option.getD_some]
      rw [List.count_cons_self, List.replicate_succ]
      simp
    · rw [lookupA_insertA_ne _ _ _ hdk]
      rw [List.count_cons_of_ne (fun hh => hdk hh.symm)]

theorem buildReverseDeps_lookup (nodes : List (String × Node)) (k : String) :
    ((lookupA (buildReverseDeps nodes) k).getD []) =
      nodes.flatMap (fun p => List.replicate (p.2.dependsOn.count k) p.2) := by
  suffices h : ∀ (l : List (String × Node)) (m : List (String × List Node)),
      ((lookupA (l.foldl (fun m p =>
          p.2.dependsOn.foldl (fun m depId =>
            insertA m depId (((lookupA m depId).getD []) ++ [p.2])) m) m) k).getD []) =
        ((lookupA m k).getD []) ++
          l.flatMap (fun p => List.replicate (p.2.dependsOn.count k) p.2) by
    have hh := h nodes []
    simpa [buildReverseDeps] using hh
  intro l
  induction l with
  | nil => intro m; simp
  | cons p rest ih =>
    intro m
    simp only [List.foldl_cons, List.flatMap_cons]
    rw [ih, revAdd_lookup]
    rw [List.append_assoc]

theorem initialQueue_eq (g : Graph) (inDeg : List (String × Int)) :
    initialQueue g inDeg =
      inDeg.filterMap (fun p =>
        if p.2 = (0 : Int) then lookupA g.nodes p.1 else none) := by
  suffices h : ∀ (l : List (String × Int)) (q : List Node),
      l.foldl (fun q p =>
        if p.2 = (0 : Int) then
          match lookupA g.nodes p.1 with
          | some n => q ++ [n]
          | none => q
        else q) q =
      q ++ l.filterMap (fun p =>
        if p.2 = (0 : Int) then lookupA g.nodes p.1 else none) by
    have hh := h inDeg []
    simpa [initialQueue] using hh
  intro l
  induction l with
  | nil => intro q; simp
  | cons p rest ih =>
    intro q
    simp only [List.foldl_cons, List.filterMap_cons]
    by_cases hz : p.2 = (0 : Int)
    · rw [if_pos hz, if_pos hz]
      cases hlk : lookupA g.nodes p.1 with
      | none => rw [ih]
      | some n => rw [ih]; simp
    · rw [if_neg hz, if_neg hz, ih]

theorem initialQueue_char {g : Graph}
    (hnd : (keysA g.nodes).Nodup) (hid : ∀ p ∈ g.nodes, p.2.id = p.1) :
    initialQueue g (buildInDegree g.nodes) =
      (g.nodes.filter (fun p => decide (p.2.dependsOn.length = 0))).map
        (fun p => p.2) := by
  rw [initialQueue_eq, buildInDegree_eq hnd hid, List.filterMap_map]
  have hcg : ∀ p ∈ g.nodes,
      ((fun q => if q.2 = (0 : Int) then lookupA g.nodes q.1 else none) ∘
        (fun p => (p.1, (p.2.dependsOn.length : Int)))) p =
      (fun p => if p.2.dependsOn.length = 0 then some p.2 else none) p := by
    intro p hp
    simp only [Function.comp_apply]
    by_cases hl : p.2.dependsOn.length = 0
    · rw [if_pos (by exact_mod_cast hl), if_pos hl]
      exact lookupA_of_mem hnd hp
    · rw [if_neg (by exact_mod_cast hl), if_neg hl]
  rw [filterMap_congr_mem hcg]
  generalize g.nodes = l
  induction l with
  | nil => rfl
  | cons p rest ih =>
    simp only [List.filterMap_cons, List.filter_cons]
    by_cases hl : p.2.dependsOn.length = 0
    · rw [if_pos hl, if_pos (decide_eq_true hl), List.map_cons, ih]
    · rw [if_neg hl, if_neg (fun hc => hl (of_decide_eq_true hc)), ih]

theorem processEvents_cons (inDeg : List (String × Int)) (nextQ : List Node)
    (n : Node) (rest : List Node) :
    processEvents inDeg nextQ (n :: rest) =
      processEvents (insertA inDeg n.id (((lookupA inDeg n.id).getD 0) - 1))
        (if ((lookupA inDeg n.id).getD 0) - 1 = 0 then nextQ ++ [n] else nextQ)
        rest := rfl

theorem processEvents_lookup :
    ∀ (events : List Node) (inDeg : List (String × Int)) (nextQ : List Node)
      (k : String),
      lookupA (processEvents inDeg nextQ events).1 k =
        if 0 < cntId events k then
          some (((lookupA inDeg k).getD 0) - (cntId events k : Int))
        else lookupA inDeg k := by
  intro events
  induction events with
  | nil =>
    intro inDeg nextQ k
    simp [processEvents, cntId]
  | cons n rest ih =>
    intro inDeg nextQ k
    rw [processEvents_cons, ih, cntId_cons]
    by_cases hk : n.id = k
    · rw [if_pos hk, ← hk]
      by_cases hc : 0 < cntId rest n.id
      · rw [if_pos hc, if_pos (by omega)]
        rw [lookupA_insertA_self]
        simp only [Option.getD_some]
        congr 1
        omega
      · rw [if_neg hc, if_pos (by omega)]
        rw [lookupA_insertA_self]
        congr 1
        omega
    · rw [if_neg hk]
      rw [lookupA_insertA_ne _ _ _ hk]
      simp

theorem processEvents_mem :
    ∀ (events : List Node) (inDeg : List (String × Int)) (nextQ : List Node),
      (∀ e ∈ events, ∀ e2 ∈ events, e.id = e2.id → e = e2) →
      ∀ x, x ∈ (processEvents inDeg nextQ events).2 ↔
        (x ∈ nextQ ∨ (x ∈ events ∧ 1 ≤ ((lookupA inDeg x.id).getD 0) ∧
          ((lookupA inDeg x.id).getD 0) ≤ (cntId events x.id : Int))) := by
  intro events
  induction events with
  | nil =>
    intro inDeg nextQ _ x
    simp [processEvents]
  | cons n rest ih =>
    intro inDeg nextQ hU x
    rw [processEvents_cons]
    rw [ih _ _ (fun e he e2 he2 =>
      hU e (List.mem_cons_of_mem n he) e2 (List.mem_cons_of_mem n he2)) x]
    by_cases hx : x.id = n.id
    · rw [hx, lookupA_insertA_self]
      simp only [Option.getD_some]
      have hcc : cntId (n :: rest) n.id = 1 + cntId rest n.id := by
        rw [cntId_cons, if_pos rfl]
      rw [hcc]
      by_cases hd : ((lookupA inDeg n.id).getD 0) - 1 = 0
      · rw [if_pos hd]
        constructor
        · intro hmem
          rcases hmem with hmem | ⟨hxr, h1, h2⟩
          · rcases List.mem_append.mp hmem with hq | hn
            · exact Or.inl hq
            · have hxn : x = n := List.mem_singleton.mp hn
              refine Or.inr ⟨hxn ▸ List.mem_cons_self n rest, by omega, by omega⟩
          · exact absurd h1 (by omega)
        · intro hmem
          rcases hmem with hq | ⟨hxr, h1, h2⟩
          · exact Or.inl (List.mem_append.mpr (Or.inl hq))
          · have hxn : x = n := hU x hxr n (List.mem_cons_self n rest) hx
            exact Or.inl (List.mem_append.mpr (Or.inr (by simp [hxn])))
      · rw [if_neg hd]
        constructor
        · intro hmem
          rcases hmem with hq | ⟨hxr, h1, h2⟩
          · exact Or.inl hq
          · refine Or.inr ⟨List.mem_cons_of_mem n hxr, by omega, ?_⟩
            push_cast at h2 ⊢
            omega
        · intro hmem
          rcases hmem with hq | ⟨hxr, h1, h2⟩
          · exact Or.inl hq
          · push_cast at h2
            have hcp : 0 < cntId rest n.id := by omega
            obtain ⟨e, her, hei⟩ := cntId_pos hcp
            have hen : e = n := hU e (List.mem_cons_of_mem n her) n
              (List.mem_cons_self n rest) hei
            have hxrest : x ∈ rest := by
              rcases List.mem_cons.mp hxr with hh | hh
              · rw [hh, ← hen]; exact her
              · exact hh
            refine Or.inr ⟨hxrest, by omega, by omega⟩
    · rw [lookupA_insertA_ne _ _ _ (fun hh => hx hh.symm)]
      have hcc : cntId (n :: rest) x.id = cntId rest x.id := by
        rw [cntId_cons, if_neg (fun hh => hx hh.symm), Nat.zero_add]
      rw [hcc]
      have hxn : x ≠ n := fun hh => hx (by rw [hh])
      by_cases hd : ((lookupA inDeg n.id).getD 0) - 1 = 0
      · rw [if_pos hd]
        constructor
        · intro hmem
          rcases hmem with hq | hr
          · rcases List.mem_append.mp hq with hq | hn
            · exact Or.inl hq
            · exact absurd (List.mem_singleton.mp hn) hxn
          · exact Or.inr ⟨List.mem_cons_of_mem n hr.1, hr.2⟩
        · intro hmem
          rcases hmem with hq | ⟨hxr, hrest⟩
          · exact Or.inl (List.mem_append.mpr (Or.inl hq))
          · rcases List.mem_cons.mp hxr with hh | hh
            · exact absurd hh hxn
            · exact Or.inr ⟨hh, hrest⟩
      · rw [if_neg hd]
        constructor
        · intro hmem
          rcases hmem with hq | hr
          · exact Or.inl hq
          · exact Or.inr ⟨List.mem_cons_of_mem n hr.1, hr.2⟩
        · intro hmem
          rcases hmem with hq | ⟨hxr, hrest⟩
          · exact Or.inl hq
          · rcases List.mem_cons.mp hxr with hh | hh
            · exact absurd hh hxn
            · exact Or.inr ⟨hh, hrest⟩

theorem processEvents_nodup :
    ∀ (events : List Node) (inDeg : List (String × Int)) (nextQ : List Node),
      (nextQ.map (fun x => x.id)).Nodup →
      (∀ x ∈ nextQ, ¬(1 ≤ ((lookupA inDeg x.id).getD 0) ∧
        ((lookupA inDeg x.id).getD 0) ≤ (cntId events x.id : Int))) →
      ((processEvents inDeg nextQ events).2.map (fun x => x.id)).Nodup := by
  intro events
  induction events with
  | nil =>
    intro inDeg nextQ hnd _
    simpa [processEvents] using hnd
  | cons n rest ih =>
    intro inDeg nextQ hnd hdead
    rw [processEvents_cons]
    by_cases hd : ((lookupA inDeg n.id).getD 0) - 1 = 0
    · rw [if_pos hd]
      apply ih
      · rw [List.map_append, List.nodup_append]
        refine ⟨hnd, by simp, ?_⟩
        intro a ha hb
        simp only [List.map_cons, List.map_nil, List.mem_singleton] at hb
        obtain ⟨x, hxq, hxa⟩ := List.mem_map.mp ha
        apply hdead x hxq
        rw [hxa, hb, cntId_cons, if_pos rfl]
        push_cast
        omega
      · intro x hxq
        rcases List.mem_append.mp hxq with hxq | hxn
        · by_cases hxid : x.id = n.id
          · rw [hxid, lookupA_insertA_self]
            simp only [Option.getD_some]
            omega
          · rw [lookupA_insertA_ne _ _ _ (fun hh => hxid hh.symm)]
            have hh := hdead x hxq
            rw [cntId_cons, if_neg (fun hh2 => hxid hh2.symm)] at hh
            simpa using hh
        · have hxn2 : x = n := List.mem_singleton.mp hxn
          rw [hxn2, lookupA_insertA_self]
          simp only [Option.getD_some]
          omega
    · rw [if_neg hd]
      apply ih _ _ hnd
      intro x hxq
      by_cases hxid : x.id = n.id
      · rw [hxid, lookupA_insertA_self]
        have hh := hdead x hxq
        rw [hxid, cntId_cons, if_pos rfl] at hh
        simp only [Option.getD_some]
        rintro ⟨h1, h2⟩
        apply hh
        push_cast at h2 ⊢
        constructor <;> omega
      · rw [lookupA_insertA_ne _ _ _ (fun hh => hxid hh.symm)]
        have hh := hdead x hxq
        rw [cntId_cons, if_neg (fun hh2 => hxid hh2.symm)] at hh
        simpa using hh

theorem cntId_replicate (c : Nat) (v : Node) (k : String) :
    cntId (List.replicate c v) k = if v.id = k then c else 0 := by
  induction c with
  | zero => simp [cntId]
  | succ c ih =>
    rw [List.replicate_succ, cntId_cons, ih]
    by_cases h : v.id = k
    · simp [h]
      omega
    · simp [h]

theorem cntId_rev (mid : String) :
    ∀ (l : List (String × Node)), (keysA l).Nodup →
      (∀ p ∈ l, p.2.id = p.1) → ∀ {k : String} {n : Node},
      lookupA l k = some n →
      cntId (l.flatMap (fun p =>
        List.replicate (p.2.dependsOn.count mid) p.2)) k =
        n.dependsOn.count mid := by
  intro l
  induction l with
  | nil => intro _ _ k n hlk; cases hlk
  | cons p rest ih =>
    intro hnd hid k n hlk
    obtain ⟨pk, pv⟩ := p
    simp only [keysA, List.map_cons, List.nodup_cons] at hnd
    rw [List.flatMap_cons, cntId_append, cntId_replicate]
    have hpv : pv.id = pk := hid (pk, pv) (List.mem_cons_self _ _)
    rw [lookupA_cons] at hlk
    by_cases hp : pk = k
    · rw [if_pos hp] at hlk
      injection hlk with hlk
      subst hlk
      rw [if_pos (by rw [hpv]; exact hp)]
      have hz : cntId (rest.flatMap (fun p =>
          List.replicate (p.2.dependsOn.count mid) p.2)) k = 0 := by
        unfold cntId
        rw [List.length_eq_zero, List.filter_eq_nil]
        intro e he
        obtain ⟨q, hq, heq⟩ := List.mem_flatMap.mp he
        obtain ⟨_, rfl⟩ := List.mem_replicate.mp heq
        have hq1 : q.2.id = q.1 := hid q (List.mem_cons_of_mem _ hq)
        simp only [decide_eq_true_eq]
        rw [hq1]
        intro hqk
        exact hnd.1 (hp ▸ hqk ▸ List.mem_map_of_mem Prod.fst hq)
      rw [hz]
      simp
    · rw [if_neg hp] at hlk
      rw [if_neg (by rw [hpv]; exact hp), Nat.zero_add]
      exact ih hnd.2 (fun q hq => hid q (List.mem_cons_of_mem _ hq)) hlk

theorem filter_mem_cons_length (deps : List String) (a : String)
    (lids : List String) (ha : a ∉ lids) :
    (deps.filter (fun d => decide (d ∈ a :: lids))).length =
      deps.count a + (deps.filter (fun d => decide (d ∈ lids))).length := by
  induction deps with
  | nil => simp
  | cons d rest ih =>
    by_cases hda : d = a
    · subst hda
      rw [List.count_cons_self]
      simp only [List.filter_cons]
      rw [if_pos (by simp), if_neg (by simpa using ha)]
      simp only [List.length_cons]
      omega
    · rw [List.count_cons_of_ne (fun hh => hda hh.symm)]
      simp only [List.filter_cons]
      by_cases hdl : d ∈ lids
      · rw [if_pos (by simp [hdl]), if_pos (by simpa using hdl)]
        simp only [List.length_cons]
        omega
      · rw [if_neg (by simp [hda, hdl]), if_neg (by simpa using hdl)]
        exact ih

theorem cntId_events {g : Graph} (hnd : (keysA g.nodes).Nodup)
    (hid : ∀ p ∈ g.nodes, p.2.id = p.1) :
    ∀ (layer : List Node), (layer.map (fun x => x.id)).Nodup →
      ∀ {k : String} {n : Node}, lookupA g.nodes k = some n →
      cntId (layer.flatMap (fun m =>
          (lookupA (buildReverseDeps g.nodes) m.id).getD [])) k =
        (n.dependsOn.filter (fun d =>
          decide (d ∈ layer.map (fun x => x.id)))).length := by
  intro layer
  induction layer with
  | nil =>
    intro _ k n _
    simp [cntId]
  | cons m rest ih =>
    intro hlnd k n hlk
    simp only [List.map_cons, List.nodup_cons] at hlnd
    rw [List.flatMap_cons, cntId_append, buildReverseDeps_lookup,
      cntId_rev m.id g.nodes hnd hid hlk, ih hlnd.2 hlk, List.map_cons,
      filter_mem_cons_length n.dependsOn m.id _ hlnd.1]

theorem events_canonical {g : Graph} (hnd : (keysA g.nodes).Nodup)
    (hid : ∀ p ∈ g.nodes, p.2.id = p.1) (layer : List Node) {x : Node}
    (hx : x ∈ layer.flatMap (fun m =>
      (lookupA (buildReverseDeps g.nodes) m.id).getD [])) :
    lookupA g.nodes x.id = some x ∧ ∃ m ∈ layer, m.id ∈ x.dependsOn := by
  obtain ⟨m, hm, hxm⟩ := List.mem_flatMap.mp hx
  rw [buildReverseDeps_lookup] at hxm
  obtain ⟨p, hp, hrep⟩ := List.mem_flatMap.mp hxm
  obtain ⟨hc, rfl⟩ := List.mem_replicate.mp hrep
  refine ⟨?_, m, hm, ?_⟩
  · rw [hid p hp]
    exact lookupA_of_mem hnd hp
  · have hcp : 0 < p.2.dependsOn.count m.id := Nat.pos_of_ne_zero hc
    exact List.count_pos_iff_mem.mp hcp

theorem events_mem {g : Graph} {k : String}
    {n : Node} (hlk : lookupA g.nodes k = some n) {layer : List Node}
    {m : Node} (hm : m ∈ layer) (hdep : m.id ∈ n.dependsOn) :
    n ∈ layer.flatMap (fun m2 =>
      (lookupA (buildReverseDeps g.nodes) m2.id).getD []) := by
  refine List.mem_flatMap.mpr ⟨m, hm, ?_⟩
  rw [buildReverseDeps_lookup]
  refine List.mem_flatMap.mpr ⟨(k, n), mem_of_lookupA hlk, ?_⟩
  rw [List.mem_replicate]
  exact ⟨Nat.pos_iff_ne_zero.mp (List.count_pos_iff_mem.mpr hdep), rfl⟩

theorem topo_exists_ready {g : Graph}
    (hcl : ∀ p ∈ g.nodes, ∀ d ∈ p.2.dependsOn, d ∈ keysA g.nodes) :
    ∀ (L : List String), TopoOK g L → ∀ (P : List String),
      (∃ k ∈ L, k ∈ keysA g.nodes ∧ k ∉ P) →
      ∃ k n, lookupA g.nodes k = some n ∧ k ∉ P ∧
        ∀ d ∈ n.dependsOn, d ∈ P := by
  intro L
  induction L with
  | nil => intro _ P hex; obtain ⟨k, hk, _⟩ := hex; cases hk
  | cons k0 rest ih =>
    intro ht P hex
    by_cases hr : ∃ k ∈ rest, k ∈ keysA g.nodes ∧ k ∉ P
    · exact ih ht.2 P hr
    · obtain ⟨k, hkL, hkk, hkP⟩ := hex
      have hk0 : k = k0 := by
        rcases List.mem_cons.mp hkL with hh | hh
        · exact hh
        · exact absurd ⟨k, hh, hkk, hkP⟩ hr
      subst hk0
      obtain ⟨n, hn⟩ :=
        Option.isSome_iff_exists.mp ((lookupA_isSome_iff _ _).mpr hkk)
      refine ⟨k, n, hn, hkP, ?_⟩
      intro d hd
      have hdrest : d ∈ rest := ht.1 n hn d hd
      have hdk : d ∈ keysA g.nodes := hcl (k, n) (mem_of_lookupA hn) d hd
      by_contra hdP
      exact hr ⟨d, hdrest, hdk, hdP⟩

theorem pendCount_split (n : Node) (P lids : List String)
    (hdis : ∀ d ∈ lids, d ∉ P) :
    pendCount n P =
      (n.dependsOn.filter (fun d => decide (d ∈ lids))).length +
      pendCount n (P ++ lids) := by
  unfold pendCount
  rw [filter_length_split n.dependsOn (fun d => !(decide (d ∈ P)))
    (fun d => decide (d ∈ lids))]
  congr 1
  · apply congrArg List.length
    apply List.filter_congr
    intro d _
    by_cases hdl : d ∈ lids
    · have hdP : d ∉ P := hdis d hdl
      simp [hdl, hdP]
    · simp [hdl]
  · apply congrArg List.length
    apply List.filter_congr
    intro d _
    by_cases hdP : d ∈ P
    · simp [hdP, List.mem_append]
    · by_cases hdl : d ∈ lids
      · simp [hdP, hdl, List.mem_append]
      · simp [hdP, hdl, List.mem_append]

theorem pendCount_eq_zero {n : Node} {P : List String} :
    pendCount n P = 0 ↔ ∀ d ∈ n.dependsOn, d ∈ P := by
  unfold pendCount
  rw [List.length_eq_zero, List.filter_eq_nil]
  constructor
  · intro h d hd
    have hh := h d hd
    simpa using hh
  · intro h d hd
    simpa using h d hd

theorem kahnLoop_acc (revDeps : List (String × List Node)) :
    ∀ (fuel : Nat) (inDeg : List (String × Int)) (queue : List Node)
      (acc : List (List Node)),
      kahnLoop revDeps fuel inDeg queue acc =
        acc ++ kahnLoop revDeps fuel inDeg queue [] := by
  intro fuel
  induction fuel with
  | zero => intro inDeg queue acc; simp [kahnLoop]
  | succ f ih =>
    intro inDeg queue acc
    by_cases hq : queue.isEmpty
    · simp only [kahnLoop, if_pos hq]
      simp
    · simp only [kahnLoop, if_neg hq]
      rcases hpe : processEvents inDeg []
          ((sortNodes queue).flatMap
            (fun m => (lookupA revDeps m.id).getD [])) with ⟨inDeg2, nextQ⟩
      simp only [hpe]
      rw [ih inDeg2 nextQ (acc ++ [sortNodes queue]),
        ih inDeg2 nextQ ([] ++ [sortNodes queue])]
      simp

theorem kahnLoop_layersOK {g : Graph}
    (hnd : (keysA g.nodes).Nodup) (hid : ∀ p ∈ g.nodes, p.2.id = p.1)
    (hcl : ∀ p ∈ g.nodes, ∀ d ∈ p.2.dependsOn, d ∈ keysA g.nodes)
    {Ltopo : List String} (htopo : TopoOK g Ltopo)
    (htk : ∀ k ∈ keysA g.nodes, k ∈ Ltopo) :
    ∀ (fuel : Nat) (P : List String) (inDeg : List (String × Int))
      (queue : List Node),
      (∀ k ∈ P, k ∈ keysA g.nodes) → P.Nodup →
      (∀ k ∈ P, ∀ n, lookupA g.nodes k = some n → ∀ d ∈ n.dependsOn, d ∈ P) →
      (∀ x ∈ queue, lookupA g.nodes x.id = some x) →
      (∀ x ∈ queue, x.id ∉ P) →
      (∀ x ∈ queue, ∀ d ∈ x.dependsOn, d ∈ P) →
      (queue.map (fun x => x.id)).Nodup →
      (∀ k n, lookupA g.nodes k = some n → k ∉ P →
        (∀ d ∈ n.dependsOn, d ∈ P) → ∃ x ∈ queue, x.id = k) →
      (∀ k n, lookupA g.nodes k = some n → k ∉ P →
        (∀ x ∈ queue, x.id ≠ k) →
        lookupA inDeg k = some (pendCount n P : Int)) →
      (keysA g.nodes).length < fuel + P.length →
      LayersOK g P (kahnLoop (buildReverseDeps g.nodes) fuel inDeg queue []) := by
  intro fuel
  induction fuel with
  | zero =>
    intro P inDeg queue hPk hPnd hPcl hq1 hq2 hq3 hqnd hqc hdeg hfuel
    exfalso
    have hle : P.length ≤ (keysA g.nodes).length :=
      List.Subperm.length_le (List.subperm_of_subset hPnd hPk)
    omega
  | succ f ih =>
    intro P inDeg queue hPk hPnd hPcl hq1 hq2 hq3 hqnd hqc hdeg hfuel
    by_cases hq : queue.isEmpty
    · simp only [kahnLoop, if_pos hq]
      intro k hk
      by_contra hkP
      obtain ⟨k2, n2, hlk2, hk2P, hk2dep⟩ :=
        topo_exists_ready hcl Ltopo htopo P ⟨k, htk k hk, hk, hkP⟩
      obtain ⟨x, hxq, _⟩ := hqc k2 n2 hlk2 hk2P hk2dep
      rw [List.isEmpty_iff] at hq
      rw [hq] at hxq
      cases hxq
    · simp only [kahnLoop, if_neg hq]
      rcases hpe : processEvents inDeg []
          ((sortNodes queue).flatMap
            (fun m => (lookupA (buildReverseDeps g.nodes) m.id).getD []))
          with ⟨inDeg2, nextQ⟩
      simp only [hpe]
      rw [kahnLoop_acc]
      simp only [List.nil_append, List.singleton_append]
      have hperm : (sortNodes queue).Perm queue := List.perm_insertionSort nodeLE queue
      have hlmem : ∀ x, x ∈ sortNodes queue ↔ x ∈ queue := fun x => hperm.mem_iff
      have hlids_nodup : ((sortNodes queue).map (fun x => x.id)).Nodup :=
        ((hperm.map (fun x => x.id)).nodup_iff).mpr hqnd
      have hl1 : ∀ x ∈ sortNodes queue, lookupA g.nodes x.id = some x :=
        fun x hx => hq1 x ((hlmem x).mp hx)
      have hl2 : ∀ x ∈ sortNodes queue, x.id ∉ P :=
        fun x hx => hq2 x ((hlmem x).mp hx)
      have hl3 : ∀ x ∈ sortNodes queue, ∀ d ∈ x.dependsOn, d ∈ P :=
        fun x hx => hq3 x ((hlmem x).mp hx)
      have hlne : sortNodes queue ≠ [] := by
        intro hnil
        rw [hnil] at hperm
        have hqe : queue = [] := hperm.symm.eq_nil
        rw [hqe] at hq
        simp at hq
      have hdisj : ∀ d ∈ (sortNodes queue).map (fun x => x.id), d ∉ P := by
        intro d hd
        obtain ⟨m, hm, hmd⟩ := List.mem_map.mp hd
        exact hmd ▸ hl2 m hm
      have hlids_keys : ∀ d ∈ (sortNodes queue).map (fun x => x.id),
          d ∈ keysA g.nodes := by
        intro d hd
        obtain ⟨m, hm, hmd⟩ := List.mem_map.mp hd
        apply (lookupA_isSome_iff _ _).mp
        rw [← hmd, hl1 m hm]
        rfl
      have hev1 : ∀ x ∈ (sortNodes queue).flatMap
          (fun m => (lookupA (buildReverseDeps g.nodes) m.id).getD []),
          lookupA g.nodes x.id = some x ∧
            ∃ m ∈ sortNodes queue, m.id ∈ x.dependsOn :=
        fun x hx => events_canonical hnd hid (sortNodes queue) hx
      have hU : ∀ e ∈ (sortNodes queue).flatMap
          (fun m => (lookupA (buildReverseDeps g.nodes) m.id).getD []),
          ∀ e2 ∈ (sortNodes queue).flatMap
          (fun m => (lookupA (buildReverseDeps g.nodes) m.id).getD []),
          e.id = e2.id → e = e2 := by
        intro e he e2 he2 hee
        have h1 := (hev1 e he).1
        have h2 := (hev1 e2 he2).1
        rw [hee] at h1
        exact Option.some.inj (h1.symm.trans h2)
      have hcnt : ∀ {k : String} {n : Node}, lookupA g.nodes k = some n →
          cntId ((sortNodes queue).flatMap
            (fun m => (lookupA (buildReverseDeps g.nodes) m.id).getD [])) k =
          (n.dependsOn.filter (fun d =>
            decide (d ∈ (sortNodes queue).map (fun x => x.id)))).length :=
        fun hlk => cntId_events hnd hid (sortNodes queue) hlids_nodup hlk
      have hd0 : ∀ {k : String} {n : Node}, lookupA g.nodes k = some n →
          k ∉ P → k ∉ (sortNodes queue).map (fun x => x.id) →
          lookupA inDeg k = some ((pendCount n P : Int)) := by
        intro k n hlk hkP hkl
        apply hdeg k n hlk hkP
        intro x hxq hxk
        apply hkl
        rw [← hxk]
        exact List.mem_map_of_mem _ ((hlmem x).mpr hxq)
      have hpe1 : ∀ k, lookupA inDeg2 k =
          if 0 < cntId ((sortNodes queue).flatMap
              (fun m => (lookupA (buildReverseDeps g.nodes) m.id).getD [])) k then
            some (((lookupA inDeg k).getD 0) -
              (cntId ((sortNodes queue).flatMap
                (fun m => (lookupA (buildReverseDeps g.nodes) m.id).getD [])) k : Int))
          else lookupA inDeg k := by
        intro k
        have hh := processEvents_lookup ((sortNodes queue).flatMap
          (fun m => (lookupA (buildReverseDeps g.nodes) m.id).getD [])) inDeg [] k
        rw [hpe] at hh
        exact hh
      have hpe2 : ∀ x, x ∈ nextQ ↔
          (x ∈ (sortNodes queue).flatMap
            (fun m => (lookupA (buildReverseDeps g.nodes) m.id).getD []) ∧
          1 ≤ ((lookupA inDeg x.id).getD 0) ∧
          ((lookupA inDeg x.id).getD 0) ≤
            (cntId ((sortNodes queue).flatMap
              (fun m => (lookupA (buildReverseDeps g.nodes) m.id).getD [])) x.id : Int)) := by
        intro x
        have hh := processEvents_mem ((sortNodes queue).flatMap
          (fun m => (lookupA (buildReverseDeps g.nodes) m.id).getD [])) inDeg [] hU x
        rw [hpe] at hh
        simpa using hh
      have hpe3 : (nextQ.map (fun x => x.id)).Nodup := by
        have hh := processEvents_nodup ((sortNodes queue).flatMap
          (fun m => (lookupA (buildReverseDeps g.nodes) m.id).getD [])) inDeg []
          (by simp) (by intro x hx; exact absurd hx (List.not_mem_nil x))
        rw [hpe] at hh
        exact hh
      have hnq_canon : ∀ x ∈ nextQ, lookupA g.nodes x.id = some x :=
        fun x hx => (hev1 x ((hpe2 x).mp hx).1).1
      have hnq_notP : ∀ x ∈ nextQ, x.id ∉ P ∧
          x.id ∉ (sortNodes queue).map (fun x => x.id) := by
        intro x hx
        obtain ⟨hxe, _, _⟩ := (hpe2 x).mp hx
        obtain ⟨hclk, m, hm, hmdep⟩ := hev1 x hxe
        constructor
        · intro hxP
          have hmp := hPcl x.id hxP x hclk m.id hmdep
          exact hdisj m.id (List.mem_map_of_mem _ hm) hmp
        · intro hxl
          obtain ⟨m2, hm2, hm2id⟩ := List.mem_map.mp hxl
          have hm2c := hl1 m2 hm2
          rw [hm2id] at hm2c
          have hxm2 : m2 = x := Option.some.inj (hm2c.symm.trans hclk)
          have hmp := hl3 m2 hm2 m.id (by rw [hxm2]; exact hmdep)
          exact hdisj m.id (List.mem_map_of_mem _ hm) hmp
      have hnq_deps : ∀ x ∈ nextQ, ∀ d ∈ x.dependsOn,
          d ∈ P ++ (sortNodes queue).map (fun x => x.id) := by
        intro x hx
        obtain ⟨hxe, h1, h2⟩ := (hpe2 x).mp hx
        have hclk := (hev1 x hxe).1
        obtain ⟨hxP, hxl⟩ := hnq_notP x hx
        have hD : lookupA inDeg x.id = some ((pendCount x P : Int)) :=
          hd0 hclk hxP hxl
        rw [hD] at h1 h2
        simp only [Option.getD_some] at h1 h2
        rw [hcnt hclk] at h2
        have hsplit := pendCount_split x P
          ((sortNodes queue).map (fun x => x.id)) hdisj
        have hz : pendCount x (P ++ (sortNodes queue).map (fun x => x.id)) = 0 := by
          omega
        intro d hd
        exact (pendCount_eq_zero.mp hz) d hd
      have hnq_comp : ∀ k n, lookupA g.nodes k = some n →
          k ∉ P ++ (sortNodes queue).map (fun x => x.id) →
          (∀ d ∈ n.dependsOn, d ∈ P ++ (sortNodes queue).map (fun x => x.id)) →
          ∃ x ∈ nextQ, x.id = k := by
        intro k n hlk hkPl hdeps
        have hkP : k ∉ P := fun hh => hkPl (List.mem_append.mpr (Or.inl hh))
        have hkl : k ∉ (sortNodes queue).map (fun x => x.id) :=
          fun hh => hkPl (List.mem_append.mpr (Or.inr hh))
        have hnid : n.id = k := hid (k, n) (mem_of_lookupA hlk)
        have hnotall : ¬(∀ d ∈ n.dependsOn, d ∈ P) := by
          intro hall
          obtain ⟨x, hxq, hxk⟩ := hqc k n hlk hkP hall
          apply hkl
          rw [← hxk]
          exact List.mem_map_of_mem _ ((hlmem x).mpr hxq)
        push_neg at hnotall
        obtain ⟨d, hd, hdP⟩ := hnotall
        have hdl : d ∈ (sortNodes queue).map (fun x => x.id) := by
          rcases List.mem_append.mp (hdeps d hd) with hh | hh
          · exact absurd hh hdP
          · exact hh
        obtain ⟨m, hm, hmd⟩ := List.mem_map.mp hdl
        have hne : n ∈ (sortNodes queue).flatMap
            (fun m2 => (lookupA (buildReverseDeps g.nodes) m2.id).getD []) :=
          events_mem hlk hm (by rw [hmd]; exact hd)
        have hD : lookupA inDeg k = some ((pendCount n P : Int)) := hd0 hlk hkP hkl
        have hpnz : pendCount n P ≠ 0 := by
          intro hz
          exact hdP (pendCount_eq_zero.mp hz d hd)
        have hz2 : pendCount n (P ++ (sortNodes queue).map (fun x => x.id)) = 0 :=
          pendCount_eq_zero.mpr hdeps
        have hsplit := pendCount_split n P
          ((sortNodes queue).map (fun x => x.id)) hdisj
        refine ⟨n, ?_, hnid⟩
        rw [hpe2 n]
        refine ⟨hne, ?_, ?_⟩
        · rw [hnid, hD]
          simp only [Option.getD_some]
          omega
        · rw [hnid, hD, hcnt hlk]
          simp only [Option.getD_some]
          omega
      have hdeg2 : ∀ k n, lookupA g.nodes k = some n →
          k ∉ P ++ (sortNodes queue).map (fun x => x.id) →
          (∀ x ∈ nextQ, x.id ≠ k) →
          lookupA inDeg2 k =
            some ((pendCount n (P ++ (sortNodes queue).map (fun x => x.id)) : Int)) := by
        intro k n hlk hkPl _
        have hkP : k ∉ P := fun hh => hkPl (List.mem_append.mpr (Or.inl hh))
        have hkl : k ∉ (sortNodes queue).map (fun x => x.id) :=
          fun hh => hkPl (List.mem_append.mpr (Or.inr hh))
        have hD := hd0 hlk hkP hkl
        have hsplit := pendCount_split n P
          ((sortNodes queue).map (fun x => x.id)) hdisj
        rw [hpe1 k, hcnt hlk]
        by_cases hc : 0 < (n.dependsOn.filter (fun d =>
            decide (d ∈ (sortNodes queue).map (fun x => x.id)))).length
        · rw [if_pos hc, hD]
          simp only [Option.getD_some]
          congr 1
          omega
        · rw [if_neg hc, hD]
          congr 1
          omega
      have hPk2 : ∀ k ∈ P ++ (sortNodes queue).map (fun x => x.id),
          k ∈ keysA g.nodes := by
        intro k hk
        rcases List.mem_append.mp hk with hh | hh
        · exact hPk k hh
        · exact hlids_keys k hh
      have hPnd2 : (P ++ (sortNodes queue).map (fun x => x.id)).Nodup := by
        rw [List.nodup_append]
        exact ⟨hPnd, hlids_nodup, fun a ha hb => (hdisj a hb) ha⟩
      have hPcl2 : ∀ k ∈ P ++ (sortNodes queue).map (fun x => x.id),
          ∀ n, lookupA g.nodes k = some n → ∀ d ∈ n.dependsOn,
          d ∈ P ++ (sortNodes queue).map (fun x => x.id) := by
        intro k hk n hlk d hd
        rcases List.mem_append.mp hk with hh | hh
        · exact List.mem_append.mpr (Or.inl (hPcl k hh n hlk d hd))
        · obtain ⟨m, hm, hmid⟩ := List.mem_map.mp hh
          have hmc := hl1 m hm
          rw [hmid] at hmc
          have hmn : m = n := Option.some.inj (hmc.symm.trans hlk)
          exact List.mem_append.mpr
            (Or.inl (hl3 m hm d (by rw [hmn]; exact hd)))
      have hnq2 : ∀ x ∈ nextQ,
          x.id ∉ P ++ (sortNodes queue).map (fun x => x.id) := by
        intro x hx hmem
        rcases List.mem_append.mp hmem with h1 | h2
        · exact (hnq_notP x hx).1 h1
        · exact (hnq_notP x hx).2 h2
      have hfuel2 : (keysA g.nodes).length <
          f + (P ++ (sortNodes queue).map (fun x => x.id)).length := by
        rw [List.length_append, List.length_map]
        have hpos : 0 < (sortNodes queue).length := List.length_pos.mpr hlne
        omega
      refine ⟨?_, hlids_nodup, hlne, ?_⟩
      · intro x hx
        exact ⟨hl1 x hx, hl2 x hx, hl3 x hx⟩
      · exact ih (P ++ (sortNodes queue).map (fun x => x.id)) inDeg2 nextQ
          hPk2 hPnd2 hPcl2 hnq_canon hnq2 hnq_deps hpe3 hnq_comp hdeg2 hfuel2

theorem pendCount_nil (n : Node) : pendCount n [] = n.dependsOn.length := by
  simp [pendCount]

theorem GetStartupOrder_layersOK {g : Graph} (hwf : GraphWF g)
    (hac : detectCycle g = none) :
    LayersOK g [] (GetStartupOrder g) := by
  obtain ⟨hnd, hid, hcl⟩ := hwf
  obtain ⟨Ltopo, htopo, _, htk⟩ := detectCycle_none_toposort ⟨hnd, hid, hcl⟩ hac
  show LayersOK g [] (kahnLoop (buildReverseDeps g.nodes) (g.nodes.length + 1)
    (buildInDegree g.nodes) (initialQueue g (buildInDegree g.nodes)) [])
  have hq0 : initialQueue g (buildInDegree g.nodes) =
      (g.nodes.filter (fun p => decide (p.2.dependsOn.length = 0))).map
        (fun p => p.2) := initialQueue_char hnd hid
  apply kahnLoop_layersOK hnd hid hcl htopo htk (g.nodes.length + 1) []
      (buildInDegree g.nodes) (initialQueue g (buildInDegree g.nodes))
  · intro k hk
    cases hk
  · exact List.nodup_nil
  · intro k hk
    cases hk
  · intro x hx
    rw [hq0] at hx
    obtain ⟨p, hp, hpx⟩ := List.mem_map.mp hx
    have hpm : p ∈ g.nodes := (List.mem_filter.mp hp).1
    rw [← hpx, hid p hpm]
    exact lookupA_of_mem hnd hpm
  · intro x _ hmem
    cases hmem
  · intro x hx d hd
    rw [hq0] at hx
    obtain ⟨p, hp, hpx⟩ := List.mem_map.mp hx
    have hpc : p.2.dependsOn.length = 0 :=
      of_decide_eq_true (List.mem_filter.mp hp).2
    rw [← hpx] at hd
    rw [List.length_eq_zero.mp hpc] at hd
    cases hd
  · rw [hq0, List.map_map]
    have heq : (g.nodes.filter (fun p => decide (p.2.dependsOn.length = 0))).map
        ((fun x => x.id) ∘ (fun p => p.2)) =
        (g.nodes.filter (fun p => decide (p.2.dependsOn.length = 0))).map
          Prod.fst := by
      apply List.map_congr_left
      intro p hp
      exact hid p (List.mem_filter.mp hp).1
    rw [heq]
    exact ((List.filter_sublist g.nodes).map Prod.fst).nodup hnd
  · intro k n hlk _ hdeps
    have hdnil : n.dependsOn = [] :=
      List.eq_nil_iff_forall_not_mem.mpr
        (fun d hd => absurd (hdeps d hd) (List.not_mem_nil d))
    have hmem : (k, n) ∈ g.nodes := mem_of_lookupA hlk
    refine ⟨n, ?_, hid (k, n) hmem⟩
    rw [hq0]
    apply List.mem_map.mpr
    refine ⟨(k, n), ?_, rfl⟩
    apply List.mem_filter.mpr
    refine ⟨hmem, ?_⟩
    apply decide_eq_true
    rw [hdnil]
    rfl
  · intro k n hlk _ _
    rw [buildInDegree_lookup hnd hid k, hlk, pendCount_nil]
    rfl
  · have hkl : (keysA g.nodes).length = g.nodes.length := List.length_map _ _
    omega

theorem LayersOK_mem_canon {g : Graph} :
    ∀ (layers : List (List Node)) (P : List String), LayersOK g P layers →
      ∀ L ∈ layers, ∀ x ∈ L, lookupA g.nodes x.id = some x := by
  intro layers
  induction layers with
  | nil => intro P _ L hL; cases hL
  | cons L0 rest ih =>
    intro P h L hL x hx
    rcases List.mem_cons.mp hL with hh | hh
    · subst hh
      exact (h.1 x hx).1
    · exact ih _ h.2.2.2 L hh x hx

theorem LayersOK_strict {g : Graph} :
    ∀ (layers : List (List Node)) (P : List String), LayersOK g P layers →
      ∀ (i : Nat) (Li : List Node), layers[i]? = some Li → ∀ x ∈ Li,
        x.id ∉ P ∧ ∀ d ∈ x.dependsOn,
          d ∈ P ∨ ∃ (j : Nat) (Lj : List Node), j < i ∧ layers[j]? = some Lj ∧
            ∃ y ∈ Lj, y.id = d := by
  intro layers
  induction layers with
  | nil =>
    intro P _ i Li hLi
    rw [List.getElem?_nil] at hLi
    cases hLi
  | cons L0 rest ih =>
    intro P h i Li hLi x hx
    obtain ⟨hA, hB, hC, hD⟩ := h
    cases i with
    | zero =>
      rw [List.getElem?_cons_zero] at hLi
      injection hLi with hLi
      subst hLi
      refine ⟨(hA x hx).2.1, ?_⟩
      intro d hd
      exact Or.inl ((hA x hx).2.2 d hd)
    | succ i2 =>
      rw [List.getElem?_cons_succ] at hLi
      have hh := ih _ hD i2 Li hLi x hx
      refine ⟨?_, ?_⟩
      · intro hxP
        exact hh.1 (List.mem_append.mpr (Or.inl hxP))
      · intro d hd
        rcases hh.2 d hd with hdP | ⟨j, Lj, hj, hLj, y, hy, hyid⟩
        · rcases List.mem_append.mp hdP with h1 | h2
          · exact Or.inl h1
          · obtain ⟨y, hy, hyd⟩ := List.mem_map.mp h2
            exact Or.inr ⟨0, L0, Nat.succ_pos i2, List.getElem?_cons_zero,
              y, hy, hyd⟩
        · refine Or.inr ⟨j + 1, Lj, Nat.succ_lt_succ hj, ?_, y, hy, hyid⟩
          rw [List.getElem?_cons_succ]
          exact hLj

theorem LayersOK_coverage {g : Graph} :
    ∀ (layers : List (List Node)) (P : List String), LayersOK g P layers →
      ∀ k ∈ keysA g.nodes,
        k ∈ P ∨ ∃ (i : Nat) (Li : List Node), layers[i]? = some Li ∧
          ∃ x ∈ Li, x.id = k := by
  intro layers
  induction layers with
  | nil =>
    intro P h k hk
    exact Or.inl (h k hk)
  | cons L0 rest ih =>
    intro P h k hk
    rcases ih _ h.2.2.2 k hk with hkP | ⟨i, Li, hLi, x, hx, hxk⟩
    · rcases List.mem_append.mp hkP with h1 | h2
      · exact Or.inl h1
      · obtain ⟨x, hx, hxk⟩ := List.mem_map.mp h2
        exact Or.inr ⟨0, L0, List.getElem?_cons_zero, x, hx, hxk⟩
    · refine Or.inr ⟨i + 1, Li, ?_, x, hx, hxk⟩
      rw [List.getElem?_cons_succ]
      exact hLi

theorem LayersOK_disjoint {g : Graph} :
    ∀ (layers : List (List Node)) (P : List String), LayersOK g P layers →
      ∀ (i j : Nat) (Li Lj : List Node), i < j → layers[i]? = some Li →
        layers[j]? = some Lj → ∀ x ∈ Li, ∀ y ∈ Lj, y.id ≠ x.id := by
  intro layers
  induction layers with
  | nil =>
    intro P _ i j Li Lj _ hLi _
    rw [List.getElem?_nil] at hLi
    cases hLi
  | cons L0 rest ih =>
    intro P h i j Li Lj hij hLi hLj x hx y hy
    obtain ⟨hA, hB, hC, hD⟩ := h
    cases i with
    | zero =>
      rw [List.getElem?_cons_zero] at hLi
      injection hLi with hLi
      subst hLi
      cases j with
      | zero => exact absurd hij (lt_irrefl 0)
      | succ j2 =>
        rw [List.getElem?_cons_succ] at hLj
        have hnot := (LayersOK_strict rest _ hD j2 Lj hLj y hy).1
        intro hyx
        apply hnot
        apply List.mem_append.mpr
        right
        rw [hyx]
        exact List.mem_map_of_mem _ hx
    | succ i2 =>
      cases j with
      | zero => exact absurd hij (by omega)
      | succ j2 =>
        rw [List.getElem?_cons_succ] at hLi hLj
        exact ih _ hD i2 j2 Li Lj (by omega) hLi hLj x hx y hy

theorem LayersOK_nodup {g : Graph} :
    ∀ (layers : List (List Node)) (P : List String), P.Nodup →
      LayersOK g P layers →
      (P ++ layers.flatMap (fun L => L.map (fun x => x.id))).Nodup := by
  intro layers
  induction layers with
  | nil => intro P hP _; simpa using hP
  | cons L0 rest ih =>
    intro P hP h
    obtain ⟨hA, hB, _, hD⟩ := h
    have hP2 : (P ++ L0.map (fun x => x.id)).Nodup := by
      rw [List.nodup_append]
      refine ⟨hP, hB, ?_⟩
      intro a ha hb
      obtain ⟨x, hx, hxa⟩ := List.mem_map.mp hb
      exact (hxa ▸ (hA x hx).2.1) ha
    have hh := ih _ hP2 hD
    rw [List.flatMap_cons, ← List.append_assoc]
    exact hh

theorem mem_of_getElem_opt {α : Type} :
    ∀ (l : List α) (i : Nat) (a : α), l[i]? = some a → a ∈ l := by
  intro l
  induction l with
  | nil => intro i a h; rw [List.getElem?_nil] at h; cases h
  | cons b rest ih =>
    intro i a h
    cases i with
    | zero =>
      rw [List.getElem?_cons_zero] at h
      injection h with h
      exact h ▸ List.mem_cons_self b rest
    | succ i2 =>
      rw [List.getElem?_cons_succ] at h
      exact List.mem_cons_of_mem b (ih i2 a h)

/-- **C3**: for every graph `ParseYAML` returns, the startup layering is
sound: the layers' node IDs are exactly the graph's keys (each exactly
once), every dependency of every node lies in a strictly earlier layer
than the node itself, and no node depends on a member of its own layer. -/
theorem claim_C3_layering_invariant {t : YAMLTopology} {g : Graph}
    (h : ParseYAML t = .ok g) :
    (((GetStartupOrder g).flatMap (fun L => L.map (fun x => x.id))).Perm
        (keysA g.nodes)) ∧
    (∀ (i : Nat) (Li : List Node), (GetStartupOrder g)[i]? = some Li →
      ∀ x ∈ Li, ∀ d ∈ x.dependsOn,
        ∃ (j : Nat) (Lj : List Node), j < i ∧
          (GetStartupOrder g)[j]? = some Lj ∧ ∃ y ∈ Lj, y.id = d) ∧
    (∀ (i : Nat) (Li : List Node), (GetStartupOrder g)[i]? = some Li →
      ∀ x ∈ Li, ∀ y ∈ Li, y.id ∈ x.dependsOn → False) := by
  have hwf := ParseYAML_ok_wf h
  have hac : detectCycle g = none := by
    obtain ⟨exp, grps, cnts, g0, g1, _, _, _, _, _, hd, hg⟩ := ParseYAML_ok_elim h
    rw [hg]
    exact hd
  have hlay : LayersOK g [] (GetStartupOrder g) :=
    GetStartupOrder_layersOK hwf hac
  obtain ⟨hnd, hid, hcl⟩ := hwf
  refine ⟨?_, ?_, ?_⟩
  · have hnodup : ((GetStartupOrder g).flatMap
        (fun L => L.map (fun x => x.id))).Nodup := by
      have hh := LayersOK_nodup (GetStartupOrder g) [] List.nodup_nil hlay
      simpa using hh
    have hsub1 : (GetStartupOrder g).flatMap (fun L => L.map (fun x => x.id)) ⊆
        keysA g.nodes := by
      intro a ha
      obtain ⟨L, hL, haL⟩ := List.mem_flatMap.mp ha
      obtain ⟨x, hx, hxa⟩ := List.mem_map.mp haL
      have hcan := LayersOK_mem_canon (GetStartupOrder g) [] hlay L hL x hx
      apply (lookupA_isSome_iff _ _).mp
      rw [← hxa, hcan]
      rfl
    have hsub2 : keysA g.nodes ⊆
        (GetStartupOrder g).flatMap (fun L => L.map (fun x => x.id)) := by
      intro k hk
      rcases LayersOK_coverage (GetStartupOrder g) [] hlay k hk with
        hkP | ⟨i, Li, hLi, x, hx, hxk⟩
      · cases hkP
      · apply List.mem_flatMap.mpr
        exact ⟨Li, mem_of_getElem_opt _ i Li hLi, List.mem_map.mpr ⟨x, hx, hxk⟩⟩
    exact List.Subperm.antisymm (List.subperm_of_subset hnodup hsub1)
      (List.subperm_of_subset hnd hsub2)
  · intro i Li hLi x hx d hd
    have hh := (LayersOK_strict (GetStartupOrder g) [] hlay i Li hLi x hx).2 d hd
    rcases hh with hdP | hok
    · cases hdP
    · exact hok
  · intro i Li hLi x hx y hy hdep
    have hh :=
      (LayersOK_strict (GetStartupOrder g) [] hlay i Li hLi x hx).2 y.id hdep
    rcases hh with hdP | ⟨j, Lj, hj, hLj, z, hz, hzid⟩
    · cases hdP
    · have hne := LayersOK_disjoint (GetStartupOrder g) [] hlay j i Lj Li hj
        hLj hLi z hz y hy
      exact hne hzid.symm

/-- Witness: the layering theorem instantiated on the concrete accepted
document `coloDoc` and its compiled graph. -/
theorem claim_C3_witness :
    (((GetStartupOrder c3Graph).flatMap (fun L => L.map (fun x => x.id))).Perm
        (keysA c3Graph.nodes)) ∧
    (∀ (i : Nat) (Li : List Node), (GetStartupOrder c3Graph)[i]? = some Li →
      ∀ x ∈ Li, ∀ d ∈ x.dependsOn,
        ∃ (j : Nat) (Lj : List Node), j < i ∧
          (GetStartupOrder c3Graph)[j]? = some Lj ∧ ∃ y ∈ Lj, y.id = d) ∧
    (∀ (i : Nat) (Li : List Node), (GetStartupOrder c3Graph)[i]? = some Li →
      ∀ x ∈ Li, ∀ y ∈ Li, y.id ∈ x.dependsOn → False) :=
  @claim_C3_layering_invariant coloDoc c3Graph (by decide)

/-! ## Map-iteration-order invariance of traversal and rendering -/

instance : IsTotal Node nodeLE := ⟨fun a b => strLe_total a.id b.id⟩

instance : IsTrans Node nodeLE := ⟨fun _ _ _ h1 h2 => strLe_trans h1 h2⟩

theorem sortNodes_perm (l : List Node) : (sortNodes l).Perm l :=
  List.perm_insertionSort nodeLE l

theorem sortNodes_sorted (l : List Node) : (sortNodes l).Sorted nodeLE :=
  List.sorted_insertionSort nodeLE l

theorem canonical_eq_of_ids {f : String → Option Node} :
    ∀ (l : List Node), (∀ x ∈ l, f x.id = some x) →
      l = (l.map (fun x => x.id)).filterMap f := by
  intro l
  induction l with
  | nil => intro _; rfl
  | cons a rest ih =>
    intro hcan
    simp only [List.map_cons, List.filterMap_cons,
      hcan a (List.mem_cons_self a rest)]
    rw [← ih (fun x hx => hcan x (List.mem_cons_of_mem a hx))]

theorem sortNodes_eq_of_perm_canonical {f : String → Option Node}
    {q1 q2 : List Node} (hq : q1.Perm q2)
    (hcan : ∀ x ∈ q1, f x.id = some x) :
    sortNodes q1 = sortNodes q2 := by
  have hperm12 : (sortNodes q1).Perm (sortNodes q2) :=
    (sortNodes_perm q1).trans (hq.trans (sortNodes_perm q2).symm)
  have hids : (sortNodes q1).map (fun x => x.id) =
      (sortNodes q2).map (fun x => x.id) := by
    have hs1 : ((sortNodes q1).map (fun x => x.id)).Sorted strLe :=
      List.Pairwise.map _ (fun a b hab => hab) (sortNodes_sorted q1)
    have hs2 : ((sortNodes q2).map (fun x => x.id)).Sorted strLe :=
      List.Pairwise.map _ (fun a b hab => hab) (sortNodes_sorted q2)
    exact List.eq_of_perm_of_sorted (hperm12.map (fun x => x.id)) hs1 hs2
  have hcan1 : ∀ x ∈ sortNodes q1, f x.id = some x :=
    fun x hx => hcan x ((sortNodes_perm q1).mem_iff.mp hx)
  have hcan2 : ∀ x ∈ sortNodes q2, f x.id = some x := fun x hx =>
    hcan x (hq.mem_iff.mpr ((sortNodes_perm q2).mem_iff.mp hx))
  calc sortNodes q1
      = ((sortNodes q1).map (fun x => x.id)).filterMap f :=
        canonical_eq_of_ids _ hcan1
    _ = ((sortNodes q2).map (fun x => x.id)).filterMap f := by rw [hids]
    _ = sortNodes q2 := (canonical_eq_of_ids _ hcan2).symm

theorem perm_flatMap_right {α β : Type} {l1 l2 : List α} (hp : l1.Perm l2)
    (f : α → List β) : (l1.flatMap f).Perm (l2.flatMap f) := by
  induction hp with
  | nil => simp
  | cons a hp2 ih =>
    simp only [List.flatMap_cons]
    exact (List.Perm.refl (f a)).append ih
  | swap a b l =>
    simp only [List.flatMap_cons]
    rw [← List.append_assoc, ← List.append_assoc]
    exact List.Perm.append_right _ List.perm_append_comm
  | trans h1 h2 ih1 ih2 => exact ih1.trans ih2

theorem perm_flatMap_congr {α β : Type} :
    ∀ (l : List α) {f h : α → List β},
      (∀ a ∈ l, (f a).Perm (h a)) → (l.flatMap f).Perm (l.flatMap h) := by
  intro l
  induction l with
  | nil => intro f h _; simp
  | cons a rest ih =>
    intro f h hfh
    simp only [List.flatMap_cons]
    exact (hfh a (List.mem_cons_self a rest)).append
      (ih (fun b hb => hfh b (List.mem_cons_of_mem a hb)))

theorem cntId_perm {l1 l2 : List Node} (hp : l1.Perm l2) (k : String) :
    cntId l1 k = cntId l2 k :=
  (hp.filter _).length_eq

theorem kahnLoop_perm_eq {g g2 : Graph}
    (hnd : (keysA g.nodes).Nodup) (hid : ∀ p ∈ g.nodes, p.2.id = p.1)
    (hperm : g.nodes.Perm g2.nodes) :
    ∀ (fuel : Nat) (inDeg1 inDeg2 : List (String × Int))
      (q1 q2 : List Node) (acc : List (List Node)),
      (∀ k, lookupA inDeg1 k = lookupA inDeg2 k) →
      q1.Perm q2 →
      (∀ x ∈ q1, lookupA g.nodes x.id = some x) →
      (q1.map (fun x => x.id)).Nodup →
      kahnLoop (buildReverseDeps g.nodes) fuel inDeg1 q1 acc =
      kahnLoop (buildReverseDeps g2.nodes) fuel inDeg2 q2 acc := by
  have hnd2 : (keysA g2.nodes).Nodup := ((keysA_perm hperm).nodup_iff).mp hnd
  have hid2 : ∀ p ∈ g2.nodes, p.2.id = p.1 :=
    fun p hp => hid p (hperm.mem_iff.mpr hp)
  have hlkg : ∀ k, lookupA g.nodes k = lookupA g2.nodes k :=
    lookupA_perm hperm hnd
  intro fuel
  induction fuel with
  | zero => intro inDeg1 inDeg2 q1 q2 acc _ _ _ _; rfl
  | succ f ih =>
    intro inDeg1 inDeg2 q1 q2 acc hlk hq hcan hqnd
    have hemp : q1.isEmpty = q2.isEmpty := by
      cases hc1 : q1 with
      | nil =>
        rw [hc1] at hq
        rw [hq.symm.eq_nil]
      | cons a r =>
        rw [hc1] at hq
        cases hc2 : q2 with
        | nil =>
          rw [hc2] at hq
          exact absurd hq.eq_nil (by simp)
        | cons b s => rfl
    simp only [kahnLoop]
    rw [← hemp]
    by_cases hq1e : q1.isEmpty
    · rw [if_pos hq1e, if_pos hq1e]
    · rw [if_neg hq1e, if_neg hq1e]
      have hlayer : sortNodes q1 = sortNodes q2 :=
        sortNodes_eq_of_perm_canonical hq hcan
      rw [← hlayer]
      have hcanL : ∀ x ∈ sortNodes q1, lookupA g.nodes x.id = some x :=
        fun x hx => hcan x ((sortNodes_perm q1).mem_iff.mp hx)
      have hndL : ((sortNodes q1).map (fun x => x.id)).Nodup :=
        (((sortNodes_perm q1).map (fun x => x.id)).nodup_iff).mpr hqnd
      have hevp : ((sortNodes q1).flatMap (fun m =>
          (lookupA (buildReverseDeps g.nodes) m.id).getD [])).Perm
          ((sortNodes q1).flatMap (fun m =>
          (lookupA (buildReverseDeps g2.nodes) m.id).getD [])) := by
        apply perm_flatMap_congr
        intro m _
        rw [buildReverseDeps_lookup, buildReverseDeps_lookup]
        exact perm_flatMap_right hperm _
      have hev1canon : ∀ x ∈ (sortNodes q1).flatMap (fun m =>
          (lookupA (buildReverseDeps g.nodes) m.id).getD []),
          lookupA g.nodes x.id = some x :=
        fun x hx => (events_canonical hnd hid _ hx).1
      have hU1 : ∀ e ∈ (sortNodes q1).flatMap (fun m =>
          (lookupA (buildReverseDeps g.nodes) m.id).getD []),
          ∀ e2 ∈ (sortNodes q1).flatMap (fun m =>
          (lookupA (buildReverseDeps g.nodes) m.id).getD []),
          e.id = e2.id → e = e2 := by
        intro e he e2 he2 hee
        have h1 := hev1canon e he
        have h2 := hev1canon e2 he2
        rw [hee] at h1
        exact Option.some.inj (h1.symm.trans h2)
      have hU2 : ∀ e ∈ (sortNodes q1).flatMap (fun m =>
          (lookupA (buildReverseDeps g2.nodes) m.id).getD []),
          ∀ e2 ∈ (sortNodes q1).flatMap (fun m =>
          (lookupA (buildReverseDeps g2.nodes) m.id).getD []),
          e.id = e2.id → e = e2 := by
        intro e he e2 he2 hee
        have h1 := (events_canonical hnd2 hid2 _ he).1
        have h2 := (events_canonical hnd2 hid2 _ he2).1
        rw [hee] at h1
        exact Option.some.inj (h1.symm.trans h2)
      rcases hpeA : processEvents inDeg1 []
          ((sortNodes q1).flatMap (fun m =>
            (lookupA (buildReverseDeps g.nodes) m.id).getD []))
          with ⟨inDegA, nextA⟩
      rcases hpeB : processEvents inDeg2 []
          ((sortNodes q1).flatMap (fun m =>
            (lookupA (buildReverseDeps g2.nodes) m.id).getD []))
          with ⟨inDegB, nextB⟩
      simp only [hpeA, hpeB]
      have hcnteq : ∀ k, cntId ((sortNodes q1).flatMap (fun m =>
          (lookupA (buildReverseDeps g.nodes) m.id).getD [])) k =
          cntId ((sortNodes q1).flatMap (fun m =>
          (lookupA (buildReverseDeps g2.nodes) m.id).getD [])) k :=
        fun k => cntId_perm hevp k
      have hlkAB : ∀ k, lookupA inDegA k = lookupA inDegB k := by
        intro k
        have hA := processEvents_lookup ((sortNodes q1).flatMap (fun m =>
          (lookupA (buildReverseDeps g.nodes) m.id).getD [])) inDeg1 [] k
        have hB := processEvents_lookup ((sortNodes q1).flatMap (fun m =>
          (lookupA (buildReverseDeps g2.nodes) m.id).getD [])) inDeg2 [] k
        rw [hpeA] at hA
        rw [hpeB] at hB
        rw [hA, hB, hcnteq k, hlk k]
      have hmemA : ∀ x, x ∈ nextA ↔
          (x ∈ (sortNodes q1).flatMap (fun m =>
            (lookupA (buildReverseDeps g.nodes) m.id).getD []) ∧
          1 ≤ ((lookupA inDeg1 x.id).getD 0) ∧
          ((lookupA inDeg1 x.id).getD 0) ≤
            (cntId ((sortNodes q1).flatMap (fun m =>
              (lookupA (buildReverseDeps g.nodes) m.id).getD [])) x.id : Int)) := by
        intro x
        have hh := processEvents_mem ((sortNodes q1).flatMap (fun m =>
          (lookupA (buildReverseDeps g.nodes) m.id).getD [])) inDeg1 [] hU1 x
        rw [hpeA] at hh
        simpa using hh
      have hmemB : ∀ x, x ∈ nextB ↔
          (x ∈ (sortNodes q1).flatMap (fun m =>
            (lookupA (buildReverseDeps g2.nodes) m.id).getD []) ∧
          1 ≤ ((lookupA inDeg2 x.id).getD 0) ∧
          ((lookupA inDeg2 x.id).getD 0) ≤
            (cntId ((sortNodes q1).flatMap (fun m =>
              (lookupA (buildReverseDeps g2.nodes) m.id).getD [])) x.id : Int)) := by
        intro x
        have hh := processEvents_mem ((sortNodes q1).flatMap (fun m =>
          (lookupA (buildReverseDeps g2.nodes) m.id).getD [])) inDeg2 [] hU2 x
        rw [hpeB] at hh
        simpa using hh
      have hmemAB : ∀ x, x ∈ nextA ↔ x ∈ nextB := by
        intro x
        rw [hmemA x, hmemB x, hlk x.id, hcnteq x.id, hevp.mem_iff]
      have hndA : (nextA.map (fun x => x.id)).Nodup := by
        have hh := processEvents_nodup ((sortNodes q1).flatMap (fun m =>
          (lookupA (buildReverseDeps g.nodes) m.id).getD [])) inDeg1 []
          (by simp) (by intro x hx; exact absurd hx (List.not_mem_nil x))
        rw [hpeA] at hh
        exact hh
      have hndB : (nextB.map (fun x => x.id)).Nodup := by
        have hh := processEvents_nodup ((sortNodes q1).flatMap (fun m =>
          (lookupA (buildReverseDeps g2.nodes) m.id).getD [])) inDeg2 []
          (by simp) (by intro x hx; exact absurd hx (List.not_mem_nil x))
        rw [hpeB] at hh
        exact hh
      have hqAB : nextA.Perm nextB := by
        apply List.Subperm.antisymm
        · exact List.subperm_of_subset (hndA.of_map _)
            (fun x hx => (hmemAB x).mp hx)
        · exact List.subperm_of_subset (hndB.of_map _)
            (fun x hx => (hmemAB x).mpr hx)
      have hcanA : ∀ x ∈ nextA, lookupA g.nodes x.id = some x :=
        fun x hx => hev1canon x ((hmemA x).mp hx).1
      exact ih inDegA inDegB nextA nextB (acc ++ [sortNodes q1])
        hlkAB hqAB hcanA hndA

theorem GetStartupOrder_perm_eq {g g2 : Graph}
    (hnd : (keysA g.nodes).Nodup) (hid : ∀ p ∈ g.nodes, p.2.id = p.1)
    (hperm : g.nodes.Perm g2.nodes) :
    GetStartupOrder g = GetStartupOrder g2 := by
  have hnd2 : (keysA g2.nodes).Nodup := ((keysA_perm hperm).nodup_iff).mp hnd
  have hid2 : ∀ p ∈ g2.nodes, p.2.id = p.1 :=
    fun p hp => hid p (hperm.mem_iff.mpr hp)
  show kahnLoop (buildReverseDeps g.nodes) (g.nodes.length + 1)
      (buildInDegree g.nodes) (initialQueue g (buildInDegree g.nodes)) [] =
    kahnLoop (buildReverseDeps g2.nodes) (g2.nodes.length + 1)
      (buildInDegree g2.nodes) (initialQueue g2 (buildInDegree g2.nodes)) []
  rw [← hperm.length_eq]
  apply kahnLoop_perm_eq hnd hid hperm (g.nodes.length + 1)
  · intro k
    rw [buildInDegree_lookup hnd hid k, buildInDegree_lookup hnd2 hid2 k,
      lookupA_perm hperm hnd k]
  · rw [initialQueue_char hnd hid, initialQueue_char hnd2 hid2]
    exact (hperm.filter _).map _
  · intro x hx
    rw [initialQueue_char hnd hid] at hx
    obtain ⟨p, hp, hpx⟩ := List.mem_map.mp hx
    have hpm : p ∈ g.nodes := (List.mem_filter.mp hp).1
    rw [← hpx, hid p hpm]
    exact lookupA_of_mem hnd hpm
  · rw [initialQueue_char hnd hid, List.map_map]
    have heq : (g.nodes.filter (fun p => decide (p.2.dependsOn.length = 0))).map
        ((fun x => x.id) ∘ (fun p => p.2)) =
        (g.nodes.filter (fun p => decide (p.2.dependsOn.length = 0))).map
          Prod.fst := by
      apply List.map_congr_left
      intro p hp
      exact hid p (List.mem_filter.mp hp).1
    rw [heq]
    exact ((List.filter_sublist g.nodes).map Prod.fst).nodup hnd

theorem DOT_congr {g g2 : Graph} (hkeys : sortedKeys g = sortedKeys g2)
    (hget : ∀ k, graphGet g k = graphGet g2 k) (opts : DOTOptions) :
    DOT g opts = DOT g2 opts := by
  have hg : graphGet g = graphGet g2 := funext hget
  unfold DOT
  rw [hkeys, hg]

/-- **C1** (amended): the observable outputs of a compiled graph — its
sorted key set, its startup layers, and its rendered DOT under either
option — are functions of the graph as a key-value map only: re-running
the traversal and rendering stages over any re-enumeration (permutation)
of the node map's entries, as Go's arbitrary map iteration order produces,
yields identical results. (Unrestricted pipeline determinism fails: see
the node-ID-collision counterexample.) -/
theorem claim_C1_map_order_determinism {t : YAMLTopology} {g g2 : Graph}
    (h : ParseYAML t = .ok g) (hperm : g.nodes.Perm g2.nodes) :
    sortedKeys g = sortedKeys g2 ∧
    (∀ k, graphGet g k = graphGet g2 k) ∧
    GetStartupOrder g = GetStartupOrder g2 ∧
    ∀ opts, DOT g opts = DOT g2 opts := by
  obtain ⟨hnd, hid, _⟩ := ParseYAML_ok_wf h
  have hkeys : sortedKeys g = sortedKeys g2 :=
    sortStrings_eq_of_perm (keysA_perm hperm)
  have hget : ∀ k, graphGet g k = graphGet g2 k :=
    fun k => lookupA_perm hperm hnd k
  exact ⟨hkeys, hget, GetStartupOrder_perm_eq hnd hid hperm,
    fun opts => DOT_congr hkeys hget opts⟩

/-- Witness: the map-order determinism theorem instantiated on the
concrete accepted document `faninDoc`, its compiled graph, and the same
node map enumerated in reverse. -/
theorem claim_C1_witness :
    sortedKeys c1Graph = sortedKeys c1GraphPerm ∧
    (∀ k, graphGet c1Graph k = graphGet c1GraphPerm k) ∧
    GetStartupOrder c1Graph = GetStartupOrder c1GraphPerm ∧
    ∀ opts, DOT c1Graph opts = DOT c1GraphPerm opts :=
  @claim_C1_map_order_determinism faninDoc c1Graph c1GraphPerm (by decide)
    (List.reverse_perm c1Graph.nodes).symm

/-! ## The structure of the co-location groups and shard-count tables -/

theorem discover_elim {apps : List (String × AppDefinition)}
    {grps : List (String × List String)}
    (h : discoverCoLocationGroups apps = .ok grps) :
    ∃ parent, unionAll apps (sortStrings (keysA apps)).length
        (sortStrings (keysA apps)) (initParent (sortStrings (keysA apps))) =
        .ok parent ∧
      grps = (buildGroups parent (sortStrings (keysA apps)).length
        (sortStrings (keysA apps)) []).map (fun p => (p.1, sortStrings p.2)) := by
  unfold discoverCoLocationGroups at h
  simp only [Bind.bind, Except.bind] at h
  cases hu : unionAll apps (sortStrings (keysA apps)).length
      (sortStrings (keysA apps)) (initParent (sortStrings (keysA apps))) with
  | error e => simp only [hu] at h; cases h
  | ok parent =>
    simp only [hu] at h
    injection h with h
    exact ⟨parent, rfl, h.symm⟩

theorem infer_elim {apps : List (String × AppDefinition)}
    {shards : List (String × Int)} {groups : List (String × List String)}
    {cnts : List (String × Int)}
    (h : inferAndValidateShardCounts apps shards groups = .ok cnts) :
    assignCounts shards groups [] = .ok cnts := by
  unfold inferAndValidateShardCounts at h
  simp only [Bind.bind, Except.bind] at h
  cases hc : checkShardsExist apps shards with
  | error e => simp only [hc] at h; cases h
  | ok u => simp only [hc] at h; exact h

theorem keysA_insertA_nodup {α : Type} {m : List (String × α)} {k : String}
    (h : (keysA m).Nodup) (v : α) : (keysA (insertA m k v)).Nodup := by
  by_cases hk : k ∈ keysA m
  · rw [keysA_insertA_mem hk]
    exact h
  · rw [insertA_of_not_mem hk, keysA, List.map_append]
    rw [List.nodup_append]
    refine ⟨h, by simp, ?_⟩
    intro a ha hb
    simp only [List.map_cons, List.map_nil, List.mem_singleton] at hb
    exact hk (hb ▸ ha)

theorem buildGroups_keys_nodup (parent : List (String × String)) (fuel : Nat) :
    ∀ (names : List String) (acc : List (String × List String)),
      (keysA acc).Nodup → (keysA (buildGroups parent fuel names acc)).Nodup := by
  intro names
  induction names with
  | nil => intro acc h; exact h
  | cons name rest ih =>
    intro acc h
    simp only [buildGroups]
    exact ih _ (keysA_insertA_nodup h _)

theorem buildGroups_sound (parent : List (String × String)) (fuel : Nat) :
    ∀ (names : List String) (acc : List (String × List String)),
      (∀ p ∈ acc, ∀ a ∈ p.2, ufFind parent fuel a = p.1) →
      ∀ p ∈ buildGroups parent fuel names acc, ∀ a ∈ p.2,
        ufFind parent fuel a = p.1 := by
  intro names
  induction names with
  | nil => intro acc h; exact h
  | cons name rest ih =>
    intro acc h
    simp only [buildGroups]
    apply ih
    intro p hp a ha
    rcases mem_insertA_sub hp with hp2 | hp2
    · exact h p hp2 a ha
    · rw [hp2] at ha ⊢
      simp only at ha ⊢
      rcases List.mem_append.mp ha with ha2 | ha2
      · cases hlk : lookupA acc (ufFind parent fuel name) with
        | none => simp only [hlk, Option.getD_none] at ha2; cases ha2
        | some ms =>
          simp only [hlk, Option.getD_some] at ha2
          exact h (ufFind parent fuel name, ms) (mem_of_lookupA hlk) a ha2
      · rw [List.mem_singleton] at ha2
        rw [ha2]

theorem buildGroups_mono (parent : List (String × String)) (fuel : Nat) :
    ∀ (names : List String) (acc : List (String × List String)) (r : String)
      (ms : List String) (a : String),
      lookupA acc r = some ms → a ∈ ms →
      ∃ ms2, lookupA (buildGroups parent fuel names acc) r = some ms2 ∧
        a ∈ ms2 := by
  intro names
  induction names with
  | nil => intro acc r ms a h ha; exact ⟨ms, h, ha⟩
  | cons name rest ih =>
    intro acc r ms a h ha
    simp only [buildGroups]
    by_cases hr : ufFind parent fuel name = r
    · subst hr
      refine ih _ _ (ms ++ [name]) a ?_ (List.mem_append.mpr (Or.inl ha))
      rw [h]
      simp only [Option.getD_some]
      exact lookupA_insertA_self _ _ _
    · refine ih _ r ms a ?_ ha
      rw [lookupA_insertA_ne _ _ _ hr]
      exact h

theorem buildGroups_complete (parent : List (String × String)) (fuel : Nat) :
    ∀ (names : List String) (acc : List (String × List String)) (a : String),
      a ∈ names →
      ∃ ms2, lookupA (buildGroups parent fuel names acc)
        (ufFind parent fuel a) = some ms2 ∧ a ∈ ms2 := by
  intro names
  induction names with
  | nil => intro acc a ha; cases ha
  | cons name rest ih =>
    intro acc a ha
    simp only [buildGroups]
    rcases List.mem_cons.mp ha with ha2 | ha2
    · subst ha2
      refine buildGroups_mono parent fuel rest _ _
        ((((lookupA acc (ufFind parent fuel a)).getD []) ++ [a])) a
        (lookupA_insertA_self _ _ _)
        (List.mem_append.mpr (Or.inr (List.mem_singleton.mpr rfl)))
    · exact ih _ a ha2

theorem insert_members_sound {find2 : String → String} (r : String) :
    ∀ (mems : List String) (m : List (String × String)),
      (∀ a ∈ mems, find2 a = r) →
      (∀ k v, lookupA m k = some v → v = find2 k) →
      ∀ k v, lookupA (mems.foldl (fun m mem => insertA m mem r) m) k = some v →
        v = find2 k := by
  intro mems
  induction mems with
  | nil => intro m _ hm k v h; exact hm k v h
  | cons b rest ih =>
    intro m hmem hm k v h
    refine ih _ (fun a ha => hmem a (List.mem_cons_of_mem b ha)) ?_ k v h
    intro k2 v2 h2
    by_cases hk2 : b = k2
    · subst hk2
      rw [lookupA_insertA_self] at h2
      injection h2 with h2
      rw [← h2]
      exact (hmem b (List.mem_cons_self b rest)).symm
    · rw [lookupA_insertA_ne _ _ _ hk2] at h2
      exact hm k2 v2 h2

theorem insert_members_defined (r : String) :
    ∀ (mems : List String) (m : List (String × String)) (a : String),
      (a ∈ mems ∨ (lookupA m a).isSome = true) →
      (lookupA (mems.foldl (fun m mem => insertA m mem r) m) a).isSome
        = true := by
  intro mems
  induction mems with
  | nil =>
    intro m a h
    rcases h with h | h
    · cases h
    · exact h
  | cons b rest ih =>
    intro m a h
    refine ih _ a ?_
    rcases h with h | h
    · rcases List.mem_cons.mp h with h2 | h2
      · subst h2
        right
        rw [lookupA_insertA_self]
        rfl
      · exact Or.inl h2
    · right
      by_cases hab : b = a
      · subst hab
        rw [lookupA_insertA_self]
        rfl
      · rw [lookupA_insertA_ne _ _ _ hab]
        exact h

theorem appRootsOf_sound {find2 : String → String} :
    ∀ (groups : List (String × List String)) (m : List (String × String)),
      (∀ p ∈ groups, ∀ a ∈ p.2, find2 a = p.1) →
      (∀ k v, lookupA m k = some v → v = find2 k) →
      ∀ k v, lookupA (groups.foldl (fun m p =>
        p.2.foldl (fun m mem => insertA m mem p.1) m) m) k = some v →
        v = find2 k := by
  intro groups
  induction groups with
  | nil => intro m _ hm k v h; exact hm k v h
  | cons p rest ih =>
    intro m hg hm k v h
    refine ih _ (fun q hq => hg q (List.mem_cons_of_mem p hq)) ?_ k v h
    exact insert_members_sound p.1 p.2 m
      (hg p (List.mem_cons_self p rest)) hm

theorem appRootsOf_defined :
    ∀ (groups : List (String × List String)) (m : List (String × String))
      (a : String),
      ((∃ p ∈ groups, a ∈ p.2) ∨ (lookupA m a).isSome = true) →
      (lookupA (groups.foldl (fun m p =>
        p.2.foldl (fun m mem => insertA m mem p.1) m) m) a).isSome = true := by
  intro groups
  induction groups with
  | nil =>
    intro m a h
    rcases h with ⟨p, hp, _⟩ | h
    · cases hp
    · exact h
  | cons p rest ih =>
    intro m a h
    refine ih _ a ?_
    rcases h with ⟨q, hq, haq⟩ | h
    · rcases List.mem_cons.mp hq with h2 | h2
      · subst h2
        right
        exact insert_members_defined q.1 q.2 m a (Or.inl haq)
      · exact Or.inl ⟨q, h2, haq⟩
    · right
      exact insert_members_defined p.1 p.2 m a (Or.inr h)

theorem eq_of_keysA_nodup {α : Type} {l : List (String × α)}
    (h : (keysA l).Nodup) {p q : String × α} (hp : p ∈ l) (hq : q ∈ l)
    (hpq : p.1 = q.1) : p = q := by
  have hp2 : (p.1, p.2) ∈ l := by simpa using hp
  have hq2 : (q.1, q.2) ∈ l := by simpa using hq
  have h1 := lookupA_of_mem h hp2
  have h2 := lookupA_of_mem h hq2
  rw [hpq] at h1
  have hv : p.2 = q.2 := Option.some.inj (h1.symm.trans h2)
  obtain ⟨pk, pv⟩ := p
  obtain ⟨qk, qv⟩ := q
  simp only at hpq hv
  rw [hpq, hv]

/-- The package of facts about the groups table: a witnessing union-find
root function under which every member maps to its group's key, distinct
keys, root-map agreement, and completeness for every app name. -/
theorem grps_sound {apps : List (String × AppDefinition)}
    {grps : List (String × List String)}
    (h : discoverCoLocationGroups apps = .ok grps) :
    ∃ find2 : String → String,
      (∀ p ∈ grps, ∀ a ∈ p.2, find2 a = p.1) ∧
      (keysA grps).Nodup ∧
      (∀ a ∈ keysA apps, groupRootOf grps a = find2 a ∧
        ∃ ms, lookupA grps (find2 a) = some ms ∧ a ∈ ms) := by
  obtain ⟨parent, _, hg⟩ := discover_elim h
  refine ⟨ufFind parent (sortStrings (keysA apps)).length, ?_, ?_, ?_⟩
  · intro p hp a ha
    rw [hg] at hp
    obtain ⟨q, hq, hpq⟩ := List.mem_map.mp hp
    have hsnd : a ∈ q.2 := by
      rw [← hpq] at ha
      simp only at ha
      exact (sortStrings_perm q.2).mem_iff.mp ha
    have hf := buildGroups_sound parent _ _ []
      (by intro p hp2; cases hp2) q hq a hsnd
    rw [← hpq]
    exact hf
  · rw [hg]
    have hk : keysA ((buildGroups parent (sortStrings (keysA apps)).length
        (sortStrings (keysA apps)) []).map (fun p => (p.1, sortStrings p.2))) =
        keysA (buildGroups parent (sortStrings (keysA apps)).length
          (sortStrings (keysA apps)) []) := by
      simp [keysA, List.map_map, Function.comp]
    rw [hk]
    exact buildGroups_keys_nodup parent _ _ [] (by simp [keysA])
  · intro a ha
    have hmem : a ∈ sortStrings (keysA apps) :=
      (sortStrings_perm _).mem_iff.mpr ha
    obtain ⟨ms2, hlk, hams⟩ :=
      buildGroups_complete parent (sortStrings (keysA apps)).length
        (sortStrings (keysA apps)) [] a hmem
    have hlkg : lookupA grps (ufFind parent (sortStrings (keysA apps)).length a) =
        some (sortStrings ms2) := by
      rw [hg, lookupA_map_value sortStrings, hlk]
      rfl
    constructor
    · unfold groupRootOf
      have hsound : ∀ k v, lookupA (appRootsOf grps) k = some v →
          v = ufFind parent (sortStrings (keysA apps)).length k := by
        intro k v hv
        refine appRootsOf_sound grps [] ?_ (by intro k2 v2 hv2; cases hv2) k v hv
        intro p hp a2 ha2
        rw [hg] at hp
        obtain ⟨q, hq, hpq⟩ := List.mem_map.mp hp
        have hsnd : a2 ∈ q.2 := by
          rw [← hpq] at ha2
          simp only at ha2
          exact (sortStrings_perm q.2).mem_iff.mp ha2
        have hf := buildGroups_sound parent _ _ []
          (by intro p hp2; cases hp2) q hq a2 hsnd
        rw [← hpq]
        exact hf
      have hdef : (lookupA (appRootsOf grps) a).isSome = true := by
        refine appRootsOf_defined grps [] a (Or.inl ?_)
        exact ⟨(ufFind parent (sortStrings (keysA apps)).length a,
          sortStrings ms2), mem_of_lookupA hlkg,
          (sortStrings_perm ms2).mem_iff.mpr hams⟩
      obtain ⟨v, hv⟩ := Option.isSome_iff_exists.mp hdef
      rw [hv]
      exact hsound a v hv
    · exact ⟨sortStrings ms2, hlkg, (sortStrings_perm ms2).mem_iff.mpr hams⟩

theorem foldl_insertA_const {α : Type} (v : α) :
    ∀ (l : List String) (m : List (String × α)) (a : String),
      lookupA (l.foldl (fun m mem => insertA m mem v) m) a =
        if a ∈ l then some v else lookupA m a := by
  intro l
  induction l with
  | nil => intro m a; simp
  | cons b rest ih =>
    intro m a
    simp only [List.foldl_cons]
    rw [ih]
    by_cases hal : a ∈ rest
    · rw [if_pos hal, if_pos (List.mem_cons_of_mem b hal)]
    · rw [if_neg hal]
      by_cases hab : a = b
      · subst hab
        rw [if_pos (List.mem_cons_self a rest), lookupA_insertA_self]
      · rw [if_neg (by
          intro hh
          rcases List.mem_cons.mp hh with h1 | h2
          · exact hab h1
          · exact hal h2)]
        exact lookupA_insertA_ne _ _ _ (fun hh => hab hh.symm)

theorem assignCounts_untouched {shards : List (String × Int)} :
    ∀ (groups : List (String × List String)) (m m2 : List (String × Int))
      (a : String),
      assignCounts shards groups m = .ok m2 →
      (∀ p ∈ groups, a ∉ p.2) →
      lookupA m2 a = lookupA m a := by
  intro groups
  induction groups with
  | nil => intro m m2 a h _; cases h; rfl
  | cons p rest ih =>
    intro m m2 a h hnot
    obtain ⟨r, mems⟩ := p
    simp only [assignCounts, Bind.bind, Except.bind] at h
    cases hgc : groupCount shards r mems (-1) with
    | error e => simp only [hgc] at h; cases h
    | ok c =>
      simp only [hgc] at h
      rw [ih _ _ a h (fun q hq => hnot q (List.mem_cons_of_mem _ hq))]
      rw [foldl_insertA_const]
      rw [if_neg (hnot (r, mems) (List.mem_cons_self _ _))]

theorem assignCounts_group_const {shards : List (String × Int)} :
    ∀ (groups : List (String × List String)) (m m2 : List (String × Int)),
      assignCounts shards groups m = .ok m2 →
      (keysA groups).Nodup →
      (∀ p ∈ groups, ∀ q ∈ groups, ∀ b, b ∈ p.2 → b ∈ q.2 → p.1 = q.1) →
      ∀ r ms, (r, ms) ∈ groups →
      ∃ c2, ∀ a ∈ ms, lookupA m2 a = some c2 := by
  intro groups
  induction groups with
  | nil => intro m m2 _ _ _ r ms hmem; cases hmem
  | cons p rest ih =>
    intro m m2 h hknd hone r ms hmem
    obtain ⟨r0, ms0⟩ := p
    simp only [assignCounts, Bind.bind, Except.bind] at h
    cases hgc : groupCount shards r0 ms0 (-1) with
    | error e => simp only [hgc] at h; cases h
    | ok c =>
      simp only [hgc] at h
      simp only [keysA, List.map_cons, List.nodup_cons] at hknd
      rcases List.mem_cons.mp hmem with heq | hrest
      · injection heq with heq1 heq2
        subst heq1
        subst heq2
        refine ⟨if c = -1 then 1 else c, ?_⟩
        intro a hams
        have hnotrest : ∀ q ∈ rest, a ∉ q.2 := by
          intro q hq haq
          have hq1 : q.1 = r :=
            hone q (List.mem_cons_of_mem _ hq) (r, ms)
              (List.mem_cons_self _ _) a haq hams
          apply hknd.1
          rw [← hq1]
          exact List.mem_map_of_mem Prod.fst hq
        rw [assignCounts_untouched rest _ m2 a h hnotrest]
        rw [foldl_insertA_const]
        rw [if_pos hams]
      · exact ih _ m2 h hknd.2
          (fun q hq q2 hq2 => hone q (List.mem_cons_of_mem _ hq) q2
            (List.mem_cons_of_mem _ hq2)) r ms hrest

theorem counts_group_eq {apps : List (String × AppDefinition)}
    {shards : List (String × Int)} {grps : List (String × List String)}
    {cnts : List (String × Int)}
    (hgr : discoverCoLocationGroups apps = .ok grps)
    (hcn : assignCounts shards grps [] = .ok cnts) :
    ∀ a1 ∈ keysA apps, ∀ a2 ∈ keysA apps,
      groupRootOf grps a1 = groupRootOf grps a2 →
      lookupA cnts a1 = lookupA cnts a2 := by
  obtain ⟨find2, hsound, hknd, hmain⟩ := grps_sound hgr
  intro a1 h1 a2 h2 hroots
  obtain ⟨hr1, ms1, hlk1, hin1⟩ := hmain a1 h1
  obtain ⟨hr2, ms2, hlk2, hin2⟩ := hmain a2 h2
  have hff : find2 a1 = find2 a2 := by
    rw [← hr1, ← hr2]
    exact hroots
  rw [hff] at hlk1
  have hms : ms1 = ms2 := Option.some.inj (hlk1.symm.trans hlk2)
  subst hms
  have hone : ∀ p ∈ grps, ∀ q ∈ grps, ∀ b, b ∈ p.2 → b ∈ q.2 → p.1 = q.1 := by
    intro p hp q hq b hbp hbq
    rw [← hsound p hp b hbp, ← hsound q hq b hbq]
  obtain ⟨c2, hc2⟩ := assignCounts_group_const grps [] cnts hcn hknd hone
    (find2 a2) ms1 (mem_of_lookupA hlk2)
  rw [hc2 a1 hin1, hc2 a2 hin2]

/-! ## Skeleton preservation: linking only appends dependency edges -/

theorem linkShards_skel {apps : List (String × AppDefinition)}
    {counts : List (String × Int)} {nm : String} {cnt : Int}
    {d : AppDefinition} :
    ∀ {is : List Nat} {g g2 : Graph},
      linkShards apps counts nm cnt d is g = .ok g2 →
      ∀ p ∈ g2.nodes, ∃ q ∈ g.nodes, p.1 = q.1 ∧ p.2.id = q.2.id ∧
        p.2.baseApp = q.2.baseApp ∧ p.2.shard = q.2.shard ∧
        p.2.hostGroupID = q.2.hostGroupID := by
  intro is
  induction is with
  | nil =>
    intro g g2 h p hp
    cases h
    exact ⟨p, hp, rfl, rfl, rfl, rfl, rfl⟩
  | cons i rest ih =>
    intro g g2 h p hp
    rw [linkShards] at h
    cases he : shardEdges apps counts nm cnt i d with
    | error e =>
      rw [he] at h
      simp only [Bind.bind, Except.bind] at h
      cases h
    | ok es =>
      rw [he] at h
      simp only [Bind.bind, Except.bind] at h
      obtain ⟨q1, hq1, hsk⟩ := ih h p hp
      obtain ⟨q0, hq0, hcase⟩ := appendDeps_mem hq1
      refine ⟨q0, hq0, ?_⟩
      rcases hcase with hc | hc
      · rw [hc] at hsk
        exact hsk
      · rw [hc] at hsk
        exact hsk

theorem linkApps_skel {apps : List (String × AppDefinition)}
    {counts : List (String × Int)} :
    ∀ {l : List (String × AppDefinition)} {g g2 : Graph},
      linkApps apps counts l g = .ok g2 →
      ∀ p ∈ g2.nodes, ∃ q ∈ g.nodes, p.1 = q.1 ∧ p.2.id = q.2.id ∧
        p.2.baseApp = q.2.baseApp ∧ p.2.shard = q.2.shard ∧
        p.2.hostGroupID = q.2.hostGroupID := by
  intro l
  induction l with
  | nil =>
    intro g g2 h p hp
    cases h
    exact ⟨p, hp, rfl, rfl, rfl, rfl, rfl⟩
  | cons hd rest ih =>
    intro g g2 h p hp
    rw [linkApps] at h
    cases hs : linkShards apps counts hd.1 ((lookupA counts hd.1).getD 0) hd.2
        (List.range ((lookupA counts hd.1).getD 0).toNat) g with
    | error e =>
      rw [hs] at h
      simp only [Bind.bind, Except.bind] at h
      cases h
    | ok g1 =>
      rw [hs] at h
      simp only [Bind.bind, Except.bind] at h
      obtain ⟨q1, hq1, hsk1⟩ := ih h p hp
      obtain ⟨q0, hq0, hsk0⟩ := linkShards_skel hs q1 hq1
      exact ⟨q0, hq0, hsk1.1.trans hsk0.1, hsk1.2.1.trans hsk0.2.1,
        hsk1.2.2.1.trans hsk0.2.2.1, hsk1.2.2.2.1.trans hsk0.2.2.2.1,
        hsk1.2.2.2.2.trans hsk0.2.2.2.2⟩

theorem allNodeEntries_char {apps : List (String × AppDefinition)}
    {groups : List (String × List String)} {counts : List (String × Int)}
    {p : String × Node} (h : p ∈ allNodeEntries apps groups counts) :
    ∃ q ∈ apps, ∃ i ∈ List.range ((lookupA counts q.1).getD 0).toNat,
      p.2.baseApp = q.1 ∧ p.2.shard = (i : Int) ∧
      p.2.hostGroupID = (if 1 < groupSizeOf groups q.1
        then hostGroupName groups counts q.1 i else "") := by
  simp only [allNodeEntries, List.mem_flatMap] at h
  obtain ⟨q, hq, hmem⟩ := h
  simp only [appNodeEntries, List.mem_map] at hmem
  obtain ⟨i, hi, rfl⟩ := hmem
  exact ⟨q, hq, i, hi, rfl, rfl, rfl⟩

theorem ParseYAML_node_char {t : YAMLTopology} {g : Graph}
    {exp : List (String × AppDefinition)} {grps : List (String × List String)}
    {cnts : List (String × Int)}
    (h : ParseYAML t = .ok g)
    (hexp : expandBlueprints t = .ok exp)
    (hgr : discoverCoLocationGroups exp = .ok grps)
    (hcn : inferAndValidateShardCounts exp t.shards grps = .ok cnts) :
    ∀ p ∈ g.nodes, ∃ a ∈ keysA exp,
      ∃ i ∈ List.range ((lookupA cnts a).getD 0).toNat,
      p.2.baseApp = a ∧ p.2.shard = (i : Int) ∧
      p.2.hostGroupID = (if 1 < groupSizeOf grps a
        then hostGroupName grps cnts a i else "") := by
  obtain ⟨exp2, grps2, cnts2, g0, g1, hexp2, hgr2, hcn2, hb, hl, _, hgeq⟩ :=
    ParseYAML_ok_elim h
  have he : exp2 = exp := by
    injection hexp2.symm.trans hexp
  subst he
  have he2 : grps2 = grps := by
    injection hgr2.symm.trans hgr
  subst he2
  have he3 : cnts2 = cnts := by
    injection hcn2.symm.trans hcn
  subst he3
  have hg0 : g0 = ⟨insertAll [] (allNodeEntries exp2 grps2 cnts2)⟩ := by
    unfold buildConcreteNodes at hb
    cases hb
    rfl
  intro p hp
  rw [hgeq] at hp
  obtain ⟨q1, hq1, hpq⟩ := sortGraphDeps_mem hp
  obtain ⟨q0, hq0, hsk⟩ := linkApps_skel hl q1 hq1
  rw [hg0] at hq0
  rcases mem_insertAll_sub hq0 with hq0m | hq0m
  · cases hq0m
  · obtain ⟨q, hq, i, hi, hba, hsh, hhg⟩ := allNodeEntries_char hq0m
    refine ⟨q.1, List.mem_map_of_mem Prod.fst hq, i, hi, ?_, ?_, ?_⟩
    · rw [hpq]
      exact (hsk.2.2.1).trans hba
    · rw [hpq]
      exact (hsk.2.2.2.1).trans hsh
    · rw [hpq]
      exact (hsk.2.2.2.2).trans hhg

theorem getNodeID_hostgroup_ne (r : String) (i : Nat) (c : Int) :
    getNodeID ("hostgroup-" ++ r) i c ≠ "" := by
  unfold getNodeID
  have h10 : ("hostgroup-").length = 10 := rfl
  have h0 : ("" : String).length = 0 := rfl
  by_cases hc : c = 1
  · rw [if_pos hc]
    intro hh
    have hlen := congrArg String.length hh
    rw [String.length_append] at hlen
    omega
  · rw [if_neg hc]
    intro hh
    have hlen := congrArg String.length hh
    rw [String.length_append, String.length_append, String.length_append]
      at hlen
    omega

/-- **C10** (amended): whenever the composed host-group names are
collision-free over the app/shard domain (`hinj`), two nodes of a
compiled graph carry the same non-empty host-group ID exactly when their
base apps share a co-location root, the group has more than one member,
and the nodes sit at the same shard index; consequently the seed set
that `GetSubgraphFor` starts from for a co-located node consists exactly
of the group's nodes at that same shard index. (Without `hinj` the
property fails: see the host-group collision counterexample.) -/
theorem claim_C10_hostgroup_iff {t : YAMLTopology} {g : Graph}
    {exp : List (String × AppDefinition)} {grps : List (String × List String)}
    {cnts : List (String × Int)}
    (h : ParseYAML t = .ok g)
    (hexp : expandBlueprints t = .ok exp)
    (hgr : discoverCoLocationGroups exp = .ok grps)
    (hcn : inferAndValidateShardCounts exp t.shards grps = .ok cnts)
    (hinj : ∀ a1 ∈ keysA exp, ∀ a2 ∈ keysA exp,
      ∀ i1 ∈ List.range ((lookupA cnts a1).getD 0).toNat,
      ∀ i2 ∈ List.range ((lookupA cnts a2).getD 0).toNat,
      1 < groupSizeOf grps a1 → 1 < groupSizeOf grps a2 →
      hostGroupName grps cnts a1 i1 = hostGroupName grps cnts a2 i2 →
      groupRootOf grps a1 = groupRootOf grps a2 ∧ i1 = i2) :
    (∀ p1 ∈ g.nodes, ∀ p2 ∈ g.nodes,
      ((p1.2.hostGroupID = p2.2.hostGroupID ∧ p1.2.hostGroupID ≠ "") ↔
      (groupRootOf grps p1.2.baseApp = groupRootOf grps p2.2.baseApp ∧
        1 < groupSizeOf grps p1.2.baseApp ∧
        1 < groupSizeOf grps p2.2.baseApp ∧
        p1.2.shard = p2.2.shard))) ∧
    (∀ pn ∈ g.nodes, pn.2.hostGroupID ≠ "" →
      ∀ m : Node, (m ∈ subgraphSeeds g pn.2 ↔
        ∃ pm ∈ g.nodes, pm.2 = m ∧
          groupRootOf grps m.baseApp = groupRootOf grps pn.2.baseApp ∧
          1 < groupSizeOf grps m.baseApp ∧ m.shard = pn.2.shard)) := by
  have char := ParseYAML_node_char h hexp hgr hcn
  have hceq := counts_group_eq hgr (infer_elim hcn)
  have hiff : ∀ p1 ∈ g.nodes, ∀ p2 ∈ g.nodes,
      ((p1.2.hostGroupID = p2.2.hostGroupID ∧ p1.2.hostGroupID ≠ "") ↔
      (groupRootOf grps p1.2.baseApp = groupRootOf grps p2.2.baseApp ∧
        1 < groupSizeOf grps p1.2.baseApp ∧
        1 < groupSizeOf grps p2.2.baseApp ∧
        p1.2.shard = p2.2.shard)) := by
    intro p1 hp1 p2 hp2
    obtain ⟨a1, ha1, i1, hi1, hba1, hsh1, hhg1⟩ := char p1 hp1
    obtain ⟨a2, ha2, i2, hi2, hba2, hsh2, hhg2⟩ := char p2 hp2
    rw [hba1, hba2, hsh1, hsh2]
    constructor
    · rintro ⟨heq, hne⟩
      by_cases hs1 : 1 < groupSizeOf grps a1
      case neg =>
        rw [hhg1, if_neg hs1] at hne
        exact absurd rfl hne
      by_cases hs2 : 1 < groupSizeOf grps a2
      case neg =>
        rw [hhg1, hhg2, if_pos hs1, if_neg hs2] at heq
        exact absurd heq (getNodeID_hostgroup_ne _ _ _)
      rw [hhg1, hhg2, if_pos hs1, if_pos hs2] at heq
      obtain ⟨hr, hieq⟩ := hinj a1 ha1 a2 ha2 i1 hi1 i2 hi2 hs1 hs2 heq
      exact ⟨hr, hs1, hs2, by rw [hieq]⟩
    · rintro ⟨hr, hs1, hs2, hshard⟩
      have hieq : i1 = i2 := by exact_mod_cast hshard
      have hcnt : lookupA cnts a1 = lookupA cnts a2 := hceq a1 ha1 a2 ha2 hr
      have hname : hostGroupName grps cnts a1 i1 =
          hostGroupName grps cnts a2 i2 := by
        unfold hostGroupName
        rw [hr, hieq, hcnt]
      constructor
      · rw [hhg1, hhg2, if_pos hs1, if_pos hs2]
        exact hname
      · rw [hhg1, if_pos hs1]
        exact getNodeID_hostgroup_ne _ _ _
  refine ⟨hiff, ?_⟩
  intro pn hpn hne m
  have hseeds : subgraphSeeds g pn.2 =
      (g.nodes.map Prod.snd).filter
        (fun n => n.hostGroupID = pn.2.hostGroupID) := by
    unfold subgraphSeeds
    rw [if_pos hne]
  rw [hseeds]
  constructor
  · intro hm
    obtain ⟨hm1, hm2⟩ := List.mem_filter.mp hm
    obtain ⟨pm, hpm, hpm2⟩ := List.mem_map.mp hm1
    have hmeq : m.hostGroupID = pn.2.hostGroupID := of_decide_eq_true hm2
    have hf := (hiff pm hpm pn hpn).mp ⟨by rw [hpm2]; exact hmeq,
      by rw [hpm2, hmeq]; exact hne⟩
    refine ⟨pm, hpm, hpm2, ?_, ?_, ?_⟩
    · rw [← hpm2]
      exact hf.1
    · rw [← hpm2]
      exact hf.2.1
    · rw [← hpm2]
      exact hf.2.2.2
  · rintro ⟨pm, hpm, hpm2, hroot, hsz, hsh⟩
    obtain ⟨an, han, iN, hiN, hban, hshn, hhgn⟩ := char pn hpn
    have hsn : 1 < groupSizeOf grps pn.2.baseApp := by
      rw [hban]
      by_contra hcon
      rw [hhgn, if_neg hcon] at hne
      exact hne rfl
    have hb := (hiff pm hpm pn hpn).mpr ⟨by rw [hpm2]; exact hroot,
      by rw [hpm2]; exact hsz, hsn, by rw [hpm2]; exact hsh⟩
    apply List.mem_filter.mpr
    refine ⟨List.mem_map.mpr ⟨pm, hpm, hpm2⟩, ?_⟩
    apply decide_eq_true
    rw [← hpm2]
    exact hb.1

/-- Witness: the host-group theorem instantiated on `sorMoopDoc`, whose
host-group names are collision-free, so shard 1 of `sor` seeds exactly
with shard 1 of `moop`. -/
theorem claim_C10_witness :
    (∀ p1 ∈ c10Graph.nodes, ∀ p2 ∈ c10Graph.nodes,
      ((p1.2.hostGroupID = p2.2.hostGroupID ∧ p1.2.hostGroupID ≠ "") ↔
      (groupRootOf c10Grps p1.2.baseApp = groupRootOf c10Grps p2.2.baseApp ∧
        1 < groupSizeOf c10Grps p1.2.baseApp ∧
        1 < groupSizeOf c10Grps p2.2.baseApp ∧
        p1.2.shard = p2.2.shard))) ∧
    (∀ pn ∈ c10Graph.nodes, pn.2.hostGroupID ≠ "" →
      ∀ m : Node, (m ∈ subgraphSeeds c10Graph pn.2 ↔
        ∃ pm ∈ c10Graph.nodes, pm.2 = m ∧
          groupRootOf c10Grps m.baseApp = groupRootOf c10Grps pn.2.baseApp ∧
          1 < groupSizeOf c10Grps m.baseApp ∧ m.shard = pn.2.shard)) :=
  @claim_C10_hostgroup_iff sorMoopDoc c10Graph c10Exp c10Grps c10Cnts
    (by decide) (by decide) (by decide) (by decide) (by decide)
